import Mathlib

/-!
# Tile-pyramid index of geojson-vt (`src/index.js`)

A shallow embedding of the tile index: the id packing `toID`, the work-list
subdivision `splitTile` (the non-streaming loop and the pull function `rs._read`
of the streaming branch), the read path `getTile` and the constructor
`GeoJSONVT`.

Conventions of the embedding.

* JavaScript numbers are modelled by `Int` (tile coordinates, zooms, point
  counts) and by `Rat` (clip bounds, `buffer`, `extent`); rounding of doubles
  beyond `2^53` is outside the model.  `1 << n` is the 32-bit shift `shl1`.
* The collaborators imported by `index.js` (`convert`, `wrap`, `clip`,
  `createTile`, `transform`) are not part of the file; they are parameters,
  bundled in `Collab`.
* `this.tiles` is an association list from packed id to tile, `this.tileCoords`
  a list of coordinates.  The field `created` of `Index` is ghost state: the
  history of ids handed to `createTile`; the program never reads it.
* The `while (stack.length)` loop is run for a bounded number of iterations
  (`splitLoop`); it returns the remaining work list, which is empty exactly
  when the loop has terminated.
-/

namespace VT

/-! ## Data model -/

/-- JavaScript `1 << n` for an integer `n`: the shift count is `n` modulo 32 and
the result is a signed 32-bit integer. -/
def shl1 (n : Int) : Int :=
  if n % 32 = 31 then -2147483648 else 2 ^ (n % 32).toNat

/-- `toID(z, x, y)`: `(((1 << z) * y + x) * 32) + z`. -/
def toID (z x y : Int) : Int :=
  ((shl1 z * y + x) * 32) + z

/-- The merged option object `this.options` (prototype defaults overridden by
the caller's options). -/
structure Options where
  maxZoom : Int := 14
  indexMaxZoom : Int := 5
  indexMaxPoints : Int := 100000
  tolerance : Rat := 3
  extent : Rat := 4096
  buffer : Rat := 64
  lineMetrics : Bool := false
  promoteId : Option String := none
  generateId : Bool := false
  debug : Nat := 0
  useStream : Bool := false
  streamObject : Bool := true
  debugStream : Bool := false
  clearStreamIfMoreThanXCached : Int := 1000
  deriving DecidableEq, Repr

/-- A tile as produced by `createTile`; `source` is the retained pre-clip
feature array (`none` for JavaScript `null`). -/
structure Tile (F : Type) where
  z : Int
  x : Int
  y : Int
  numPoints : Int
  numSimplified : Int
  numFeatures : Int
  minX : Rat
  minY : Rat
  maxX : Rat
  maxY : Rat
  features : List F
  source : Option (List F)
  deriving DecidableEq, Repr

/-- The modules imported by `index.js`: `convert`, `wrap`, `clip`,
`createTile` (`./tile`) and `transform`. -/
structure Collab (D F O : Type) where
  convert : D → Options → List F
  wrap : List F → Options → List F
  clip : List F → Int → Rat → Rat → Nat → Rat → Rat → Options → Option (List F)
  createTile : List F → Int → Int → Int → Options → Tile F
  transform : Tile F → Rat → O

/-- An entry `{z, x, y}` of `this.tileCoords`. -/
structure Coord where
  z : Int
  x : Int
  y : Int
  deriving DecidableEq, Repr

/-- Four consecutive slots `features, z, x, y` of the work list `stack`. -/
structure Entry (F : Type) where
  features : List F
  z : Int
  x : Int
  y : Int
  deriving DecidableEq, Repr

/-- The mutable part of a `GeoJSONVT` object. -/
structure Index (F : Type) where
  tiles : List (Int × Tile F)
  tileCoords : List Coord
  created : List Int
  deriving DecidableEq, Repr

/-- Read `tiles[id]`. -/
def getT {F : Type} : List (Int × Tile F) → Int → Option (Tile F)
  | [], _ => none
  | (k, t) :: c, id => if k = id then some t else getT c id

/-- Write `tiles[id] = t`. -/
def setT {F : Type} : List (Int × Tile F) → Int → Tile F → List (Int × Tile F)
  | [], id, t => [(id, t)]
  | (k, u) :: c, id, t => if k = id then (k, t) :: c else (k, u) :: setT c id t

/-- The keys of `tiles`. -/
def keys {F : Type} (c : List (Int × Tile F)) : List Int :=
  c.map Prod.fst

/-- The coordinates of a work-list entry. -/
def Entry.coord {F : Type} (e : Entry F) : Coord :=
  ⟨e.z, e.x, e.y⟩

/-- The packed id of a coordinate. -/
def Coord.id (c : Coord) : Int :=
  toID c.z c.x c.y

/-! ## `splitTile`, non-streaming branch -/

/-- The drill-down target `(cz, cx, cy)`; `none` when the arguments are
omitted. -/
abbrev Target := Option (Int × Int × Int)

/-- The stop condition of one visit (the `continue` statements before
`tile.source = null`).  The first-pass branch is taken when `!cz` holds, that
is when `cz` is undefined or `0`. -/
def stopHere (opts : Options) (target : Target) (z x y numPoints : Int) : Bool :=
  match target with
  | none => decide (z = opts.indexMaxZoom) || decide (numPoints ≤ opts.indexMaxPoints)
  | some (cz, cx, cy) =>
    if cz = 0 then
      decide (z = opts.indexMaxZoom) || decide (numPoints ≤ opts.indexMaxPoints)
    else
      decide (z = opts.maxZoom) || decide (z = cz) ||
        (decide (x ≠ Int.fdiv cx (shl1 (cz - z))) || decide (y ≠ Int.fdiv cy (shl1 (cz - z))))

/-- The four entries pushed at the end of a visit, in push order
`tl, bl, tr, br`. -/
def childEntries {D F O : Type} (C : Collab D F O) (opts : Options)
    (features : List F) (z x y : Int) (tile : Tile F) : List (Entry F) :=
  let z2 := shl1 z
  let k1 : Rat := 0.5 * opts.buffer / opts.extent
  let k2 : Rat := 0.5 - k1
  let k3 : Rat := 0.5 + k1
  let k4 : Rat := 1 + k1
  let left := C.clip features z2 (x - k1) (x + k3) 0 tile.minX tile.maxX opts
  let right := C.clip features z2 (x + k2) (x + k4) 0 tile.minX tile.maxX opts
  let tl := left.bind fun l => C.clip l z2 (y - k1) (y + k3) 1 tile.minY tile.maxY opts
  let bl := left.bind fun l => C.clip l z2 (y + k2) (y + k4) 1 tile.minY tile.maxY opts
  let tr := right.bind fun r => C.clip r z2 (y - k1) (y + k3) 1 tile.minY tile.maxY opts
  let br := right.bind fun r => C.clip r z2 (y + k2) (y + k4) 1 tile.minY tile.maxY opts
  [⟨tl.getD [], z + 1, x * 2, y * 2⟩,
   ⟨bl.getD [], z + 1, x * 2, y * 2 + 1⟩,
   ⟨tr.getD [], z + 1, x * 2 + 1, y * 2⟩,
   ⟨br.getD [], z + 1, x * 2 + 1, y * 2 + 1⟩]

/-- The lookup-or-create part of a visit: `tile = this.tiles[id]`, and when
absent `createTile`, insertion and a push on `tileCoords`. -/
def ensureTile {D F O : Type} (C : Collab D F O) (opts : Options)
    (s : Index F) (e : Entry F) : Index F × Tile F :=
  let id := toID e.z e.x e.y
  match getT s.tiles id with
  | some t => (s, t)
  | none =>
    let t := C.createTile e.features e.z e.x e.y opts
    ({ tiles := setT s.tiles id t,
       tileCoords := s.tileCoords ++ [⟨e.z, e.x, e.y⟩],
       created := s.created ++ [id] }, t)

/-- One iteration of `while (stack.length)` on the popped entry `e`: the new
index state and the entries pushed, in push order. -/
def visit {D F O : Type} (C : Collab D F O) (opts : Options) (target : Target)
    (s : Index F) (e : Entry F) : Index F × List (Entry F) :=
  let id := toID e.z e.x e.y
  let (s1, tile) := ensureTile C opts s e
  -- tile.source = features
  let s2 : Index F := { s1 with tiles := setT s1.tiles id { tile with source := some e.features } }
  if stopHere opts target e.z e.x e.y tile.numPoints then (s2, [])
  else
    -- tile.source = null
    let s3 : Index F := { s2 with tiles := setT s2.tiles id { tile with source := none } }
    if e.features.isEmpty then (s3, [])
    else (s3, childEntries C opts e.features e.z e.x e.y tile)

/-- At most `fuel` iterations of the work-list loop.  The head of the list is
the top of the stack; the result is the state reached and the work list left. -/
def splitLoop {D F O : Type} (C : Collab D F O) (opts : Options) (target : Target) :
    Nat → Index F → List (Entry F) → Index F × List (Entry F)
  | _, s, [] => (s, [])
  | 0, s, e :: rest => (s, e :: rest)
  | fuel + 1, s, e :: rest =>
    let r := visit C opts target s e
    splitLoop C opts target fuel r.1 (r.2.reverse ++ rest)

/-- `splitTile(features, z, x, y, cz, cx, cy)` with `useStream` false. -/
def splitTile {D F O : Type} (C : Collab D F O) (opts : Options) (fuel : Nat)
    (s : Index F) (features : List F) (z x y : Int) (target : Target) :
    Index F × List (Entry F) :=
  splitLoop C opts target fuel s [⟨features, z, x, y⟩]

/-! ## `getTile` -/

/-- What `getTile` returns: `null`, a transformed tile, the element
`tileArray[0]` (possibly undefined) or the whole `tileArray`. -/
inductive Result (F O : Type) where
  | miss : Result F O
  | tile (o : O) : Result F O
  | single (t : Option (Tile F)) : Result F O
  | branch (ts : List (Option (Tile F))) : Result F O
  deriving DecidableEq, Repr

/-- The wrap of the tile x coordinate, `((x % z2) + z2) % z2`, with the
truncated remainder of JavaScript. -/
def wrapX (z2 x : Int) : Int :=
  Int.tmod (Int.tmod x z2 + z2) z2

/-- The loop `while (!parent && z0 > 0)` of `getTile`.  The first argument is
`z0`; the result is the parent found with its coordinates, or `none` when `z0`
reached `0` without a cached ancestor. -/
def walkUp {F : Type} (tiles : List (Int × Tile F)) :
    Nat → Int → Int → Option (Tile F × Int × Int × Int)
  | 0, _, _ => none
  | z0 + 1, x0, y0 =>
    match getT tiles (toID z0 (Int.fdiv x0 2) (Int.fdiv y0 2)) with
    | some parent => some (parent, z0, Int.fdiv x0 2, Int.fdiv y0 2)
    | none => walkUp tiles z0 (Int.fdiv x0 2) (Int.fdiv y0 2)

/-- `_.findIndex(list, p)`: the first index satisfying `p`, or `-1`. -/
def findIndex (p : Coord → Bool) : List Coord → Int
  | [] => -1
  | a :: l => if p a then 0 else if findIndex p l < 0 then -1 else findIndex p l + 1

/-- `_.sortBy(list, obj => obj.z)`: a stable sort by ascending zoom. -/
def sortByZ (l : List Coord) : List Coord :=
  l.insertionSort fun a b => a.z ≤ b.z

/-- Number of iterations granted to the drill-down started at zoom `z0` for a
target at zoom `z`. -/
def drillFuel (z z0 : Int) : Nat :=
  4 * (z - z0).toNat + 1

/-- The `persist === false` epilogue of `getTile`: the array `tileArray`. -/
def tileArray {F : Type} (s : Index F) (z x y : Int) : List (Option (Tile F)) :=
  let breakIdx := findIndex (fun k => decide (k.z = z) && decide (k.x = x) && decide (k.y = y))
    s.tileCoords
  let spike := s.tileCoords.take (breakIdx + 1).toNat
  let sorted := (sortByZ spike).reverse
  sorted.map fun key => getT s.tiles (toID key.z key.x key.y)

/-- `getTile(z, x, y, persist, returnbranch)`: the value returned and the state
of the index afterwards. -/
def getTile {D F O : Type} (C : Collab D F O) (opts : Options) (s : Index F)
    (z x y : Int) (persist returnbranch : Bool) : Result F O × Index F :=
  if z < 0 ∨ z > 24 then (.miss, s)
  else
    let x := wrapX (shl1 z) x
    let id := toID z x y
    match getT s.tiles id with
    | some t => (.tile (C.transform t opts.extent), s)
    | none =>
      match walkUp s.tiles z.toNat x y with
      | none => (.miss, s)
      | some (parent, z0, x0, y0) =>
        match parent.source with
        | none => (.miss, s)
        | some source =>
          let s1 := (splitTile C opts (drillFuel z z0) s source z0 x0 y0 (some (z, x, y))).1
          if persist then
            match getT s1.tiles id with
            | some t => (.tile (C.transform t opts.extent), s1)
            | none => (.miss, s1)
          else
            let arr := tileArray s1 z x y
            let s2 : Index F := { s1 with tiles := [], tileCoords := [] }
            if returnbranch then (.branch arr, s2) else (.single (arr.headD none), s2)

/-! ## The constructor -/

/-- JavaScript truthiness of `options.promoteId` (`null` or a string). -/
def truthy : Option String → Bool
  | none => false
  | some s => decide (s ≠ "")

/-- The outcome of `new GeoJSONVT(data, options)`: the exception thrown, if
any, the state of the object, and the work list left when the iteration budget
ran out. -/
structure Construction (F : Type) where
  thrown : Option String
  index : Index F
  stack : List (Entry F)
  deriving DecidableEq, Repr

/-- The constructor `GeoJSONVT(data, options)` with `useStream` false. -/
def GeoJSONVT {D F O : Type} (C : Collab D F O) (opts : Options) (fuel : Nat)
    (data : D) : Construction F :=
  if opts.maxZoom < 0 ∨ opts.maxZoom > 24 then
    ⟨some "maxZoom should be in the 0-24 range", ⟨[], [], []⟩, []⟩
  else if truthy opts.promoteId ∧ opts.generateId = true then
    ⟨some "promoteId and generateId cannot be used together.", ⟨[], [], []⟩, []⟩
  else
    let features := C.wrap (C.convert data opts) opts
    if features.length ≠ 0 then
      let r := splitTile C opts fuel ⟨[], [], []⟩ features 0 0 0 none
      ⟨none, r.1, r.2⟩
    else ⟨none, ⟨[], [], []⟩, []⟩

/-! ## `splitTile`, streaming branch -/

/-- The work-list entry from which `getTile(z, x, y, ..)` starts a drill-down in
state `s`, if it starts one: `z` is in range, the wrapped target is not cached,
the upward walk finds a cached ancestor and that ancestor has a source. -/
def drillStart {F : Type} (s : Index F) (z x y : Int) : Option (Entry F) :=
  if z < 0 ∨ z > 24 then none
  else
    match getT s.tiles (toID z (wrapX (shl1 z) x) y) with
    | some _ => none
    | none =>
      match walkUp s.tiles z.toNat (wrapX (shl1 z) x) y with
      | none => none
      | some (parent, z0, x0, y0) => parent.source.map fun source => ⟨source, z0, x0, y0⟩

/-- The id of the strict ancestor `k` levels above `(z, x, y)`. -/
def ancestorID (z x y : Int) (k : Nat) : Int :=
  toID (z - k) (x / 2 ^ k) (y / 2 ^ k)

/-- No strict ancestor of `(z, x, y)` is cached. -/
def NoCachedAncestor {F : Type} (tiles : List (Int × Tile F)) (z x y : Int) : Prop :=
  ∀ k : Nat, 1 ≤ k → (k : Int) ≤ z → getT tiles (ancestorID z x y k) = none

/-- The nearest cached strict ancestor of `(z, x, y)` is `k` levels up and is
the tile `p`. -/
def NearestCachedAncestor {F : Type} (tiles : List (Int × Tile F)) (z x y : Int)
    (k : Nat) (p : Tile F) : Prop :=
  1 ≤ k ∧ (k : Int) ≤ z ∧ getT tiles (ancestorID z x y k) = some p ∧
    ∀ j : Nat, 1 ≤ j → j < k → getT tiles (ancestorID z x y j) = none

/-- A toy instance of the collaborators: features are numbers, `clip` keeps
everything, `createTile` counts the features as points. -/
def exC : Collab (List Nat) Nat (Tile Nat) where
  convert := fun d _ => d
  wrap := fun f _ => f
  clip := fun fs _ _ _ _ _ _ _ => some fs
  createTile := fun fs z x y _ => ⟨z, x, y, fs.length, 0, fs.length, 0, 0, 0, 0, fs, none⟩
  transform := fun t _ => t

/-- Options of the toy runs: index depth 1, drill-down allowed to zoom 4. -/
def exOpts : Options :=
  { maxZoom := 4, indexMaxZoom := 1, indexMaxPoints := 0 }

/-- The index built eagerly from one feature under `exOpts`: the root and its
four children. -/
def exIndex : Index Nat :=
  (GeoJSONVT exC exOpts 100 [7]).index

/-- The state in which the drill-down of `getTile(z, x, y, ..)` started at entry
`e` leaves the index, before the epilogue of `getTile`. -/
def drillState {D F O : Type} (C : Collab D F O) (opts : Options) (s : Index F)
    (z x y : Int) (e : Entry F) : Index F :=
  (splitTile C opts (drillFuel z e.z) s e.features e.z e.x e.y
    (some (z, wrapX (shl1 z) x, y))).1

/-- Cache and log agree: the keys of `tiles` are the packed ids of the entries of
`tileCoords`, in the same order, and no id occurs twice. -/
def Consistent {F : Type} (s : Index F) : Prop :=
  keys s.tiles = s.tileCoords.map Coord.id ∧ (keys s.tiles).Nodup

/-- The invariant of the work-list loop on the bookkeeping: cache and log agree
and every id handed to `createTile` so far is still cached. -/
def Synced {F : Type} (s : Index F) : Prop :=
  Consistent s ∧ s.created = keys s.tiles

/-- The invariant of an index over its lifetime: cache and log agree, no id was
handed to `createTile` twice, and either every created id is still cached or
the cache has been wiped. -/
def Lifetime {F : Type} (s : Index F) : Prop :=
  Consistent s ∧ s.created.Nodup ∧ (s.created = keys s.tiles ∨ s.tiles = [])

/-- A call `getTile(z, x, y, persist, returnbranch)`. -/
structure Call where
  z : Int
  x : Int
  y : Int
  persist : Bool
  returnbranch : Bool
  deriving DecidableEq, Repr

/-- The state of the index after a sequence of `getTile` calls. -/
def runCalls {D F O : Type} (C : Collab D F O) (opts : Options) :
    Index F → List Call → Index F
  | s, [] => s
  | s, c :: cs => runCalls C opts (getTile C opts s c.z c.x c.y c.persist c.returnbranch).2 cs

/-! ### The quadtree of tile coordinates and the canonical feature sets -/

/-- A tile coordinate of the pyramid: `z` in `[0, 24]`, `x` and `y` in
`[0, 2^z)`. -/
def Coord.Valid (c : Coord) : Prop :=
  0 ≤ c.z ∧ c.z ≤ 24 ∧ 0 ≤ c.x ∧ c.x < 2 ^ c.z.toNat ∧ 0 ≤ c.y ∧ c.y < 2 ^ c.z.toNat

/-- The parent coordinate. -/
def Coord.parent (c : Coord) : Coord :=
  ⟨c.z - 1, c.x / 2, c.y / 2⟩

/-- The four child coordinates, in the order in which `splitTile` pushes them. -/
def Coord.children (c : Coord) : List Coord :=
  [⟨c.z + 1, c.x * 2, c.y * 2⟩, ⟨c.z + 1, c.x * 2, c.y * 2 + 1⟩,
   ⟨c.z + 1, c.x * 2 + 1, c.y * 2⟩, ⟨c.z + 1, c.x * 2 + 1, c.y * 2 + 1⟩]

/-- The ancestor `k` levels above a coordinate. -/
def Coord.ancestor (c : Coord) (k : Nat) : Coord :=
  ⟨c.z - k, c.x / 2 ^ k, c.y / 2 ^ k⟩

/-- The feature set that subdivision from the root feature set `root` hands to
the tile `(n, x, y)`: `root` at zoom 0, and below it the quadrant, selected by
the parities of `x` and `y`, of the entries pushed by a visit of the parent. -/
def featsAt {D F O : Type} (C : Collab D F O) (opts : Options) (root : List F) :
    Nat → Int → Int → List F
  | 0, _, _ => root
  | n + 1, x, y =>
    match (childEntries C opts (featsAt C opts root n (x / 2) (y / 2)) n (x / 2) (y / 2)
        (C.createTile (featsAt C opts root n (x / 2) (y / 2)) n (x / 2) (y / 2) opts))[
        (2 * (x % 2) + y % 2).toNat]? with
    | some e => e.features
    | none => []

/-- The canonical feature set of a coordinate. -/
def feats {D F O : Type} (C : Collab D F O) (opts : Options) (root : List F) (c : Coord) :
    List F :=
  featsAt C opts root c.z.toNat c.x c.y

/-- The canonical tile of a coordinate: `createTile` on its canonical features. -/
def tileAt {D F O : Type} (C : Collab D F O) (opts : Options) (root : List F) (c : Coord) :
    Tile F :=
  C.createTile (feats C opts root c) c.z c.x c.y opts

/-- A tile with its `source` field blanked: what `createTile` computed. -/
def Tile.erase {F : Type} (t : Tile F) : Tile F :=
  { t with source := none }

/-- The work-list entry of a coordinate with its canonical features. -/
def entryAt {D F O : Type} (C : Collab D F O) (opts : Options) (root : List F) (c : Coord) :
    Entry F :=
  ⟨feats C opts root c, c.z, c.x, c.y⟩

/-- The coordinates of the entries of a work list. -/
def coordsOf {F : Type} (st : List (Entry F)) : List Coord :=
  st.map Entry.coord

/-- The invariant of the work-list loop started from a well-formed state, for
the root features `root` and the zoom cap `Z` of the pass: bookkeeping in sync;
logged and pending coordinates valid; pending entries carry their canonical
features; a cached tile is the canonical tile of its coordinate up to `source`,
which is absent or the canonical feature set; pending coordinates are pairwise
distinct; the parent of a logged or pending non-root coordinate is logged, not
pending, had features and has its source cleared; a logged, non-pending tile
with cleared source either had no features or has each child logged or pending. -/
structure Good {D F O : Type} (C : Collab D F O) (opts : Options) (root : List F) (Z : Int)
    (s : Index F) (st : List (Entry F)) : Prop where
  synced : Synced s
  logValid : ∀ c ∈ s.tileCoords, c.Valid
  stValid : ∀ e ∈ st, e.coord.Valid ∧ e.z ≤ Z ∧ e.features = feats C opts root e.coord
  tiles : ∀ c ∈ s.tileCoords, ∃ t, getT s.tiles c.id = some t ∧
    t.erase = (tileAt C opts root c).erase ∧
    (t.source = none ∨ t.source = some (feats C opts root c))
  stNodup : (coordsOf st).Nodup
  parent : ∀ c, (c ∈ s.tileCoords ∨ c ∈ coordsOf st) → 1 ≤ c.z →
    c.parent ∈ s.tileCoords ∧ c.parent ∉ coordsOf st ∧ feats C opts root c.parent ≠ [] ∧
      ∀ t, getT s.tiles c.parent.id = some t → t.source = none
  kids : ∀ c ∈ s.tileCoords, c ∉ coordsOf st →
    (∀ t, getT s.tiles c.id = some t → t.source = none) →
    feats C opts root c = [] ∨ ∀ k ∈ c.children, k ∈ s.tileCoords ∨ k ∈ coordsOf st

/-- The number of nodes of a full quadtree of depth `k`: `(4^(k+1) - 1) / 3`. -/
def treeSize : Nat → Nat
  | 0 => 1
  | k + 1 => 4 * treeSize k + 1

/-- The bound on the visits caused by one entry in a root pass of depth `d`. -/
def rootWeight {F : Type} (d : Int) (e : Entry F) : Nat :=
  treeSize (d - e.z).toNat

/-- The bound on the visits caused by one entry in a drill-down to
`(cz, cx, cy)`: `1 + 4 * (cz - z)` for a strict ancestor of the target, `1` for
any other entry. -/
def drillWeight {F : Type} (cz cx cy : Int) (e : Entry F) : Nat :=
  if e.z < cz ∧ e.x = cx / 2 ^ (cz - e.z).toNat ∧ e.y = cy / 2 ^ (cz - e.z).toNat then
    1 + 4 * (cz - e.z).toNat
  else 1

/-- The root feature set the constructor hands to `splitTile`. -/
def rootFeatures {D F O : Type} (C : Collab D F O) (opts : Options) (data : D) : List F :=
  C.wrap (C.convert data opts) opts

/-- The stop test of the root pass on the canonical tile of a coordinate. -/
def rootStop {D F O : Type} (C : Collab D F O) (opts : Options) (root : List F) (c : Coord) :
    Bool :=
  stopHere opts none c.z c.x c.y (tileAt C opts root c).numPoints

/-- The invariant of the root pass: `Good` with the cap `indexMaxZoom`, no
logged coordinate deeper than `indexMaxZoom`, and every logged, non-pending
tile retains its canonical features as `source` exactly when the root pass
stops at it. -/
structure RootPass {D F O : Type} (C : Collab D F O) (opts : Options) (root : List F)
    (s : Index F) (st : List (Entry F)) : Prop where
  good : Good C opts root opts.indexMaxZoom s st
  cap : ∀ c ∈ s.tileCoords, c.z ≤ opts.indexMaxZoom
  src : ∀ c ∈ s.tileCoords, c ∉ coordsOf st → ∀ t, getT s.tiles c.id = some t →
    t.source = if rootStop C opts root c = true then some (feats C opts root c) else none

/-- The tile a visit works on: the cached one, else the one just created. -/
def visitedTile {D F O : Type} (C : Collab D F O) (opts : Options) (s : Index F)
    (e : Entry F) : Tile F :=
  (getT s.tiles (toID e.z e.x e.y)).getD (C.createTile e.features e.z e.x e.y opts)

/-- The `source` a visit leaves on its tile. -/
def visitedSource {D F O : Type} (C : Collab D F O) (opts : Options) (target : Target)
    (s : Index F) (e : Entry F) : Option (List F) :=
  if stopHere opts target e.z e.x e.y (visitedTile C opts s e).numPoints then some e.features
  else none

/-- The progress invariant of a drill-down to `T`: the target is logged, or one
of its ancestors at most `K` levels up is pending. -/
def Reaching {F : Type} (T : Coord) (K : Nat) (s : Index F) (st : List (Entry F)) : Prop :=
  T ∈ s.tileCoords ∨ ∃ j : Nat, j ≤ K ∧ T.ancestor j ∈ coordsOf st

instance sortByZ_total : IsTotal Coord fun a b => a.z ≤ b.z :=
  ⟨fun a b => le_total a.z b.z⟩

instance sortByZ_trans : IsTrans Coord fun a b => a.z ≤ b.z :=
  ⟨fun _ _ _ h1 h2 => le_trans h1 h2⟩

/-- A second toy instance: as `exC`, but the x-axis clip of a stripe that starts
left of the pyramid returns `null`, so the left children of the tiles in column
0 receive no feature. -/
def exClipped : Collab (List Nat) Nat (Tile Nat) :=
  { exC with clip := fun fs _ k1 _ axis _ _ _ => if axis = 0 ∧ k1 < 0 then none else some fs }

/-- The index built eagerly by `exClipped` from one feature under `exOpts`. -/
def exClippedIndex : Index Nat :=
  (GeoJSONVT exClipped exOpts 100 [7]).index

instance Coord.decidableValid (c : Coord) : Decidable c.Valid := by
  unfold Coord.Valid
  exact inferInstance

/-- The coordinates of zoom level `z`. -/
def levelCoords (z : Nat) : List Coord :=
  (List.range (2 ^ z)).flatMap fun x => (List.range (2 ^ z)).map fun y => ⟨z, x, y⟩

/-- The coordinates of the full pyramid down to zoom 2. -/
def pyramid2 : List Coord :=
  levelCoords 0 ++ levelCoords 1 ++ levelCoords 2

/-- The options `o` with `indexMaxZoom` set to `d`. -/
def withDepth (o : Options) (d : Int) : Options :=
  { o with indexMaxZoom := d }

/-- The collaborators do not read `options.indexMaxZoom`. -/
def IgnoresIndexDepth {D F O : Type} (C : Collab D F O) : Prop :=
  ∀ (o : Options) (d : Int),
    (∀ data, C.convert data (withDepth o d) = C.convert data o) ∧
    (∀ fs, C.wrap fs (withDepth o d) = C.wrap fs o) ∧
    (∀ fs z2 k1 k2 axis mn mx,
      C.clip fs z2 k1 k2 axis mn mx (withDepth o d) = C.clip fs z2 k1 k2 axis mn mx o) ∧
    (∀ fs z x y, C.createTile fs z x y (withDepth o d) = C.createTile fs z x y o)

/-- Options of the toy runs with `maxZoom = 0`. -/
def exFlat : Options :=
  { maxZoom := 0, indexMaxZoom := 0, indexMaxPoints := 0 }

/-- Options of the toy runs of depth 2: `maxZoom = 4`, `indexMaxZoom = 2`,
`indexMaxPoints = 0`. -/
def exDeep : Options :=
  { maxZoom := 4, indexMaxZoom := 2, indexMaxPoints := 0 }

/-- Options of a toy run with an index depth beyond the 32-bit shift:
`indexMaxZoom = 34`, and `indexMaxPoints = -1` so that no tile is too simple. -/
def exCornerOpts : Options :=
  { maxZoom := 14, indexMaxZoom := 34, indexMaxPoints := -1 }

/-- The bound on the visits caused by one entry in a drill-down to
`(cz, cx, cy)`, with the path test exactly as the loop computes it:
`1 + 4 * (cz - z)` for an entry above the target that passes the test, `1` for
any other entry. -/
def pathWeight {F : Type} (cz cx cy : Int) (e : Entry F) : Nat :=
  if e.z < cz ∧ e.x = Int.fdiv cx (shl1 (cz - e.z)) ∧ e.y = Int.fdiv cy (shl1 (cz - e.z)) then
    1 + 4 * (cz - e.z).toNat
  else 1

/-- Modelled from the spec: the buffer fraction `k1 = buffer / (2 * extent)`. -/
def bufferFraction (opts : Options) : Rat :=
  (opts.buffer : Rat) / (2 * (opts.extent : Rat))

/-- Modelled from the spec: the stripe of child column (or row) `2 * x + i` of
the tile column `x`, for `i = 0` or `1`, in units of the parent tile size:
`[x - k1, x + 0.5 + k1]` for `i = 0` and `[x + 0.5 - k1, x + 1 + k1]` for
`i = 1`. -/
def stripe (opts : Options) (x : Int) (i : Nat) : Rat × Rat :=
  if i = 0 then ((x : Rat) - bufferFraction opts, (x : Rat) + 0.5 + bufferFraction opts)
  else ((x : Rat) + 0.5 - bufferFraction opts, (x : Rat) + 1 + bufferFraction opts)

/-- Modelled from the spec: the features of child `(2 * x + i, 2 * y + j)`, the
parent's features clipped to stripe `i` in `x`, then to stripe `j` in `y`; the
empty list when a clip yields nothing. -/
def stripeClip {D F O : Type} (C : Collab D F O) (opts : Options)
    (features : List F) (z x y : Int) (tile : Tile F) (i j : Nat) : List F :=
  ((C.clip features (shl1 z) (stripe opts x i).1 (stripe opts x i).2 0 tile.minX tile.maxX
      opts).bind fun l =>
    C.clip l (shl1 z) (stripe opts y j).1 (stripe opts y j).2 1 tile.minY tile.maxY opts).getD []

/-- The entries a drill-down from zoom `z0` to `T` pushes: deeper than `z0`, not
deeper than `T`, not deeper than `maxZoom` when `z0` is not, and children of a
strict ancestor of `T` whose zoom is not `maxZoom`. -/
def PathChild (opts : Options) (z0 : Int) (T : Coord) (c : Coord) : Prop :=
  z0 < c.z ∧ c.z ≤ T.z ∧ (z0 ≤ opts.maxZoom → c.z ≤ opts.maxZoom) ∧
    ∃ j : Nat, 1 ≤ j ∧ (j : Int) ≤ T.z - z0 ∧ c.parent = T.ancestor j ∧
      (T.ancestor j).z ≠ opts.maxZoom

theorem shl1_eq_pow (z : Int) (h0 : 0 ≤ z) (h1 : z ≤ 30) : shl1 z = 2 ^ z.toNat := by
  have hm : z % 32 = z := Int.emod_eq_of_lt h0 (by omega)
  unfold shl1
  rw [hm, if_neg (by omega)]

theorem shl1_pos (z : Int) (h0 : 0 ≤ z) (h1 : z ≤ 30) : 0 < shl1 z := by
  rw [shl1_eq_pow z h0 h1]; positivity

theorem toID_eq (z x y : Int) (h0 : 0 ≤ z) (h1 : z ≤ 30) :
    toID z x y = ((2 ^ z.toNat * y + x) * 32) + z := by
  unfold toID; rw [shl1_eq_pow z h0 h1]

/-- The packing is injective as soon as the zooms are in `[0, 30]` and the
x coordinates are in `[0, 2^z)`; `y` is unrestricted. -/
theorem toID_inj {z1 x1 y1 z2 x2 y2 : Int}
    (hz1 : 0 ≤ z1) (hz1' : z1 ≤ 30) (hz2 : 0 ≤ z2) (hz2' : z2 ≤ 30)
    (hx1 : 0 ≤ x1) (hx1' : x1 < 2 ^ z1.toNat) (hx2 : 0 ≤ x2) (hx2' : x2 < 2 ^ z2.toNat)
    (h : toID z1 x1 y1 = toID z2 x2 y2) : z1 = z2 ∧ x1 = x2 ∧ y1 = y2 := by
  rw [toID_eq z1 x1 y1 hz1 hz1', toID_eq z2 x2 y2 hz2 hz2'] at h
  have hz : z1 = z2 := by omega
  subst hz
  have hP : (0 : Int) < 2 ^ z1.toNat := by positivity
  have hq : 2 ^ z1.toNat * y1 + x1 = 2 ^ z1.toNat * y2 + x2 := by omega
  have e1 : (2 ^ z1.toNat * y1 + x1) % 2 ^ z1.toNat = x1 := by
    rw [Int.add_comm, Int.add_mul_emod_self_left, Int.emod_eq_of_lt hx1 hx1']
  have e2 : (2 ^ z1.toNat * y2 + x2) % 2 ^ z1.toNat = x2 := by
    rw [Int.add_comm, Int.add_mul_emod_self_left, Int.emod_eq_of_lt hx2 hx2']
  have hx : x1 = x2 := by rw [← e1, ← e2, hq]
  subst hx
  refine ⟨rfl, rfl, ?_⟩
  have : 2 ^ z1.toNat * y1 = 2 ^ z1.toNat * y2 := by omega
  exact mul_left_cancel₀ (ne_of_gt hP) this


/-! ## The wrap of `x` and the upward walk -/

theorem neg_lt_tmod (x P : Int) (hP : 0 < P) : -P < Int.tmod x P := by
  have h := Int.tmod_add_tdiv x P
  rcases le_or_lt 0 x with hx | hx
  · have := Int.tmod_nonneg P hx; omega
  · have h2 : Int.tdiv x P = -((-x) / P) := by
      have : x = -(-x) := by omega
      rw [this, Int.neg_tdiv, Int.tdiv_eq_ediv (by omega) (by omega)]
      simp
    have h3 := Int.emod_add_ediv (-x) P
    have h4 := Int.emod_lt_of_pos (-x) hP
    have h5 := Int.emod_nonneg (-x) (ne_of_gt hP)
    rw [h2] at h
    have : P * -(-x / P) = -(P * (-x / P)) := by ring
    omega

theorem tmod_emod (x P : Int) : (Int.tmod x P) % P = x % P := by
  have h := Int.tmod_add_tdiv x P
  conv_rhs => rw [← h]
  rw [Int.add_mul_emod_self_left]

/-- For a positive modulus the wrap is the Euclidean remainder. -/
theorem wrapX_eq_emod (x P : Int) (hP : 0 < P) : wrapX P x = x % P := by
  have h1 := neg_lt_tmod x P hP
  unfold wrapX
  rw [Int.tmod_eq_emod (by omega) (by omega), Int.add_emod_self, tmod_emod]

theorem wrapX_shl1 (z x : Int) (h0 : 0 ≤ z) (h1 : z ≤ 24) :
    wrapX (shl1 z) x = x % 2 ^ z.toNat := by
  rw [shl1_eq_pow z h0 (by omega)]
  exact wrapX_eq_emod x _ (by positivity)

theorem wrapX_add_mul (z x k : Int) (h0 : 0 ≤ z) (h1 : z ≤ 24) :
    wrapX (shl1 z) (x + k * 2 ^ z.toNat) = wrapX (shl1 z) x := by
  rw [wrapX_shl1 _ _ h0 h1, wrapX_shl1 _ _ h0 h1, Int.add_mul_emod_self]

theorem fdiv_two (x : Int) : Int.fdiv x 2 = x / 2 :=
  Int.fdiv_eq_ediv x (by decide)

theorem ediv_ediv_pos (x b c : Int) (hb : 0 < b) (hc : 0 < c) : x / b / c = x / (b * c) := by
  apply eq_of_forall_le_iff
  intro n
  rw [Int.le_ediv_iff_mul_le hc, Int.le_ediv_iff_mul_le hb, Int.le_ediv_iff_mul_le (by positivity),
    mul_assoc, mul_comm c b]

theorem ediv_two_pow_succ (x : Int) (k : Nat) : x / 2 / 2 ^ k = x / 2 ^ (k + 1) := by
  rw [ediv_ediv_pos x 2 _ (by decide) (by positivity), pow_succ, mul_comm]

/-- The walk returns nothing exactly when no strict ancestor is cached. -/
theorem walkUp_eq_none {F : Type} (tiles : List (Int × Tile F)) (n : Nat) (x y : Int) :
    walkUp tiles n x y = none ↔ NoCachedAncestor tiles n x y := by
  induction n generalizing x y with
  | zero =>
    simp only [walkUp, true_iff]
    intro k hk hk'
    omega
  | succ n ih =>
    simp only [walkUp, fdiv_two]
    constructor
    · intro h k hk hk'
      cases hg : getT tiles (toID (n : Int) (x / 2) (y / 2)) with
      | some p => rw [hg] at h; simp at h
      | none =>
        rw [hg] at h
        have ih' := (ih (x / 2) (y / 2)).1 h
        rcases Nat.eq_or_lt_of_le hk with h1 | h1
        · subst h1
          simp only [ancestorID, pow_one]
          have : ((n + 1 : Nat) : Int) - ((1 : Nat) : Int) = n := by push_cast; ring
          rw [this]; exact hg
        · have := ih' (k - 1) (by omega) (by omega)
          simp only [ancestorID, ediv_two_pow_succ] at this
          have e1 : k - 1 + 1 = k := by omega
          have e2 : (n : Int) - ((k - 1 : Nat) : Int) = ((n + 1 : Nat) : Int) - (k : Int) := by
            omega
          rw [e1, e2] at this
          exact this
    · intro h
      have h1 := h 1 (le_refl 1) (by push_cast; omega)
      simp only [ancestorID, pow_one] at h1
      have : ((n + 1 : Nat) : Int) - ((1 : Nat) : Int) = n := by push_cast; ring
      rw [this] at h1
      rw [h1]
      apply (ih (x / 2) (y / 2)).2
      intro k hk hk'
      have := h (k + 1) (by omega) (by push_cast; omega)
      simp only [ancestorID, ediv_two_pow_succ]
      simp only [ancestorID] at this
      have e2 : ((n + 1 : Nat) : Int) - ((k + 1 : Nat) : Int) = (n : Int) - (k : Int) := by
        push_cast; ring
      rw [e2] at this
      exact this

/-- When the walk returns a parent, it is the nearest cached strict ancestor,
and the coordinates returned are those of that ancestor. -/
theorem walkUp_eq_some {F : Type} (tiles : List (Int × Tile F)) (n : Nat) (x y : Int)
    (p : Tile F) (z0 x0 y0 : Int) (h : walkUp tiles n x y = some (p, z0, x0, y0)) :
    ∃ k : Nat, NearestCachedAncestor tiles n x y k p ∧
      z0 = (n : Int) - k ∧ x0 = x / 2 ^ k ∧ y0 = y / 2 ^ k := by
  induction n generalizing x y with
  | zero => simp [walkUp] at h
  | succ n ih =>
    simp only [walkUp, fdiv_two] at h
    have e0 : ((n + 1 : Nat) : Int) - ((1 : Nat) : Int) = n := by push_cast; ring
    cases hg : getT tiles (toID (n : Int) (x / 2) (y / 2)) with
    | some q =>
      rw [hg] at h
      simp only [Option.some.injEq, Prod.mk.injEq] at h
      obtain ⟨rfl, rfl, rfl, rfl⟩ := h
      refine ⟨1, ⟨le_refl 1, by push_cast; omega, ?_, ?_⟩, by push_cast; ring, by simp, by simp⟩
      · simp only [ancestorID, pow_one, e0]; exact hg
      · intro j hj hj'; omega
    | none =>
      rw [hg] at h
      obtain ⟨k, ⟨hk1, hk2, hk3, hk4⟩, hz, hx, hy⟩ := ih (x / 2) (y / 2) h
      refine ⟨k + 1, ⟨by omega, by push_cast; omega, ?_, ?_⟩, by push_cast; omega, ?_, ?_⟩
      · simp only [ancestorID, ediv_two_pow_succ] at hk3
        simp only [ancestorID]
        have e2 : ((n + 1 : Nat) : Int) - ((k + 1 : Nat) : Int) = (n : Int) - (k : Int) := by
          push_cast; ring
        rw [e2]; exact hk3
      · intro j hj hj'
        rcases Nat.eq_or_lt_of_le hj with h1 | h1
        · subst h1
          simp only [ancestorID, pow_one, e0]; exact hg
        · have := hk4 (j - 1) (by omega) (by omega)
          simp only [ancestorID, ediv_two_pow_succ] at this
          simp only [ancestorID]
          have e1 : j - 1 + 1 = j := by omega
          have e2 : (n : Int) - ((j - 1 : Nat) : Int) = ((n + 1 : Nat) : Int) - (j : Int) := by
            omega
          rw [e1, e2] at this
          exact this
      · rw [hx, ediv_two_pow_succ]
      · rw [hy, ediv_two_pow_succ]

/-! ## The shape of `getTile` -/

/-- Without a drill-down `getTile` is a pure read: the index is unchanged and
the result is the transformed cached tile on a hit, a miss otherwise. -/
theorem getTile_of_drillStart_none {D F O : Type} (C : Collab D F O) (opts : Options)
    (s : Index F) (z x y : Int) (persist returnbranch : Bool)
    (h : drillStart s z x y = none) :
    getTile C opts s z x y persist returnbranch =
      (if z < 0 ∨ z > 24 then Result.miss
       else match getT s.tiles (toID z (wrapX (shl1 z) x) y) with
         | some t => Result.tile (C.transform t opts.extent)
         | none => Result.miss, s) := by
  unfold drillStart at h
  unfold getTile
  by_cases hz : z < 0 ∨ z > 24
  · simp [hz]
  · simp only [hz, if_false] at h ⊢
    cases hg : getT s.tiles (toID z (wrapX (shl1 z) x) y) with
    | some t => simp
    | none =>
      rw [hg] at h
      simp only at h ⊢
      cases hw : walkUp s.tiles z.toNat (wrapX (shl1 z) x) y with
      | none => simp
      | some q =>
        obtain ⟨p, z0, x0, y0⟩ := q
        rw [hw] at h
        simp only [Option.map_eq_none'] at h
        simp [h]

/-- With a drill-down `getTile` runs `splitTile` from the start entry and then
its epilogue. -/
theorem getTile_of_drillStart_some {D F O : Type} (C : Collab D F O) (opts : Options)
    (s : Index F) (z x y : Int) (persist returnbranch : Bool) (e : Entry F)
    (h : drillStart s z x y = some e) :
    getTile C opts s z x y persist returnbranch =
      if persist then
        (match getT (drillState C opts s z x y e).tiles (toID z (wrapX (shl1 z) x) y) with
          | some t => Result.tile (C.transform t opts.extent)
          | none => Result.miss, drillState C opts s z x y e)
      else
        (if returnbranch then
            Result.branch (tileArray (drillState C opts s z x y e) z (wrapX (shl1 z) x) y)
          else
            Result.single
              ((tileArray (drillState C opts s z x y e) z (wrapX (shl1 z) x) y).headD none),
          { drillState C opts s z x y e with tiles := [], tileCoords := [] }) := by
  unfold drillStart at h
  unfold getTile drillState
  by_cases hz : z < 0 ∨ z > 24
  · simp [hz] at h
  · simp only [hz, if_false] at h ⊢
    cases hg : getT s.tiles (toID z (wrapX (shl1 z) x) y) with
    | some t => rw [hg] at h; simp at h
    | none =>
      rw [hg] at h
      simp only at h ⊢
      cases hw : walkUp s.tiles z.toNat (wrapX (shl1 z) x) y with
      | none => rw [hw] at h; simp at h
      | some q =>
        obtain ⟨p, z0, x0, y0⟩ := q
        rw [hw] at h
        simp only at h ⊢
        cases hs : p.source with
        | none => rw [hs] at h; simp at h
        | some src =>
          rw [hs] at h
          simp only [Option.map_some', Option.some.injEq] at h
          subst h
          simp only
          cases persist <;> cases returnbranch <;> simp <;> split <;> simp_all

/-! ## The `persist === false` epilogue -/

theorem findIndex_nonneg_of_mem (p : Coord → Bool) (l : List Coord) (a : Coord)
    (ha : a ∈ l) (hp : p a = true) : 0 ≤ findIndex p l := by
  induction l with
  | nil => cases ha
  | cons b l ih =>
    simp only [findIndex]
    by_cases hb : p b = true
    · simp [hb]
    · rcases List.mem_cons.1 ha with rfl | h
      · exact absurd hp hb
      · have := ih h
        simp only [hb, Bool.false_eq_true, if_false]
        rw [if_neg (by omega)]
        omega

/-- On a list `pre ++ a :: post` whose first element satisfying `p` is `a`,
`findIndex` is the length of `pre`. -/
theorem findIndex_append (p : Coord → Bool) (pre post : List Coord) (a : Coord)
    (hpre : ∀ b ∈ pre, p b = false) (ha : p a = true) :
    findIndex p (pre ++ a :: post) = pre.length := by
  induction pre with
  | nil => simp [findIndex, ha]
  | cons b pre ih =>
    have hb : p b = false := hpre b (List.mem_cons_self _ _)
    have ih' := ih fun c hc => hpre c (List.mem_cons_of_mem _ hc)
    rw [List.cons_append]
    simp only [findIndex, hb, Bool.false_eq_true, if_false]
    rw [ih', if_neg (by omega)]
    simp

theorem sortByZ_reverse_perm (l : List Coord) : (sortByZ l).reverse.Perm l :=
  (List.reverse_perm _).trans (List.perm_insertionSort _ l)

theorem sortByZ_reverse_sorted (l : List Coord) :
    (sortByZ l).reverse.Pairwise fun a b => b.z ≤ a.z := by
  rw [List.pairwise_reverse]
  exact List.sorted_insertionSort (fun a b : Coord => a.z ≤ b.z) l

/-- The array built by the epilogue when the log is `pre ++ target :: post` and
`target` does not occur in `pre`: the tiles of a zoom-descending rearrangement
of `pre ++ [target]`. -/
theorem tileArray_spec {F : Type} (s : Index F) (z x y : Int) (pre post : List Coord)
    (hlog : s.tileCoords = pre ++ ⟨z, x, y⟩ :: post) (hpre : (⟨z, x, y⟩ : Coord) ∉ pre) :
    ∃ ks : List Coord,
      tileArray s z x y = ks.map (fun k => getT s.tiles (toID k.z k.x k.y)) ∧
      ks.Perm (pre ++ [⟨z, x, y⟩]) ∧ ks.Pairwise fun a b => b.z ≤ a.z := by
  have hidx : findIndex (fun k => decide (k.z = z) && decide (k.x = x) && decide (k.y = y))
      (pre ++ ⟨z, x, y⟩ :: post) = pre.length := by
    apply findIndex_append
    · intro b hb
      by_contra hc
      have hc' : b.z = z ∧ b.x = x ∧ b.y = y := by simpa [and_assoc] using hc
      apply hpre
      have : b = ⟨z, x, y⟩ := by
        cases b; simp only [Coord.mk.injEq]; exact hc'
      rw [← this]; exact hb
    · simp
  have htake : (pre ++ ⟨z, x, y⟩ :: post).take ((pre.length : Int) + 1).toNat
      = pre ++ [⟨z, x, y⟩] := by
    have : ((pre.length : Int) + 1).toNat = pre.length + 1 := by omega
    rw [this, List.take_append_eq_append_take]
    simp
  refine ⟨(sortByZ (pre ++ [⟨z, x, y⟩])).reverse, ?_, sortByZ_reverse_perm _,
    sortByZ_reverse_sorted _⟩
  unfold tileArray
  simp only [hlog, hidx, htake]

/-! ## The association list `tiles` -/

theorem getT_setT_self {F : Type} (c : List (Int × Tile F)) (id : Int) (t : Tile F) :
    getT (setT c id t) id = some t := by
  induction c with
  | nil => simp [setT, getT]
  | cons a c ih =>
    obtain ⟨k, u⟩ := a
    by_cases h : k = id
    · simp [setT, getT, h]
    · simp [setT, getT, h, ih]

theorem getT_setT_ne {F : Type} (c : List (Int × Tile F)) (id id' : Int) (t : Tile F)
    (h : id' ≠ id) : getT (setT c id t) id' = getT c id' := by
  induction c with
  | nil => simp [setT, getT, Ne.symm h]
  | cons a c ih =>
    obtain ⟨k, u⟩ := a
    by_cases hk : k = id
    · subst hk
      simp [setT, getT, Ne.symm h]
    · by_cases hk' : k = id'
      · subst hk'
        simp [setT, getT, hk]
      · simp [setT, getT, hk, hk', ih]

theorem getT_eq_none_iff {F : Type} (c : List (Int × Tile F)) (id : Int) :
    getT c id = none ↔ id ∉ keys c := by
  induction c with
  | nil => simp [getT, keys]
  | cons a c ih =>
    obtain ⟨k, u⟩ := a
    by_cases hk : k = id
    · simp [getT, keys, hk]
    · have hk' : ¬ id = k := fun h => hk h.symm
      simp only [getT, hk, if_false, ih, keys, List.map_cons, List.mem_cons, hk', false_or]

theorem getT_isSome_iff {F : Type} (c : List (Int × Tile F)) (id : Int) :
    (∃ t, getT c id = some t) ↔ id ∈ keys c := by
  rw [← not_iff_not, ← getT_eq_none_iff]
  cases getT c id <;> simp

theorem keys_setT_of_some {F : Type} (c : List (Int × Tile F)) (id : Int) (t u : Tile F)
    (h : getT c id = some u) : keys (setT c id t) = keys c := by
  induction c with
  | nil => simp [getT] at h
  | cons a c ih =>
    obtain ⟨k, v⟩ := a
    by_cases hk : k = id
    · simp [setT, keys, hk]
    · simp only [getT, hk, if_false] at h
      have := ih h
      simp only [keys] at this
      simp [setT, keys, hk, this]

theorem keys_setT_of_none {F : Type} (c : List (Int × Tile F)) (id : Int) (t : Tile F)
    (h : getT c id = none) : keys (setT c id t) = keys c ++ [id] := by
  induction c with
  | nil => simp [setT, keys]
  | cons a c ih =>
    obtain ⟨k, v⟩ := a
    by_cases hk : k = id
    · simp [getT, hk] at h
    · simp only [getT, hk, if_false] at h
      have := ih h
      simp only [keys] at this
      simp [setT, keys, hk, this]

theorem setT_setT {F : Type} (c : List (Int × Tile F)) (id : Int) (t u : Tile F) :
    setT (setT c id t) id u = setT c id u := by
  induction c with
  | nil => simp [setT]
  | cons a c ih =>
    obtain ⟨k, v⟩ := a
    by_cases hk : k = id
    · simp [setT, hk]
    · simp [setT, hk, ih]

theorem keys_setT_setT {F : Type} (c : List (Int × Tile F)) (id : Int) (t u : Tile F) :
    keys (setT (setT c id t) id u) = keys (setT c id t) := by
  exact keys_setT_of_some _ id u t (getT_setT_self c id t)

theorem walkUp_nil {F : Type} (n : Nat) (x y : Int) :
    walkUp ([] : List (Int × Tile F)) n x y = none := by
  induction n generalizing x y with
  | zero => rfl
  | succ n ih => simp [walkUp, getT, ih]

/-! ## One visit of the work-list loop -/

theorem ensureTile_snd {D F O : Type} (C : Collab D F O) (opts : Options) (s : Index F)
    (e : Entry F) : (ensureTile C opts s e).2 = visitedTile C opts s e := by
  simp only [ensureTile, visitedTile]
  cases h : getT s.tiles (toID e.z e.x e.y) <;> simp

theorem ensureTile_get {D F O : Type} (C : Collab D F O) (opts : Options) (s : Index F)
    (e : Entry F) :
    getT (ensureTile C opts s e).1.tiles (toID e.z e.x e.y) = some (visitedTile C opts s e) := by
  simp only [ensureTile, visitedTile]
  cases h : getT s.tiles (toID e.z e.x e.y) with
  | none => simp [getT_setT_self]
  | some t => simp [h]

theorem ensureTile_get_ne {D F O : Type} (C : Collab D F O) (opts : Options) (s : Index F)
    (e : Entry F) (id : Int) (h : id ≠ toID e.z e.x e.y) :
    getT (ensureTile C opts s e).1.tiles id = getT s.tiles id := by
  simp only [ensureTile]
  cases getT s.tiles (toID e.z e.x e.y) with
  | none => simp [getT_setT_ne _ _ _ _ h]
  | some t => rfl

/-- The cache after a visit: the visited id holds the visited tile with its new
`source`, every other id is untouched. -/
theorem visit_get {D F O : Type} (C : Collab D F O) (opts : Options) (target : Target)
    (s : Index F) (e : Entry F) (id : Int) :
    getT (visit C opts target s e).1.tiles id =
      if id = toID e.z e.x e.y then
        some { visitedTile C opts s e with source := visitedSource C opts target s e }
      else getT s.tiles id := by
  have h2 := ensureTile_snd C opts s e
  unfold visit visitedSource
  simp only
  rw [h2]
  by_cases hid : id = toID e.z e.x e.y
  · subst hid
    simp only [if_true]
    split <;> [skip; split] <;> simp [getT_setT_self]
  · simp only [hid, if_false]
    split <;> [skip; split] <;>
      simp [getT_setT_ne _ _ _ _ hid, ensureTile_get_ne C opts s e id hid]

/-- The keys, the log and the creation history after a visit. -/
theorem visit_books {D F O : Type} (C : Collab D F O) (opts : Options) (target : Target)
    (s : Index F) (e : Entry F) :
    (getT s.tiles (toID e.z e.x e.y) ≠ none →
      keys (visit C opts target s e).1.tiles = keys s.tiles ∧
      (visit C opts target s e).1.tileCoords = s.tileCoords ∧
      (visit C opts target s e).1.created = s.created) ∧
    (getT s.tiles (toID e.z e.x e.y) = none →
      keys (visit C opts target s e).1.tiles = keys s.tiles ++ [toID e.z e.x e.y] ∧
      (visit C opts target s e).1.tileCoords = s.tileCoords ++ [⟨e.z, e.x, e.y⟩] ∧
      (visit C opts target s e).1.created = s.created ++ [toID e.z e.x e.y]) := by
  have hk : ∀ t u, keys (setT (setT (ensureTile C opts s e).1.tiles (toID e.z e.x e.y) t)
      (toID e.z e.x e.y) u) = keys (ensureTile C opts s e).1.tiles := by
    intro t u
    rw [keys_setT_setT]
    exact keys_setT_of_some _ _ _ _ (ensureTile_get C opts s e)
  have hk1 : ∀ t, keys (setT (ensureTile C opts s e).1.tiles (toID e.z e.x e.y) t)
      = keys (ensureTile C opts s e).1.tiles := fun t =>
    keys_setT_of_some _ _ _ _ (ensureTile_get C opts s e)
  have hv : keys (visit C opts target s e).1.tiles = keys (ensureTile C opts s e).1.tiles ∧
      (visit C opts target s e).1.tileCoords = (ensureTile C opts s e).1.tileCoords ∧
      (visit C opts target s e).1.created = (ensureTile C opts s e).1.created := by
    unfold visit
    simp only
    split <;> [skip; split] <;> simp [hk, hk1]
  obtain ⟨hv1, hv2, hv3⟩ := hv
  rw [hv1, hv2, hv3]
  constructor
  · intro h
    obtain ⟨t, ht⟩ := Option.ne_none_iff_exists'.1 h
    unfold ensureTile
    simp [ht]
  · intro h
    unfold ensureTile
    simp [h, keys_setT_of_none _ _ _ h]

theorem visit_synced {D F O : Type} (C : Collab D F O) (opts : Options) (target : Target)
    (s : Index F) (e : Entry F) (h : Synced s) : Synced (visit C opts target s e).1 := by
  obtain ⟨⟨h1, h2⟩, h3⟩ := h
  have hb := visit_books C opts target s e
  cases hg : getT s.tiles (toID e.z e.x e.y) with
  | some t =>
    obtain ⟨b1, b2, b3⟩ := hb.1 (by rw [hg]; simp)
    exact ⟨⟨by rw [b1, b2]; exact h1, by rw [b1]; exact h2⟩, by rw [b1, b3]; exact h3⟩
  | none =>
    obtain ⟨b1, b2, b3⟩ := hb.2 hg
    refine ⟨⟨?_, ?_⟩, ?_⟩
    · rw [b1, b2, h1]; simp [Coord.id]
    · rw [b1]
      have hn := (getT_eq_none_iff _ _).1 hg
      exact List.Nodup.append h2 (List.nodup_singleton _) (by simpa using hn)
    · rw [b1, b3, h3]

theorem splitLoop_synced {D F O : Type} (C : Collab D F O) (opts : Options) (target : Target)
    (fuel : Nat) (s : Index F) (st : List (Entry F)) (h : Synced s) :
    Synced (splitLoop C opts target fuel s st).1 := by
  induction fuel generalizing s st with
  | zero => cases st <;> exact h
  | succ n ih =>
    cases st with
    | nil => exact h
    | cons e rest =>
      simp only [splitLoop]
      exact ih _ _ (visit_synced C opts target s e h)

/-! ## Bookkeeping over the lifetime of an index -/

theorem synced_empty {F : Type} : Synced (⟨[], [], []⟩ : Index F) :=
  ⟨⟨rfl, List.nodup_nil⟩, rfl⟩

theorem GeoJSONVT_synced {D F O : Type} (C : Collab D F O) (opts : Options) (fuel : Nat)
    (data : D) : Synced (GeoJSONVT C opts fuel data).index := by
  unfold GeoJSONVT
  split
  · exact synced_empty
  · split
    · exact synced_empty
    · simp only
      split
      · exact splitLoop_synced C opts none fuel _ _ synced_empty
      · exact synced_empty

theorem Synced.lifetime {F : Type} {s : Index F} (h : Synced s) : Lifetime s :=
  ⟨h.1, by rw [h.2]; exact h.1.2, Or.inl h.2⟩

theorem drillStart_tiles_ne_nil {F : Type} (s : Index F) (z x y : Int) (e : Entry F)
    (h : drillStart s z x y = some e) : s.tiles ≠ [] := by
  intro hnil
  unfold drillStart at h
  rw [hnil] at h
  simp [getT, walkUp_nil] at h

theorem getTile_lifetime {D F O : Type} (C : Collab D F O) (opts : Options) (s : Index F)
    (z x y : Int) (persist returnbranch : Bool) (h : Lifetime s) :
    Lifetime (getTile C opts s z x y persist returnbranch).2 := by
  cases hd : drillStart s z x y with
  | none =>
    rw [getTile_of_drillStart_none C opts s z x y persist returnbranch hd]
    exact h
  | some e =>
    rw [getTile_of_drillStart_some C opts s z x y persist returnbranch e hd]
    have hne := drillStart_tiles_ne_nil s z x y e hd
    obtain ⟨h1, h2, h3⟩ := h
    have hs : Synced s := ⟨h1, h3.resolve_right hne⟩
    have hs1 : Synced (drillState C opts s z x y e) :=
      splitLoop_synced C opts _ _ s _ hs
    cases persist with
    | true => exact hs1.lifetime
    | false =>
      simp only [Bool.false_eq_true, if_false]
      refine ⟨⟨rfl, List.nodup_nil⟩, ?_, Or.inr rfl⟩
      exact hs1.lifetime.2.1

theorem runCalls_lifetime {D F O : Type} (C : Collab D F O) (opts : Options) (s : Index F)
    (calls : List Call) (h : Lifetime s) : Lifetime (runCalls C opts s calls) := by
  induction calls generalizing s with
  | nil => exact h
  | cons c cs ih => exact ih _ (getTile_lifetime C opts s c.z c.x c.y c.persist c.returnbranch h)

/-! ## Arithmetic of the quadtree -/

theorem Coord.id_inj {c c' : Coord} (h : c.Valid) (h' : c'.Valid) (hid : c.id = c'.id) :
    c = c' := by
  obtain ⟨h1, h2, h3, h4, -, -⟩ := h
  obtain ⟨h1', h2', h3', h4', -, -⟩ := h'
  have := toID_inj h1 (by omega) h1' (by omega) h3 h4 h3' h4' hid
  cases c; cases c'
  simp only [Coord.mk.injEq]
  exact this

theorem two_pow_toNat_succ (z : Int) (h : 0 ≤ z) :
    (2 : Int) ^ (z + 1).toNat = 2 * 2 ^ z.toNat := by
  have : (z + 1).toNat = z.toNat + 1 := by omega
  rw [this, pow_succ, mul_comm]

theorem Coord.children_valid {c k : Coord} (h : c.Valid) (hz : c.z < 24)
    (hk : k ∈ c.children) : k.Valid := by
  obtain ⟨h1, h2, h3, h4, h5, h6⟩ := h
  have hp := two_pow_toNat_succ c.z h1
  simp only [Coord.children, List.mem_cons, List.mem_singleton, List.not_mem_nil, or_false] at hk
  rcases hk with rfl | rfl | rfl | rfl <;>
    (simp only [Coord.Valid]; rw [hp]; refine ⟨?_, ?_, ?_, ?_, ?_, ?_⟩ <;> omega)

theorem Coord.children_parent {c k : Coord} (hk : k ∈ c.children) :
    k.parent = c ∧ k.z = c.z + 1 := by
  obtain ⟨z, x, y⟩ := c
  simp only [Coord.children, List.mem_cons, List.mem_singleton, List.not_mem_nil, or_false] at hk
  rcases hk with rfl | rfl | rfl | rfl <;>
    (simp only [Coord.parent, Coord.mk.injEq]; refine ⟨⟨?_, ?_, ?_⟩, trivial⟩ <;> omega)

theorem Coord.mem_children_parent (c : Coord) : c ∈ c.parent.children := by
  simp only [Coord.children, Coord.parent, List.mem_cons, List.mem_singleton,
    List.not_mem_nil, or_false]
  have hx : c.x / 2 * 2 = c.x ∨ c.x / 2 * 2 + 1 = c.x := by omega
  have hy : c.y / 2 * 2 = c.y ∨ c.y / 2 * 2 + 1 = c.y := by omega
  have hz : c.z - 1 + 1 = c.z := by omega
  cases c with
  | mk z x y =>
    simp only [Coord.mk.injEq] at hx hy hz ⊢
    rcases hx with hx | hx <;> rcases hy with hy | hy <;> simp [hx, hy]

theorem Coord.children_nodup (c : Coord) : c.children.Nodup := by
  simp only [Coord.children, List.nodup_cons, List.mem_cons, List.mem_singleton,
    Coord.mk.injEq, List.not_mem_nil, List.nodup_nil, not_or, not_and, not_false_eq_true,
    and_true]
  refine ⟨⟨?_, ?_, ?_⟩, ⟨?_, ?_⟩, ?_⟩ <;> intros <;> omega

theorem Coord.parent_valid {c : Coord} (h : c.Valid) (hz : 1 ≤ c.z) : c.parent.Valid := by
  obtain ⟨h1, h2, h3, h4, h5, h6⟩ := h
  have hp := two_pow_toNat_succ (c.z - 1) (by omega)
  have e : c.z - 1 + 1 = c.z := by omega
  rw [e] at hp
  simp only [Coord.Valid, Coord.parent]
  refine ⟨?_, ?_, ?_, ?_, ?_, ?_⟩ <;> omega

/-! ## Canonical features of the children -/

theorem Tile.erase_fields {F : Type} {t u : Tile F} (h : t.erase = u.erase) :
    t.numPoints = u.numPoints ∧ t.minX = u.minX ∧ t.maxX = u.maxX ∧ t.minY = u.minY ∧
      t.maxY = u.maxY := by
  cases t; cases u
  simp only [Tile.erase, Tile.mk.injEq] at h
  simp only
  tauto

theorem Tile.erase_withSource {F : Type} (t : Tile F) (src : Option (List F)) :
    Tile.erase { t with source := src } = t.erase := rfl

theorem childEntries_congr {D F O : Type} (C : Collab D F O) (opts : Options)
    (fs : List F) (z x y : Int) (t u : Tile F) (h : t.erase = u.erase) :
    childEntries C opts fs z x y t = childEntries C opts fs z x y u := by
  obtain ⟨-, h1, h2, h3, h4⟩ := Tile.erase_fields h
  simp only [childEntries, h1, h2, h3, h4]

/-- The entries pushed by a visit of `c` on its canonical features are the
children of `c` with their canonical features. -/
theorem childEntries_canonical {D F O : Type} (C : Collab D F O) (opts : Options)
    (root : List F) (c : Coord) (hz : 0 ≤ c.z) (t : Tile F)
    (ht : t.erase = (tileAt C opts root c).erase) :
    childEntries C opts (feats C opts root c) c.z c.x c.y t =
      c.children.map (entryAt C opts root) := by
  rw [childEntries_congr C opts _ _ _ _ _ _ ht]
  have hn : (c.z + 1).toNat = c.z.toNat + 1 := by omega
  have hc : ((c.z.toNat : Nat) : Int) = c.z := Int.toNat_of_nonneg hz
  have e1 : c.x * 2 / 2 = c.x := by omega
  have e2 : (c.x * 2 + 1) / 2 = c.x := by omega
  have e3 : c.y * 2 / 2 = c.y := by omega
  have e4 : (c.y * 2 + 1) / 2 = c.y := by omega
  have m1 : c.x * 2 % 2 = 0 := by omega
  have m2 : (c.x * 2 + 1) % 2 = 1 := by omega
  have m3 : c.y * 2 % 2 = 0 := by omega
  have m4 : (c.y * 2 + 1) % 2 = 1 := by omega
  simp only [Coord.children, List.map_cons, List.map_nil, entryAt, feats, hn, featsAt,
    e1, e2, e3, e4, m1, m2, m3, m4, hc]
  simp [childEntries, tileAt, feats]

/-! ## What one visit does to a well-formed state -/

theorem visit_pushed {D F O : Type} (C : Collab D F O) (opts : Options) (target : Target)
    (s : Index F) (e : Entry F) :
    (visit C opts target s e).2 =
      if (stopHere opts target e.z e.x e.y (visitedTile C opts s e).numPoints ||
          e.features.isEmpty) = true then []
      else childEntries C opts e.features e.z e.x e.y (visitedTile C opts s e) := by
  have h2 := ensureTile_snd C opts s e
  unfold visit
  simp only
  rw [h2]
  cases hs : stopHere opts target e.z e.x e.y (visitedTile C opts s e).numPoints <;>
    cases he : e.features.isEmpty <;> simp

theorem visit_mem_log {D F O : Type} (C : Collab D F O) (opts : Options) (target : Target)
    (s : Index F) (e : Entry F) (c : Coord) :
    c ∈ (visit C opts target s e).1.tileCoords ↔
      c ∈ s.tileCoords ∨ (getT s.tiles (toID e.z e.x e.y) = none ∧ c = e.coord) := by
  have hb := visit_books C opts target s e
  cases hg : getT s.tiles (toID e.z e.x e.y) with
  | some t =>
    rw [(hb.1 (by rw [hg]; simp)).2.1]
    simp
  | none =>
    rw [(hb.2 hg).2.1]
    simp [Entry.coord]

theorem coordsOf_entryAt {D F O : Type} (C : Collab D F O) (opts : Options) (root : List F)
    (l : List Coord) : coordsOf (l.map (entryAt C opts root)) = l := by
  induction l with
  | nil => rfl
  | cons a l ih =>
    simp only [coordsOf, List.map_cons, List.cons.injEq] at ih ⊢
    exact ⟨rfl, ih⟩

/-- In a well-formed state an id is cached exactly when its valid coordinate is
logged. -/
theorem Good.cached_iff {D F O : Type} {C : Collab D F O} {opts : Options} {root : List F}
    {Z : Int} {s : Index F} {st : List (Entry F)} (hG : Good C opts root Z s st)
    (c : Coord) (hc : c.Valid) : getT s.tiles c.id ≠ none ↔ c ∈ s.tileCoords := by
  constructor
  · intro h
    obtain ⟨t, ht⟩ := Option.ne_none_iff_exists'.1 h
    have hk : c.id ∈ keys s.tiles := (getT_isSome_iff _ _).1 ⟨t, ht⟩
    rw [hG.synced.1.1] at hk
    obtain ⟨c', hc', hid⟩ := List.mem_map.1 hk
    have := Coord.id_inj (hG.logValid c' hc') hc hid
    rw [← this]; exact hc'
  · intro h
    obtain ⟨t, ht, -⟩ := hG.tiles c h
    rw [ht]; simp

/-- The effect of visiting the top entry `e` of the work list in a well-formed
state: the log gains at most the coordinate of `e`; the tile cached for `e` is
its canonical tile, with `source` set by the stop test; no other logged tile
changes; the entries pushed are the children with their canonical features,
unless the visit stopped or had no features. -/
theorem Good.visit_facts {D F O : Type} {C : Collab D F O} {opts : Options} {root : List F}
    {Z : Int} {s : Index F} {e : Entry F} {rest : List (Entry F)}
    (hG : Good C opts root Z s (e :: rest)) (target : Target) :
    e.coord.Valid ∧ e.z ≤ Z ∧
    (∀ c, c ∈ (visit C opts target s e).1.tileCoords ↔ c ∈ s.tileCoords ∨ c = e.coord) ∧
    (∃ t0 : Tile F, t0.erase = (tileAt C opts root e.coord).erase ∧
      getT (visit C opts target s e).1.tiles e.coord.id =
        some { t0 with source :=
          (if stopHere opts target e.z e.x e.y (tileAt C opts root e.coord).numPoints = true
            then some (feats C opts root e.coord) else none) }) ∧
    (∀ c ∈ s.tileCoords, c ≠ e.coord →
      getT (visit C opts target s e).1.tiles c.id = getT s.tiles c.id) ∧
    (visit C opts target s e).2 =
      if (stopHere opts target e.z e.x e.y (tileAt C opts root e.coord).numPoints ||
          (feats C opts root e.coord).isEmpty) = true then []
      else e.coord.children.map (entryAt C opts root) := by
  obtain ⟨hv, hz, hf⟩ := hG.stValid e (List.mem_cons_self _ _)
  have hid : toID e.z e.x e.y = e.coord.id := rfl
  have hcached := hG.cached_iff e.coord hv
  -- the visited tile is canonical up to `source`
  have ht0 : (visitedTile C opts s e).erase = (tileAt C opts root e.coord).erase := by
    unfold visitedTile
    cases hg : getT s.tiles (toID e.z e.x e.y) with
    | some t =>
      have hmem : e.coord ∈ s.tileCoords := hcached.1 (by rw [← hid, hg]; simp)
      obtain ⟨t', ht', he', -⟩ := hG.tiles e.coord hmem
      rw [← hid, hg] at ht'
      cases ht'
      exact he'
    | none =>
      simp only [Option.getD_none, tileAt, hf]
      rfl
  have hnp := (Tile.erase_fields ht0).1
  refine ⟨hv, hz, ?_, ⟨visitedTile C opts s e, ht0, ?_⟩, ?_, ?_⟩
  · intro c
    rw [visit_mem_log]
    constructor
    · rintro (h | ⟨-, h⟩)
      · exact Or.inl h
      · exact Or.inr h
    · rintro (h | h)
      · exact Or.inl h
      · by_cases hg : getT s.tiles (toID e.z e.x e.y) = none
        · exact Or.inr ⟨hg, h⟩
        · left; rw [h]; exact hcached.1 (by rw [← hid]; exact hg)
  · rw [visit_get, if_pos hid.symm]
    simp only [visitedSource, hnp, hf]
  · intro c hc hne
    rw [visit_get, if_neg]
    intro h
    exact hne (Coord.id_inj (hG.logValid c hc) hv (by rw [h, hid]))
  · rw [visit_pushed, hnp, hf]
    by_cases hs : (stopHere opts target e.z e.x e.y (tileAt C opts root e.coord).numPoints ||
        (feats C opts root e.coord).isEmpty) = true
    · rw [if_pos hs, if_pos hs]
    · rw [if_neg hs, if_neg hs]
      exact childEntries_canonical C opts root e.coord hv.1 _ ht0

/-! ## The loop invariant is preserved -/

theorem isEmpty_false_ne_nil {α : Type} (l : List α) (h : l.isEmpty = false) : l ≠ [] := by
  intro hl; rw [hl] at h; simp at h

theorem isEmpty_true_eq_nil {α : Type} (l : List α) (h : l.isEmpty = true) : l = [] := by
  cases l with
  | nil => rfl
  | cons a l => simp at h

/-- One iteration of the work-list loop preserves `Good`, for a pass whose stop
test fires at the zoom cap `Z`. -/
theorem Good.step {D F O : Type} {C : Collab D F O} {opts : Options} {root : List F}
    {Z : Int} {s : Index F} {e : Entry F} {rest : List (Entry F)}
    (hG : Good C opts root Z s (e :: rest)) (target : Target) (hZ : Z ≤ 24)
    (hcap : ∀ z x y np, z ≤ Z → stopHere opts target z x y np = false → z < Z) :
    Good C opts root Z (visit C opts target s e).1
      ((visit C opts target s e).2.reverse ++ rest) := by
  obtain ⟨hv, hz, hlog, ⟨t0, ht0, hget⟩, hother, hpush⟩ := hG.visit_facts target
  have hnd : e.coord ∉ coordsOf rest ∧ (coordsOf rest).Nodup := by
    have := hG.stNodup
    simpa [coordsOf] using this
  have hold : ∀ k, k ∈ coordsOf (e :: rest) ↔ k = e.coord ∨ k ∈ coordsOf rest := by
    intro k; simp [coordsOf]
  -- the coordinates pending after the visit
  have hst : ∀ k, k ∈ coordsOf ((visit C opts target s e).2.reverse ++ rest) ↔
      (((stopHere opts target e.z e.x e.y (tileAt C opts root e.coord).numPoints ||
          (feats C opts root e.coord).isEmpty) = false ∧ k ∈ e.coord.children) ∨
        k ∈ coordsOf rest) := by
    intro k
    rw [hpush]
    cases hB : (stopHere opts target e.z e.x e.y (tileAt C opts root e.coord).numPoints ||
          (feats C opts root e.coord).isEmpty)
    · have := coordsOf_entryAt C opts root e.coord.children
      simp only [coordsOf] at this
      simp [coordsOf, this]
    · simp [coordsOf]
  -- a child of the visited coordinate was neither logged nor pending
  have hfresh : ∀ k ∈ e.coord.children, k ∉ s.tileCoords ∧ k ∉ coordsOf rest := by
    intro k hk
    obtain ⟨hp, hkz⟩ := Coord.children_parent hk
    have h1 : 1 ≤ k.z := by have := hv.1; omega
    constructor
    · intro hmem
      have := (hG.parent k (Or.inl hmem) h1).2.1
      rw [hp] at this
      exact this ((hold _).2 (Or.inl rfl))
    · intro hmem
      have := (hG.parent k (Or.inr ((hold _).2 (Or.inr hmem))) h1).2.1
      rw [hp] at this
      exact this ((hold _).2 (Or.inl rfl))
  have hself : e.coord ∉ e.coord.children := by
    intro h
    have := (Coord.children_parent h).2
    omega
  refine ⟨visit_synced C opts target s e hG.synced, ?_, ?_, ?_, ?_, ?_, ?_⟩
  · -- logValid
    intro c hc
    rcases (hlog c).1 hc with h | h
    · exact hG.logValid c h
    · rw [h]; exact hv
  · -- stValid
    intro e' he'
    rcases List.mem_append.1 he' with h | h
    · rw [List.mem_reverse, hpush] at h
      cases hB : (stopHere opts target e.z e.x e.y (tileAt C opts root e.coord).numPoints ||
          (feats C opts root e.coord).isEmpty)
      · rw [hB] at h
        simp only [Bool.false_eq_true, if_false, List.mem_map] at h
        obtain ⟨k, hk, rfl⟩ := h
        have hstop : stopHere opts target e.z e.x e.y
            (tileAt C opts root e.coord).numPoints = false := by
          cases hs : stopHere opts target e.z e.x e.y (tileAt C opts root e.coord).numPoints
          · rfl
          · rw [hs] at hB; simp at hB
        have hlt := hcap _ _ _ _ hz hstop
        have hkz := (Coord.children_parent hk).2
        have hcz : e.coord.z = e.z := rfl
        refine ⟨Coord.children_valid hv (by omega) hk, ?_, rfl⟩
        show k.z ≤ Z
        omega
      · rw [hB] at h; simp at h
    · exact hG.stValid e' (List.mem_cons_of_mem _ h)
  · -- tiles
    intro c hc
    by_cases hce : c = e.coord
    · subst hce
      refine ⟨_, hget, ?_, ?_⟩
      · rw [Tile.erase_withSource]; exact ht0
      · simp only
        split
        · exact Or.inr rfl
        · exact Or.inl rfl
    · have hmem : c ∈ s.tileCoords := ((hlog c).1 hc).resolve_right hce
      rw [hother c hmem hce]
      exact hG.tiles c hmem
  · -- stNodup
    have hco : coordsOf ((visit C opts target s e).2.reverse ++ rest) =
        (coordsOf (visit C opts target s e).2).reverse ++ coordsOf rest := by
      simp [coordsOf]
    rw [hco, hpush]
    cases hB : (stopHere opts target e.z e.x e.y (tileAt C opts root e.coord).numPoints ||
          (feats C opts root e.coord).isEmpty)
    · simp only [Bool.false_eq_true, if_false, coordsOf_entryAt]
      refine List.Nodup.append (List.nodup_reverse.2 (Coord.children_nodup _)) hnd.2 ?_
      intro k hk1 hk2
      exact (hfresh k (List.mem_reverse.1 hk1)).2 hk2
    · simpa [coordsOf] using hnd.2
  · -- parent
    intro c hc h1
    have hcase : ((stopHere opts target e.z e.x e.y (tileAt C opts root e.coord).numPoints ||
          (feats C opts root e.coord).isEmpty) = false ∧ c ∈ e.coord.children) ∨
        (c ∈ s.tileCoords ∨ c ∈ coordsOf (e :: rest)) := by
      rcases hc with h | h
      · rcases (hlog c).1 h with h' | h'
        · exact Or.inr (Or.inl h')
        · exact Or.inr (Or.inr ((hold c).2 (Or.inl h')))
      · rcases (hst c).1 h with h' | h'
        · exact Or.inl h'
        · exact Or.inr (Or.inr ((hold c).2 (Or.inr h')))
    rcases hcase with ⟨hB, hk⟩ | hc'
    · have hp := (Coord.children_parent hk).1
      have hstop : stopHere opts target e.z e.x e.y
          (tileAt C opts root e.coord).numPoints = false := by
        cases hs : stopHere opts target e.z e.x e.y (tileAt C opts root e.coord).numPoints
        · rfl
        · rw [hs] at hB; simp at hB
      have hne : (feats C opts root e.coord).isEmpty = false := by
        cases hs : (feats C opts root e.coord).isEmpty
        · rfl
        · rw [hs] at hB; simp at hB
      rw [hp]
      refine ⟨(hlog _).2 (Or.inr rfl), ?_, isEmpty_false_ne_nil _ hne, ?_⟩
      · intro hmem
        rcases (hst _).1 hmem with ⟨-, h⟩ | h
        · exact hself h
        · exact hnd.1 h
      · intro t ht
        rw [hget, hstop] at ht
        simp only [Bool.false_eq_true, if_false, Option.some.injEq] at ht
        rw [← ht]
    · obtain ⟨p1, p2, p3, p4⟩ := hG.parent c hc' h1
      have hpne : c.parent ≠ e.coord := fun h => p2 ((hold _).2 (Or.inl h))
      refine ⟨(hlog _).2 (Or.inl p1), ?_, p3, ?_⟩
      · intro hmem
        rcases (hst _).1 hmem with ⟨-, h⟩ | h
        · exact (hfresh _ h).1 p1
        · exact p2 ((hold _).2 (Or.inr h))
      · intro t ht
        rw [hother _ p1 hpne] at ht
        exact p4 t ht
  · -- kids
    intro c hc hnst hsrc
    by_cases hce : c = e.coord
    · subst hce
      have hs := hsrc _ hget
      simp only at hs
      have hstop : stopHere opts target e.z e.x e.y
          (tileAt C opts root e.coord).numPoints = false := by
        cases hs' : stopHere opts target e.z e.x e.y (tileAt C opts root e.coord).numPoints
        · rfl
        · rw [hs'] at hs; simp at hs
      cases hne : (feats C opts root e.coord).isEmpty
      · right
        intro k hk
        exact Or.inr ((hst k).2 (Or.inl ⟨by rw [hstop, hne]; rfl, hk⟩))
      · exact Or.inl (isEmpty_true_eq_nil _ hne)
    · have hmem : c ∈ s.tileCoords := ((hlog c).1 hc).resolve_right hce
      have hnold : c ∉ coordsOf (e :: rest) := by
        intro h
        rcases (hold c).1 h with h | h
        · exact hce h
        · exact hnst ((hst c).2 (Or.inr h))
      have hsrc' : ∀ t, getT s.tiles c.id = some t → t.source = none := by
        intro t ht
        rw [← hother c hmem hce] at ht
        exact hsrc t ht
      rcases hG.kids c hmem hnold hsrc' with h | h
      · exact Or.inl h
      · right
        intro k hk
        rcases h k hk with h' | h'
        · exact Or.inl ((hlog k).2 (Or.inl h'))
        · rcases (hold k).1 h' with h'' | h''
          · exact Or.inl ((hlog k).2 (Or.inr h''))
          · exact Or.inr ((hst k).2 (Or.inr h''))

/-- The work-list loop preserves `Good`. -/
theorem Good.loop {D F O : Type} {C : Collab D F O} {opts : Options} {root : List F}
    {Z : Int} (target : Target) (hZ : Z ≤ 24)
    (hcap : ∀ z x y np, z ≤ Z → stopHere opts target z x y np = false → z < Z)
    (fuel : Nat) (s : Index F) (st : List (Entry F)) (hG : Good C opts root Z s st) :
    Good C opts root Z (splitLoop C opts target fuel s st).1
      (splitLoop C opts target fuel s st).2 := by
  induction fuel generalizing s st with
  | zero => cases st <;> exact hG
  | succ n ih =>
    cases st with
    | nil => exact hG
    | cons e rest =>
      simp only [splitLoop]
      exact ih _ _ (hG.step target hZ hcap)

/-! ## Termination of the work-list loop -/

/-- If every visit of an entry satisfying `P` pushes entries that satisfy `P`
and whose weights sum to less than the weight of the entry, the loop empties a
work list of total weight at most `fuel`. -/
theorem splitLoop_terminates {D F O : Type} (C : Collab D F O) (opts : Options)
    (target : Target) (w : Entry F → Nat) (P : Entry F → Prop)
    (hstep : ∀ s e, P e → (∀ e' ∈ (visit C opts target s e).2, P e') ∧
      (((visit C opts target s e).2.map w).sum + 1 ≤ w e))
    (fuel : Nat) (s : Index F) (st : List (Entry F)) (hP : ∀ e ∈ st, P e)
    (hw : (st.map w).sum ≤ fuel) : (splitLoop C opts target fuel s st).2 = [] := by
  induction fuel generalizing s st with
  | zero =>
    cases st with
    | nil => rfl
    | cons e rest =>
      have h1 := (hstep s e (hP e (List.mem_cons_self _ _))).2
      simp only [List.map_cons, List.sum_cons] at hw
      omega
  | succ n ih =>
    cases st with
    | nil => rfl
    | cons e rest =>
      simp only [splitLoop]
      obtain ⟨h1, h2⟩ := hstep s e (hP e (List.mem_cons_self _ _))
      apply ih
      · intro e' he'
        rcases List.mem_append.1 he' with h | h
        · exact h1 e' (List.mem_reverse.1 h)
        · exact hP e' (List.mem_cons_of_mem _ h)
      · simp only [List.map_cons, List.sum_cons] at hw
        simp only [List.map_append, List.map_reverse, List.sum_append, List.sum_reverse]
        omega

theorem stopHere_root_false {opts : Options} {z x y np : Int}
    (h : stopHere opts none z x y np = false) :
    z ≠ opts.indexMaxZoom ∧ opts.indexMaxPoints < np := by
  simp only [stopHere, Bool.or_eq_false_iff, decide_eq_false_iff_not, not_le] at h
  exact h

theorem stopHere_drill_false {opts : Options} {cz cx cy z x y np : Int} (hcz : cz ≠ 0)
    (h : stopHere opts (some (cz, cx, cy)) z x y np = false) :
    z ≠ opts.maxZoom ∧ z ≠ cz ∧ x = Int.fdiv cx (shl1 (cz - z)) ∧
      y = Int.fdiv cy (shl1 (cz - z)) := by
  simp only [stopHere, hcz, if_false, Bool.or_eq_false_iff, decide_eq_false_iff_not,
    ne_eq, not_not] at h
  exact ⟨h.1.1, h.1.2, h.2.1, h.2.2⟩

theorem visit_pushed_cases {D F O : Type} (C : Collab D F O) (opts : Options) (target : Target)
    (s : Index F) (e : Entry F) :
    (visit C opts target s e).2 = [] ∨
    (stopHere opts target e.z e.x e.y (visitedTile C opts s e).numPoints = false ∧
      e.features ≠ [] ∧
      (visit C opts target s e).2 =
        childEntries C opts e.features e.z e.x e.y (visitedTile C opts s e)) := by
  rw [visit_pushed]
  cases hs : stopHere opts target e.z e.x e.y (visitedTile C opts s e).numPoints
  · cases he : e.features.isEmpty
    · right
      exact ⟨rfl, isEmpty_false_ne_nil _ he, by simp⟩
    · left; simp
  · left; simp

theorem treeSize_pos (k : Nat) : 1 ≤ treeSize k := by
  cases k <;> simp [treeSize]

/-- Root pass: with `indexMaxZoom = d`, a work list whose entries have zoom at
most `d` is emptied within the sum of the sizes of the full quadtrees below its
entries. -/
theorem splitLoop_root_terminates {D F O : Type} (C : Collab D F O) (opts : Options)
    (fuel : Nat) (s : Index F) (st : List (Entry F))
    (hP : ∀ e ∈ st, e.z ≤ opts.indexMaxZoom)
    (hw : (st.map (rootWeight opts.indexMaxZoom)).sum ≤ fuel) :
    (splitLoop C opts none fuel s st).2 = [] := by
  apply splitLoop_terminates C opts none (rootWeight opts.indexMaxZoom)
    (fun e => e.z ≤ opts.indexMaxZoom) _ fuel s st hP hw
  intro s e he
  rcases visit_pushed_cases C opts none s e with h | ⟨hs, -, h⟩
  · rw [h]
    exact ⟨by simp, by simpa using treeSize_pos _⟩
  · rw [h]
    have hz := (stopHere_root_false hs).1
    have hlt : e.z < opts.indexMaxZoom := lt_of_le_of_ne he hz
    constructor
    · intro e' he'
      simp only [childEntries, List.mem_cons, List.mem_singleton, List.not_mem_nil,
        or_false] at he'
      rcases he' with rfl | rfl | rfl | rfl <;> (show e.z + 1 ≤ _; omega)
    · have hk : (opts.indexMaxZoom - e.z).toNat = (opts.indexMaxZoom - (e.z + 1)).toNat + 1 := by
        omega
      simp only [childEntries, rootWeight, List.map_cons, List.map_nil, List.sum_cons,
        List.sum_nil]
      rw [hk]
      simp only [treeSize]
      omega

/-- Drill-down pass: a work list whose entries have zoom in `[0, cz]` is emptied
within the sum of the drill weights of its entries. -/
theorem splitLoop_drill_terminates {D F O : Type} (C : Collab D F O) (opts : Options)
    (cz cx cy : Int) (hcz : 1 ≤ cz) (hcz' : cz ≤ 24)
    (fuel : Nat) (s : Index F) (st : List (Entry F))
    (hP : ∀ e ∈ st, 0 ≤ e.z ∧ e.z ≤ cz)
    (hw : (st.map (drillWeight cz cx cy)).sum ≤ fuel) :
    (splitLoop C opts (some (cz, cx, cy)) fuel s st).2 = [] := by
  apply splitLoop_terminates C opts (some (cz, cx, cy)) (drillWeight cz cx cy)
    (fun e => 0 ≤ e.z ∧ e.z ≤ cz) _ fuel s st hP hw
  intro s e he
  have hw1 : ∀ e' : Entry F, 1 ≤ drillWeight cz cx cy e' := by
    intro e'; unfold drillWeight; split <;> omega
  rcases visit_pushed_cases C opts (some (cz, cx, cy)) s e with h | ⟨hs, -, h⟩
  · rw [h]
    exact ⟨by simp, by simpa using hw1 e⟩
  · rw [h]
    obtain ⟨-, hne, hx, hy⟩ := stopHere_drill_false (by omega) hs
    have hlt : e.z < cz := lt_of_le_of_ne he.2 hne
    have hsh : shl1 (cz - e.z) = 2 ^ (cz - e.z).toNat := shl1_eq_pow _ (by omega) (by omega)
    have hpos : (0 : Int) ≤ 2 ^ (cz - e.z).toNat := by positivity
    rw [hsh, Int.fdiv_eq_ediv _ hpos] at hx hy
    constructor
    · intro e' he'
      simp only [childEntries, List.mem_cons, List.mem_singleton, List.not_mem_nil,
        or_false] at he'
      rcases he' with rfl | rfl | rfl | rfl <;>
        (show 0 ≤ e.z + 1 ∧ e.z + 1 ≤ cz; omega)
    · have hwe : drillWeight cz cx cy e = 1 + 4 * (cz - e.z).toNat := by
        unfold drillWeight
        rw [if_pos ⟨hlt, hx, hy⟩]
      rw [hwe]
      simp only [childEntries, drillWeight, List.map_cons, List.map_nil, List.sum_cons,
        List.sum_nil]
      generalize cx / 2 ^ (cz - (e.z + 1)).toNat = A
      generalize cy / 2 ^ (cz - (e.z + 1)).toNat = B
      split_ifs <;> omega

/-! ## The drill-down of `getTile` in a well-formed state -/

/-- What `drillStart` returning an entry means: `z` is in range, the wrapped
target is not cached, and the entry is the nearest cached strict ancestor, `k`
levels up, with the source it retains. -/
theorem drillStart_spec {F : Type} (s : Index F) (z x y : Int) (e : Entry F)
    (h : drillStart s z x y = some e) :
    0 ≤ z ∧ z ≤ 24 ∧ getT s.tiles (toID z (wrapX (shl1 z) x) y) = none ∧
    ∃ (k : Nat) (p : Tile F), NearestCachedAncestor s.tiles z (wrapX (shl1 z) x) y k p ∧
      p.source = some e.features ∧ e.z = z - k ∧ e.x = wrapX (shl1 z) x / 2 ^ k ∧
      e.y = y / 2 ^ k := by
  unfold drillStart at h
  by_cases hz : z < 0 ∨ z > 24
  · simp [hz] at h
  · simp only [hz, if_false] at h
    have hzn : ((z.toNat : Nat) : Int) = z := Int.toNat_of_nonneg (by omega)
    cases hg : getT s.tiles (toID z (wrapX (shl1 z) x) y) with
    | some t => rw [hg] at h; simp at h
    | none =>
      rw [hg] at h
      simp only at h
      cases hw : walkUp s.tiles z.toNat (wrapX (shl1 z) x) y with
      | none => rw [hw] at h; simp at h
      | some q =>
        obtain ⟨p, z0, x0, y0⟩ := q
        rw [hw] at h
        simp only [Option.map_eq_some'] at h
        obtain ⟨src, hsrc, rfl⟩ := h
        obtain ⟨k, hk, h1, h2, h3⟩ := walkUp_eq_some _ _ _ _ _ _ _ _ hw
        rw [hzn] at hk h1
        exact ⟨by omega, by omega, rfl, k, p, hk, hsrc, h1, h2, h3⟩

theorem ediv_two_pow_lt {x z : Int} {k : Nat} (hk : (k : Int) ≤ z)
    (hx : x < 2 ^ z.toNat) : x / 2 ^ k < 2 ^ (z - k).toNat := by
  have hpos : (0 : Int) < 2 ^ k := by positivity
  rw [Int.ediv_lt_iff_lt_mul hpos]
  have : z.toNat = (z - k).toNat + k := by omega
  rw [this, pow_add] at hx
  exact hx

/-- With an empty work list the zoom cap of `Good` is immaterial. -/
theorem Good.recap {D F O : Type} {C : Collab D F O} {opts : Options} {root : List F}
    {Z : Int} {s : Index F} (hG : Good C opts root Z s []) (Z' : Int) :
    Good C opts root Z' s [] :=
  ⟨hG.synced, hG.logValid, fun _ he => absurd he (List.not_mem_nil _), hG.tiles, hG.stNodup,
    hG.parent, hG.kids⟩

/-- In a well-formed state the entry from which `getTile` drills down is a
logged coordinate with its canonical features. -/
theorem Good.drillStart_logged {D F O : Type} {C : Collab D F O} {opts : Options}
    {root : List F} {Z : Int} {s : Index F} (hG : Good C opts root Z s [])
    (z x y : Int) (e : Entry F) (h : drillStart s z x y = some e) :
    e.coord ∈ s.tileCoords ∧ e.features = feats C opts root e.coord ∧
      (∃ p, getT s.tiles e.coord.id = some p ∧ p.source = some e.features) ∧
      0 ≤ e.z ∧ e.z < z := by
  obtain ⟨hz0, hz1, -, k, p, ⟨hk1, hk2, hk3, -⟩, hsrc, ez, ex, ey⟩ := drillStart_spec s z x y e h
  have hwx := wrapX_shl1 z x hz0 hz1
  have hP : (0 : Int) < 2 ^ z.toNat := by positivity
  have hx0 : 0 ≤ wrapX (shl1 z) x := by rw [hwx]; exact Int.emod_nonneg _ (ne_of_gt hP)
  have hx1 : wrapX (shl1 z) x < 2 ^ z.toNat := by rw [hwx]; exact Int.emod_lt_of_pos _ hP
  have hid : ancestorID z (wrapX (shl1 z) x) y k = e.coord.id := by
    simp only [ancestorID, Coord.id, Entry.coord, ez, ex, ey]
  rw [hid] at hk3
  have hmemk : e.coord.id ∈ keys s.tiles := (getT_isSome_iff _ _).1 ⟨p, hk3⟩
  rw [hG.synced.1.1] at hmemk
  obtain ⟨c', hc', hid'⟩ := List.mem_map.1 hmemk
  obtain ⟨v1, v2, v3, v4, -, -⟩ := hG.logValid c' hc'
  have hex0 : 0 ≤ e.x := by
    rw [ex]; exact Int.ediv_nonneg hx0 (by positivity)
  have hex1 : e.x < 2 ^ e.z.toNat := by
    rw [ex, ez]; exact ediv_two_pow_lt hk2 hx1
  have hinj := toID_inj v1 (by omega) (by omega : 0 ≤ e.z) (by omega) v3 v4 hex0 hex1 hid'
  have hce : c' = e.coord := by
    cases c'
    simp only [Entry.coord, Coord.mk.injEq]
    exact hinj
  rw [hce] at hc'
  obtain ⟨t, ht, -, hs⟩ := hG.tiles e.coord hc'
  rw [hk3] at ht
  cases ht
  refine ⟨hc', ?_, ⟨p, hk3, hsrc⟩, by omega, by omega⟩
  rw [hsrc] at hs
  rcases hs with hs | hs
  · cases hs
  · exact Option.some.inj hs

/-- The state in which `getTile` starts a drill-down is well formed for the
work list holding the start entry. -/
theorem Good.drill_start {D F O : Type} {C : Collab D F O} {opts : Options}
    {root : List F} {Z : Int} {s : Index F} (hG : Good C opts root Z s [])
    (z x y : Int) (e : Entry F) (h : drillStart s z x y = some e) :
    Good C opts root z s [e] := by
  obtain ⟨hmem, hf, ⟨p, hp, hsrc⟩, hz0, hz1⟩ := hG.drillStart_logged z x y e h
  have hne : ∀ c, c ∈ s.tileCoords → 1 ≤ c.z → c.parent ≠ e.coord := by
    intro c hc h1 hpe
    have := (hG.parent c (Or.inl hc) h1).2.2.2 p (by rw [hpe]; exact hp)
    rw [hsrc] at this
    cases this
  refine ⟨hG.synced, hG.logValid, ?_, hG.tiles, ?_, ?_, ?_⟩
  · intro e' he'
    rw [List.mem_singleton] at he'
    subst he'
    exact ⟨hG.logValid _ hmem, by omega, hf⟩
  · simp [coordsOf]
  · intro c hc h1
    have hc' : c ∈ s.tileCoords := by
      rcases hc with hc | hc
      · exact hc
      · simp only [coordsOf, List.map_cons, List.map_nil, List.mem_singleton] at hc
        rw [hc]; exact hmem
    obtain ⟨p1, -, p3, p4⟩ := hG.parent c (Or.inl hc') h1
    refine ⟨p1, ?_, p3, p4⟩
    simp only [coordsOf, List.map_cons, List.map_nil, List.mem_singleton]
    exact hne c hc' h1
  · intro c hc _ hs
    rcases hG.kids c hc (by simp [coordsOf]) hs with h' | h'
    · exact Or.inl h'
    · right
      intro k hk
      rcases h' k hk with h'' | h''
      · exact Or.inl h''
      · simp [coordsOf] at h''

theorem stopHere_drill_cap (opts : Options) (cz cx cy : Int) (hcz : cz ≠ 0)
    (z x y np : Int) (hz : z ≤ cz)
    (h : stopHere opts (some (cz, cx, cy)) z x y np = false) : z < cz :=
  lt_of_le_of_ne hz (stopHere_drill_false hcz h).2.1

/-- The drill-down of `getTile` always runs to completion within `drillFuel`
iterations: the work list it leaves is empty. -/
theorem drill_terminates {D F O : Type} (C : Collab D F O) (opts : Options) (s : Index F)
    (z x y : Int) (e : Entry F) (h : drillStart s z x y = some e) :
    (splitTile C opts (drillFuel z e.z) s e.features e.z e.x e.y
      (some (z, wrapX (shl1 z) x, y))).2 = [] := by
  obtain ⟨hz0, hz1, -, k, p, ⟨hk1, hk2, -, -⟩, -, ez, -, -⟩ := drillStart_spec s z x y e h
  unfold splitTile
  apply splitLoop_drill_terminates C opts z _ y (by omega) hz1
  · intro e' he'
    rw [List.mem_singleton] at he'
    subst he'
    exact ⟨by show 0 ≤ e.z; omega, by show e.z ≤ z; omega⟩
  · simp only [List.map_cons, List.map_nil, List.sum_cons, List.sum_nil, drillWeight, drillFuel]
    split <;> omega

/-- A `getTile` call with `persist = true` keeps a well-formed state well
formed. -/
theorem Good.read {D F O : Type} {C : Collab D F O} {opts : Options}
    {root : List F} {Z : Int} {s : Index F} (hG : Good C opts root Z s [])
    (z x y : Int) (returnbranch : Bool) :
    Good C opts root Z (getTile C opts s z x y true returnbranch).2 [] := by
  cases hd : drillStart s z x y with
  | none =>
    rw [getTile_of_drillStart_none C opts s z x y true returnbranch hd]
    exact hG
  | some e =>
    rw [getTile_of_drillStart_some C opts s z x y true returnbranch e hd]
    simp only [if_true]
    obtain ⟨hz0, hz1, -, k, p, ⟨hk1, hk2, -, -⟩, -, -, -, -⟩ := drillStart_spec s z x y e hd
    have hG1 := Good.loop (some (z, wrapX (shl1 z) x, y)) hz1
      (stopHere_drill_cap opts z _ y (by omega)) (drillFuel z e.z) s _
      (hG.drill_start z x y e hd)
    have hterm := drill_terminates C opts s z x y e hd
    unfold splitTile at hterm
    have : e = ⟨e.features, e.z, e.x, e.y⟩ := rfl
    rw [this, hterm] at hG1
    exact hG1.recap Z

/-! ## The root pass -/

theorem stopHere_root_cap (opts : Options) (z x y np : Int) (hz : z ≤ opts.indexMaxZoom)
    (h : stopHere opts none z x y np = false) : z < opts.indexMaxZoom :=
  lt_of_le_of_ne hz (stopHere_root_false h).1

/-- A coordinate that is logged or pending stays logged or pending across a
visit. -/
theorem Good.visit_pending {D F O : Type} {C : Collab D F O} {opts : Options} {root : List F}
    {Z : Int} {s : Index F} {e : Entry F} {rest : List (Entry F)}
    (hG : Good C opts root Z s (e :: rest)) (target : Target) (c : Coord)
    (hc : c ∈ s.tileCoords ∨ c ∈ coordsOf (e :: rest)) :
    c ∈ (visit C opts target s e).1.tileCoords ∨
      c ∈ coordsOf ((visit C opts target s e).2.reverse ++ rest) := by
  obtain ⟨-, -, hlog, -, -, -⟩ := hG.visit_facts target
  rcases hc with h | h
  · exact Or.inl ((hlog c).2 (Or.inl h))
  · simp only [coordsOf, List.map_cons, List.mem_cons] at h
    rcases h with h | h
    · exact Or.inl ((hlog c).2 (Or.inr h))
    · right
      simp only [coordsOf, List.map_append, List.mem_append]
      exact Or.inr h

theorem Good.splitLoop_pending {D F O : Type} {C : Collab D F O} {opts : Options}
    {root : List F} {Z : Int} (target : Target) (hZ : Z ≤ 24)
    (hcap : ∀ z x y np, z ≤ Z → stopHere opts target z x y np = false → z < Z)
    (c : Coord) (fuel : Nat) (s : Index F) (st : List (Entry F))
    (hG : Good C opts root Z s st) (hc : c ∈ s.tileCoords ∨ c ∈ coordsOf st) :
    c ∈ (splitLoop C opts target fuel s st).1.tileCoords ∨
      c ∈ coordsOf (splitLoop C opts target fuel s st).2 := by
  induction fuel generalizing s st with
  | zero => cases st <;> exact hc
  | succ n ih =>
    cases st with
    | nil => exact hc
    | cons e rest =>
      simp only [splitLoop]
      exact ih _ _ (hG.step target hZ hcap) (hG.visit_pending target c hc)

/-- One iteration of the root pass preserves `RootPass`. -/
theorem RootPass.step_root {D F O : Type} {C : Collab D F O} {opts : Options} {root : List F}
    {s : Index F} {e : Entry F} {rest : List (Entry F)}
    (hR : RootPass C opts root s (e :: rest)) (hZ : opts.indexMaxZoom ≤ 24) :
    RootPass C opts root (visit C opts none s e).1
      ((visit C opts none s e).2.reverse ++ rest) := by
  have hG' := hR.good.step none hZ (stopHere_root_cap opts)
  obtain ⟨hv, hz, hlog, ⟨t0, ht0, hget⟩, hother, hpush⟩ := hR.good.visit_facts none
  refine ⟨hG', ?_, ?_⟩
  · intro c hc
    rcases (hlog c).1 hc with h | h
    · exact hR.cap c h
    · rw [h]; exact hz
  · intro c hc hnst t ht
    by_cases hce : c = e.coord
    · subst hce
      rw [hget] at ht
      cases ht
      rfl
    · have hmem : c ∈ s.tileCoords := ((hlog c).1 hc).resolve_right hce
      rw [hother c hmem hce] at ht
      apply hR.src c hmem _ t ht
      intro h
      simp only [coordsOf, List.map_cons, List.mem_cons] at h
      rcases h with h | h
      · exact hce h
      · apply hnst
        simp only [coordsOf, List.map_append, List.mem_append]
        exact Or.inr h

theorem RootPass.loop_root {D F O : Type} {C : Collab D F O} {opts : Options}
    {root : List F} (hZ : opts.indexMaxZoom ≤ 24) (fuel : Nat) (s : Index F)
    (st : List (Entry F)) (hR : RootPass C opts root s st) :
    RootPass C opts root (splitLoop C opts none fuel s st).1
      (splitLoop C opts none fuel s st).2 := by
  induction fuel generalizing s st with
  | zero => cases st <;> exact hR
  | succ n ih =>
    cases st with
    | nil => exact hR
    | cons e rest =>
      simp only [splitLoop]
      exact ih _ _ (hR.step_root hZ)

theorem good_empty {D F O : Type} (C : Collab D F O) (opts : Options) (root : List F)
    (Z : Int) : Good C opts root Z (⟨[], [], []⟩ : Index F) [] :=
  ⟨synced_empty, by simp, by simp, by simp, by simp [coordsOf], by simp [coordsOf], by simp⟩

theorem rootPass_empty {D F O : Type} (C : Collab D F O) (opts : Options) (root : List F) :
    RootPass C opts root (⟨[], [], []⟩ : Index F) [] :=
  ⟨good_empty C opts root _, by simp, by simp⟩

/-- The state in which the constructor starts the root pass. -/
theorem rootPass_initial {D F O : Type} (C : Collab D F O) (opts : Options) (root : List F)
    (h0 : 0 ≤ opts.indexMaxZoom) :
    RootPass C opts root (⟨[], [], []⟩ : Index F) [⟨root, 0, 0, 0⟩] := by
  refine ⟨⟨synced_empty, by simp, ?_, by simp, by simp [coordsOf], ?_, by simp⟩,
    by simp, by simp⟩
  · intro e he
    rw [List.mem_singleton] at he
    subst he
    refine ⟨?_, h0, rfl⟩
    simp [Coord.Valid, Entry.coord]
  · intro c hc h1
    simp only [List.not_mem_nil, coordsOf, List.map_cons, List.map_nil, List.mem_singleton,
      false_or] at hc
    rw [hc] at h1
    simp [Entry.coord] at h1

/-- The constructor either builds nothing (it threw, or there is no feature) or
runs the root pass from the root entry. -/
theorem GeoJSONVT_cases {D F O : Type} (C : Collab D F O) (opts : Options) (fuel : Nat)
    (data : D) :
    ((GeoJSONVT C opts fuel data).index = ⟨[], [], []⟩ ∧ (GeoJSONVT C opts fuel data).stack = []) ∨
    ((GeoJSONVT C opts fuel data).thrown = none ∧ rootFeatures C opts data ≠ [] ∧
      (GeoJSONVT C opts fuel data).index =
        (splitLoop C opts none fuel ⟨[], [], []⟩ [⟨rootFeatures C opts data, 0, 0, 0⟩]).1 ∧
      (GeoJSONVT C opts fuel data).stack =
        (splitLoop C opts none fuel ⟨[], [], []⟩ [⟨rootFeatures C opts data, 0, 0, 0⟩]).2) := by
  unfold GeoJSONVT
  split
  · exact Or.inl ⟨rfl, rfl⟩
  · split
    · exact Or.inl ⟨rfl, rfl⟩
    · simp only
      split
      · rename_i h
        right
        refine ⟨rfl, ?_, rfl, rfl⟩
        intro hnil
        apply h
        unfold rootFeatures at hnil
        rw [hnil]; rfl
      · exact Or.inl ⟨rfl, rfl⟩

/-- The constructor establishes `RootPass`. -/
theorem GeoJSONVT_rootPass {D F O : Type} (C : Collab D F O) (opts : Options) (fuel : Nat)
    (data : D) (h0 : 0 ≤ opts.indexMaxZoom) (h1 : opts.indexMaxZoom ≤ 24) :
    RootPass C opts (rootFeatures C opts data) (GeoJSONVT C opts fuel data).index
      (GeoJSONVT C opts fuel data).stack := by
  rcases GeoJSONVT_cases C opts fuel data with ⟨h, h'⟩ | ⟨-, -, h, h'⟩
  · rw [h, h']; exact rootPass_empty C opts _
  · rw [h, h']
    exact RootPass.loop_root h1 fuel _ _ (rootPass_initial C opts _ h0)

/-- The constructor runs to completion within `treeSize indexMaxZoom`
iterations. -/
theorem GeoJSONVT_terminates {D F O : Type} (C : Collab D F O) (opts : Options) (fuel : Nat)
    (data : D) (h0 : 0 ≤ opts.indexMaxZoom) (hf : treeSize opts.indexMaxZoom.toNat ≤ fuel) :
    (GeoJSONVT C opts fuel data).stack = [] := by
  rcases GeoJSONVT_cases C opts fuel data with ⟨-, h'⟩ | ⟨-, -, -, h'⟩
  · exact h'
  · rw [h']
    apply splitLoop_root_terminates
    · intro e he
      rw [List.mem_singleton] at he
      subst he
      exact h0
    · simpa [rootWeight] using hf

/-- Once the root pass is over, a logged tile at which the pass does not stop
and which has features has its four children logged. -/
theorem RootPass.children_logged {D F O : Type} {C : Collab D F O} {opts : Options}
    {root : List F} {s : Index F} (hR : RootPass C opts root s []) (c : Coord)
    (hc : c ∈ s.tileCoords) (hstop : rootStop C opts root c = false)
    (hf : feats C opts root c ≠ []) : ∀ k ∈ c.children, k ∈ s.tileCoords := by
  have hsrc : ∀ t, getT s.tiles c.id = some t → t.source = none := by
    intro t ht
    have := hR.src c hc (by simp [coordsOf]) t ht
    rw [hstop] at this
    simpa using this
  rcases hR.good.kids c hc (by simp [coordsOf]) hsrc with h | h
  · exact absurd h hf
  · intro k hk
    rcases h k hk with h' | h'
    · exact h'
    · simp [coordsOf] at h'

/-- Once the root pass is over, the parent of a logged non-root tile is logged,
had features, and the pass did not stop at it. -/
theorem RootPass.parent_subdivided {D F O : Type} {C : Collab D F O} {opts : Options}
    {root : List F} {s : Index F} (hR : RootPass C opts root s []) (c : Coord)
    (hc : c ∈ s.tileCoords) (h1 : 1 ≤ c.z) :
    c.parent ∈ s.tileCoords ∧ feats C opts root c.parent ≠ [] ∧
      rootStop C opts root c.parent = false := by
  obtain ⟨p1, -, p3, p4⟩ := hR.good.parent c (Or.inl hc) h1
  refine ⟨p1, p3, ?_⟩
  obtain ⟨t, ht, -, -⟩ := hR.good.tiles _ p1
  have hs := hR.src _ p1 (by simp [coordsOf]) t ht
  rw [p4 t ht] at hs
  cases hst : rootStop C opts root c.parent
  · rfl
  · rw [hst] at hs; simp at hs

/-! ## The drill-down reaches its target -/

theorem Coord.ancestor_zero (c : Coord) : c.ancestor 0 = c := by
  cases c
  simp [Coord.ancestor]

theorem Coord.ancestor_succ (c : Coord) (j : Nat) : (c.ancestor j).parent = c.ancestor (j + 1) := by
  simp only [Coord.ancestor, Coord.parent, Coord.mk.injEq]
  refine ⟨by push_cast; ring, ?_, ?_⟩ <;>
    rw [ediv_ediv_pos _ _ 2 (by positivity) (by decide), pow_succ]

theorem Coord.ancestor_valid {c : Coord} (h : c.Valid) (j : Nat) (hj : (j : Int) ≤ c.z) :
    (c.ancestor j).Valid := by
  induction j with
  | zero => rw [Coord.ancestor_zero]; exact h
  | succ n ih =>
    rw [← Coord.ancestor_succ]
    apply Coord.parent_valid (ih (by push_cast at hj; omega))
    simp only [Coord.ancestor]
    push_cast at hj
    omega

/-- The coordinates pending after a visit: the children of the visited
coordinate, when the visit neither stopped nor lacked features, and the rest of
the work list. -/
theorem Good.visit_stack {D F O : Type} {C : Collab D F O} {opts : Options} {root : List F}
    {Z : Int} {s : Index F} {e : Entry F} {rest : List (Entry F)}
    (hG : Good C opts root Z s (e :: rest)) (target : Target) (k : Coord) :
    k ∈ coordsOf ((visit C opts target s e).2.reverse ++ rest) ↔
      (((stopHere opts target e.z e.x e.y (tileAt C opts root e.coord).numPoints ||
          (feats C opts root e.coord).isEmpty) = false ∧ k ∈ e.coord.children) ∨
        k ∈ coordsOf rest) := by
  obtain ⟨-, -, -, -, -, hpush⟩ := hG.visit_facts target
  rw [hpush]
  cases hB : (stopHere opts target e.z e.x e.y (tileAt C opts root e.coord).numPoints ||
        (feats C opts root e.coord).isEmpty)
  · have := coordsOf_entryAt C opts root e.coord.children
    simp only [coordsOf] at this
    simp [coordsOf, this]
  · simp [coordsOf]

/-- The drill-down does not stop at a strict ancestor of its target that lies
above `maxZoom`. -/
theorem stopHere_drill_ancestor (opts : Options) (T : Coord) (hT : T.Valid) (j : Nat)
    (hj1 : 1 ≤ j) (hj : (j : Int) ≤ T.z) (hmax : T.z ≤ opts.maxZoom) (np : Int) :
    stopHere opts (some (T.z, T.x, T.y)) (T.ancestor j).z (T.ancestor j).x (T.ancestor j).y np
      = false := by
  obtain ⟨h1, h2, -⟩ := hT
  have hcz : T.z ≠ 0 := by omega
  have hsh : shl1 (T.z - (T.z - (j : Int))) = 2 ^ j := by
    have e : T.z - (T.z - (j : Int)) = j := by ring
    rw [e, shl1_eq_pow _ (by omega) (by omega)]
    simp
  have hpos : (0 : Int) ≤ 2 ^ j := by positivity
  simp only [stopHere, hcz, if_false, Coord.ancestor, hsh, Int.fdiv_eq_ediv _ hpos,
    Bool.or_eq_false_iff, decide_eq_false_iff_not, ne_eq, not_not, and_true]
  constructor <;> omega

theorem Good.visit_reaching {D F O : Type} {C : Collab D F O} {opts : Options} {root : List F}
    {Z : Int} {s : Index F} {e : Entry F} {rest : List (Entry F)}
    (hG : Good C opts root Z s (e :: rest)) (T : Coord) (hT : T.Valid) (K : Nat)
    (hK : (K : Int) ≤ T.z) (hmax : T.z ≤ opts.maxZoom)
    (hfeat : ∀ j : Nat, 1 ≤ j → j ≤ K → feats C opts root (T.ancestor j) ≠ [])
    (hJ : Reaching T K s (e :: rest)) :
    Reaching T K (visit C opts (some (T.z, T.x, T.y)) s e).1
      ((visit C opts (some (T.z, T.x, T.y)) s e).2.reverse ++ rest) := by
  obtain ⟨-, -, hlog, -, -, -⟩ := hG.visit_facts (some (T.z, T.x, T.y))
  have hst := hG.visit_stack (some (T.z, T.x, T.y))
  rcases hJ with h | ⟨j, hj, h⟩
  · exact Or.inl ((hlog T).2 (Or.inl h))
  · simp only [coordsOf, List.map_cons, List.mem_cons] at h
    rcases h with h | h
    · rcases Nat.eq_zero_or_pos j with h0 | h0
      · subst h0
        rw [Coord.ancestor_zero] at h
        exact Or.inl ((hlog T).2 (Or.inr h))
      · right
        refine ⟨j - 1, by omega, (hst _).2 (Or.inl ⟨?_, ?_⟩)⟩
        · have hs := stopHere_drill_ancestor opts T hT j h0 (by omega) hmax
            (tileAt C opts root e.coord).numPoints
          have hf := hfeat j h0 hj
          rw [h] at hs hf
          have hs' : stopHere opts (some (T.z, T.x, T.y)) e.z e.x e.y
              (tileAt C opts root e.coord).numPoints = false := hs
          rw [hs']
          cases he : (feats C opts root e.coord).isEmpty
          · rfl
          · exact absurd (isEmpty_true_eq_nil _ he) hf
        · have := Coord.mem_children_parent (T.ancestor (j - 1))
          rw [Coord.ancestor_succ] at this
          have e1 : j - 1 + 1 = j := by omega
          rw [e1, h] at this
          exact this
    · exact Or.inr ⟨j, hj, (hst _).2 (Or.inr h)⟩

theorem Good.splitLoop_reaching {D F O : Type} {C : Collab D F O} {opts : Options}
    {root : List F} (T : Coord) (hT : T.Valid) (hz : 1 ≤ T.z) (K : Nat)
    (hK : (K : Int) ≤ T.z) (hmax : T.z ≤ opts.maxZoom)
    (hfeat : ∀ j : Nat, 1 ≤ j → j ≤ K → feats C opts root (T.ancestor j) ≠ [])
    (fuel : Nat) (s : Index F) (st : List (Entry F)) (hG : Good C opts root T.z s st)
    (hJ : Reaching T K s st) :
    Reaching T K (splitLoop C opts (some (T.z, T.x, T.y)) fuel s st).1
      (splitLoop C opts (some (T.z, T.x, T.y)) fuel s st).2 := by
  induction fuel generalizing s st with
  | zero => cases st <;> exact hJ
  | succ n ih =>
    cases st with
    | nil => exact hJ
    | cons e rest =>
      simp only [splitLoop]
      exact ih _ _ (hG.step _ hT.2.1 (stopHere_drill_cap opts T.z T.x T.y (by omega)))
        (hG.visit_reaching T hT K hK hmax hfeat hJ)

/-! ## Sequences of persisting reads -/

theorem Good.reads {D F O : Type} {C : Collab D F O} {opts : Options}
    {root : List F} {Z : Int} {s : Index F} (hG : Good C opts root Z s [])
    (calls : List Call) (hp : ∀ c ∈ calls, c.persist = true) :
    Good C opts root Z (runCalls C opts s calls) [] := by
  induction calls generalizing s with
  | nil => exact hG
  | cons c cs ih =>
    simp only [runCalls]
    have hc := hp c (List.mem_cons_self _ _)
    rw [hc]
    exact ih (hG.read c.z c.x c.y c.returnbranch) fun c' hc' =>
      hp c' (List.mem_cons_of_mem _ hc')

/-! ## A drill-down along a path with features returns the canonical tile -/

theorem wrapX_valid {T : Coord} (hT : T.Valid) : wrapX (shl1 T.z) T.x = T.x := by
  obtain ⟨h1, h2, h3, h4, -, -⟩ := hT
  rw [wrapX_shl1 _ _ h1 h2]
  exact Int.emod_eq_of_lt h3 h4

/-- A cache hit in a well-formed state returns the transform of a tile equal to
the canonical tile up to `source`, and leaves the state unchanged. -/
theorem Good.getTile_hit {D F O : Type} {C : Collab D F O} {opts : Options}
    {root : List F} {Z : Int} {s : Index F} (hG : Good C opts root Z s [])
    (T : Coord) (hT : T.Valid) (hlog : T ∈ s.tileCoords) (persist returnbranch : Bool) :
    ∃ t, getTile C opts s T.z T.x T.y persist returnbranch =
        (Result.tile (C.transform t opts.extent), s) ∧
      getT s.tiles T.id = some t ∧ t.erase = (tileAt C opts root T).erase := by
  obtain ⟨t, ht, he, -⟩ := hG.tiles T hlog
  refine ⟨t, ?_, ht, he⟩
  have hz : ¬ (T.z < 0 ∨ T.z > 24) := by have := hT.1; have := hT.2.1; omega
  have ht' : getT s.tiles (toID T.z T.x T.y) = some t := ht
  unfold getTile
  simp only [hz, if_false, wrapX_valid hT, ht']

/-- A drill-down to a valid target below `maxZoom`, all of whose strict
ancestors have features, reaches the target: with `persist = true`, `getTile`
returns the transform of a tile equal to the canonical tile up to `source`. -/
theorem Good.getTile_drill_hit {D F O : Type} {C : Collab D F O} {opts : Options}
    {root : List F} {Z : Int} {s : Index F} (hG : Good C opts root Z s [])
    (T : Coord) (hT : T.Valid) (e : Entry F) (hd : drillStart s T.z T.x T.y = some e)
    (hmax : T.z ≤ opts.maxZoom)
    (hfeat : ∀ j : Nat, 1 ≤ j → (j : Int) ≤ T.z → feats C opts root (T.ancestor j) ≠ [])
    (returnbranch : Bool) :
    ∃ t, (getTile C opts s T.z T.x T.y true returnbranch).1 =
        Result.tile (C.transform t opts.extent) ∧
      t.erase = (tileAt C opts root T).erase := by
  obtain ⟨hz0, hz1, -, k, p, ⟨hk1, hk2, -, -⟩, -, ez, ex, ey⟩ := drillStart_spec _ _ _ _ e hd
  have hw := wrapX_valid hT
  rw [hw] at ex
  have hec : e.coord = T.ancestor k := by
    simp only [Entry.coord, Coord.ancestor, ez, ex, ey]
  have hG0 := hG.drill_start T.z T.x T.y e hd
  have hJ0 : Reaching T k s [e] := Or.inr ⟨k, le_refl k, by simp [coordsOf, hec]⟩
  have hterm := drill_terminates C opts s T.z T.x T.y e hd
  rw [hw] at hterm
  unfold splitTile at hterm
  have hee : e = ⟨e.features, e.z, e.x, e.y⟩ := rfl
  rw [hee] at hG0 hJ0
  have hG1 := Good.loop (some (T.z, T.x, T.y)) hz1
    (stopHere_drill_cap opts T.z T.x T.y (by omega)) (drillFuel T.z e.z) s _ hG0
  have hJ1 := Good.splitLoop_reaching T hT (by omega) k hk2 hmax
    (fun j h1 h2 => hfeat j h1 (by omega)) (drillFuel T.z e.z) s _ hG0 hJ0
  rw [hterm] at hG1 hJ1
  have hTlog : T ∈ (splitLoop C opts (some (T.z, T.x, T.y)) (drillFuel T.z e.z) s
      [⟨e.features, e.z, e.x, e.y⟩]).1.tileCoords := by
    rcases hJ1 with h | ⟨j, -, h⟩
    · exact h
    · simp [coordsOf] at h
  obtain ⟨t, ht, he, -⟩ := hG1.tiles T hTlog
  refine ⟨t, ?_, he⟩
  rw [getTile_of_drillStart_some C opts s T.z T.x T.y true returnbranch e hd]
  simp only [if_true, drillState, splitTile, hw]
  have ht' : getT (splitLoop C opts (some (T.z, T.x, T.y)) (drillFuel T.z e.z) s
      [⟨e.features, e.z, e.x, e.y⟩]).1.tiles (toID T.z T.x T.y) = some t := ht
  rw [ht']

/-! ## What the root pass has cached when it is over -/

theorem Coord.parent_ancestor (c : Coord) (j : Nat) :
    c.parent.ancestor j = c.ancestor (j + 1) := by
  simp only [Coord.ancestor, Coord.parent, Coord.mk.injEq, ediv_two_pow_succ]
  refine ⟨by push_cast; ring, trivial, trivial⟩

theorem Coord.parent_eq_ancestor (c : Coord) : c.parent = c.ancestor 1 := by
  simp [Coord.ancestor, Coord.parent]

theorem Coord.valid_zero {c : Coord} (h : c.Valid) (hz : c.z = 0) : c = ⟨0, 0, 0⟩ := by
  obtain ⟨z, x, y⟩ := c
  simp only [Coord.Valid] at h
  simp only at hz
  subst hz
  obtain ⟨-, -, h3, h4, h5, h6⟩ := h
  simp only [Int.toNat_zero, pow_zero] at h4 h6
  simp only [Coord.mk.injEq, true_and]
  constructor <;> omega

theorem rootStop_eq_false {D F O : Type} (C : Collab D F O) (opts : Options) (root : List F)
    (c : Coord) (hz : c.z ≠ opts.indexMaxZoom)
    (hp : opts.indexMaxPoints < (tileAt C opts root c).numPoints) :
    rootStop C opts root c = false := by
  simp only [rootStop, stopHere, Bool.or_eq_false_iff, decide_eq_false_iff_not, not_le]
  exact ⟨hz, hp⟩

theorem rootStop_eq_true {D F O : Type} (C : Collab D F O) (opts : Options) (root : List F)
    (c : Coord) (hz : c.z = opts.indexMaxZoom) : rootStop C opts root c = true := by
  simp [rootStop, stopHere, hz]

/-- Completeness of a finished root pass: a valid coordinate no deeper than
`indexMaxZoom`, all of whose strict ancestors have features and more than
`indexMaxPoints` points, is logged. -/
theorem RootPass.complete {D F O : Type} {C : Collab D F O} {opts : Options}
    {root : List F} {s : Index F} (hR : RootPass C opts root s [])
    (hroot : (⟨0, 0, 0⟩ : Coord) ∈ s.tileCoords) (n : Nat) :
    ∀ c : Coord, c.Valid → c.z = n → c.z ≤ opts.indexMaxZoom →
      (∀ j : Nat, 1 ≤ j → (j : Int) ≤ c.z → feats C opts root (c.ancestor j) ≠ [] ∧
        opts.indexMaxPoints < (tileAt C opts root (c.ancestor j)).numPoints) →
      c ∈ s.tileCoords := by
  induction n with
  | zero =>
    intro c hv hz _ _
    rw [Coord.valid_zero hv (by simpa using hz)]
    exact hroot
  | succ n ih =>
    intro c hv hz hcap hanc
    have hz' : c.z = (n : Int) + 1 := by simpa using hz
    have hp : c.parent ∈ s.tileCoords := by
      apply ih c.parent (Coord.parent_valid hv (by omega))
      · simp only [Coord.parent]; omega
      · simp only [Coord.parent]; omega
      · intro j hj1 hj2
        rw [Coord.parent_ancestor]
        apply hanc (j + 1) (by omega)
        simp only [Coord.parent] at hj2
        push_cast
        omega
    obtain ⟨hf, hnp⟩ := hanc 1 (le_refl 1) (by push_cast; omega)
    rw [← Coord.parent_eq_ancestor] at hf hnp
    have hstop := rootStop_eq_false C opts root c.parent
      (by simp only [Coord.parent]; omega) hnp
    exact hR.children_logged c.parent hp hstop hf c (Coord.mem_children_parent c)

/-- When the constructor does not throw and has features, the root tile is
logged once the root pass is over. -/
theorem GeoJSONVT_root_logged {D F O : Type} (C : Collab D F O) (opts : Options) (fuel : Nat)
    (data : D) (h0 : 0 ≤ opts.indexMaxZoom) (h1 : opts.indexMaxZoom ≤ 24)
    (hok : (GeoJSONVT C opts fuel data).thrown = none)
    (hne : rootFeatures C opts data ≠ [])
    (hdone : (GeoJSONVT C opts fuel data).stack = []) :
    (⟨0, 0, 0⟩ : Coord) ∈ (GeoJSONVT C opts fuel data).index.tileCoords := by
  have hlen : (C.wrap (C.convert data opts) opts).length ≠ 0 := by
    intro h
    exact hne (List.length_eq_zero.1 h)
  unfold GeoJSONVT at hok hdone ⊢
  split at hok
  · cases hok
  · split at hok
    · cases hok
    · rename_i hc1 hc2
      simp only [hc1, hc2, if_false, hlen, ne_eq, not_false_eq_true, if_true] at hdone ⊢
      have hp := @Good.splitLoop_pending D F O C opts _ _ none h1
        (stopHere_root_cap opts) ⟨0, 0, 0⟩ fuel ⟨[], [], []⟩
        [⟨C.wrap (C.convert data opts) opts, 0, 0, 0⟩]
        (rootPass_initial C opts _ h0).good (Or.inr (by simp [coordsOf, Entry.coord]))
      unfold splitTile at hdone ⊢
      rw [hdone] at hp
      rcases hp with h | h
      · exact h
      · simp [coordsOf] at h

/-- After a finished root pass `getTile` drills down to a valid target deeper
than `indexMaxZoom` from the ancestor of the target at zoom `indexMaxZoom`, when
that ancestor is logged. -/
theorem RootPass.drillStart_eq {D F O : Type} {C : Collab D F O} {opts : Options}
    {root : List F} {s : Index F} (hR : RootPass C opts root s [])
    (T : Coord) (hT : T.Valid) (K : Nat) (hK1 : 1 ≤ K)
    (hK : T.z - (K : Int) = opts.indexMaxZoom)
    (hA : T.ancestor K ∈ s.tileCoords) :
    drillStart s T.z T.x T.y = some (entryAt C opts root (T.ancestor K)) := by
  have hw := wrapX_valid hT
  have h1 := hT.1
  have h2 := hT.2.1
  have hz : ¬ (T.z < 0 ∨ T.z > 24) := by omega
  have hnot : ∀ j : Nat, (j : Int) ≤ T.z → j < K →
      getT s.tiles (ancestorID T.z T.x T.y j) = none := by
    intro j hj hjK
    by_contra hc
    have hv := Coord.ancestor_valid hT j hj
    have hmem := (hR.good.cached_iff (T.ancestor j) hv).1 hc
    have := hR.cap _ hmem
    simp only [Coord.ancestor] at this
    omega
  have hT0 : getT s.tiles (toID T.z T.x T.y) = none := by
    have := hnot 0 (by omega) (by omega)
    simpa [ancestorID] using this
  obtain ⟨p, hp, -, hps⟩ := hR.good.tiles _ hA
  have hsrc := hR.src _ hA (by simp [coordsOf]) p hp
  rw [rootStop_eq_true C opts root _ (by simp only [Coord.ancestor]; exact hK)] at hsrc
  simp only [if_true] at hsrc
  have hzn : ((T.z.toNat : Nat) : Int) = T.z := Int.toNat_of_nonneg h1
  unfold drillStart
  simp only [hz, if_false, hw, hT0]
  cases hwk : walkUp s.tiles T.z.toNat T.x T.y with
  | none =>
    have hno := (walkUp_eq_none _ _ _ _).1 hwk
    rw [hzn] at hno
    have := hno K hK1 (by have := hR.good.logValid _ hA; have := this.1;
                          simp only [Coord.ancestor] at this; omega)
    have hp' : getT s.tiles (ancestorID T.z T.x T.y K) = some p := hp
    rw [this] at hp'
    cases hp'
  | some q =>
    obtain ⟨p', z0, x0, y0⟩ := q
    obtain ⟨k', ⟨hk1, hk2, hk3, hk4⟩, e1, e2, e3⟩ := walkUp_eq_some _ _ _ _ _ _ _ _ hwk
    rw [hzn] at hk2 hk3 hk4 e1
    have hkk : k' = K := by
      rcases Nat.lt_trichotomy k' K with hlt | heq | hgt
      · have := hnot k' hk2 hlt
        rw [this] at hk3; cases hk3
      · exact heq
      · have := hk4 K hK1 hgt
        have hp' : getT s.tiles (ancestorID T.z T.x T.y K) = some p := hp
        rw [this] at hp'; cases hp'
    subst hkk
    have hp' : getT s.tiles (ancestorID T.z T.x T.y k') = some p := hp
    rw [hp'] at hk3
    cases hk3
    simp only [hsrc, Option.map_some', entryAt, Coord.ancestor, e1, e2, e3]

/-! ## The pyramid down to zoom 2 -/

theorem mem_pyramid2 (c : Coord) : c ∈ pyramid2 ↔ c.Valid ∧ c.z ≤ 2 := by
  constructor
  · revert c
    decide
  · rintro ⟨⟨h1, -, h3, h4, h5, h6⟩, h2⟩
    obtain ⟨z, x, y⟩ := c
    simp only at h1 h2 h3 h4 h5 h6
    have hz : z = 0 ∨ z = 1 ∨ z = 2 := by omega
    rcases hz with rfl | rfl | rfl
    · have hx : x = 0 := by simp at h4; omega
      have hy : y = 0 := by simp at h6; omega
      subst hx hy
      decide
    · have h4' : x < 2 := by simpa using h4
      have h6' : y < 2 := by simpa using h6
      have hx : x = 0 ∨ x = 1 := by omega
      have hy : y = 0 ∨ y = 1 := by omega
      rcases hx with rfl | rfl <;> rcases hy with rfl | rfl <;> decide
    · have h4' : x < 4 := by simpa using h4
      have h6' : y < 4 := by simpa using h6
      have hx : x = 0 ∨ x = 1 ∨ x = 2 ∨ x = 3 := by omega
      have hy : y = 0 ∨ y = 1 ∨ y = 2 ∨ y = 3 := by omega
      rcases hx with rfl | rfl | rfl | rfl <;> rcases hy with rfl | rfl | rfl | rfl <;> decide

theorem pyramid2_nodup : pyramid2.Nodup := by
  decide

/-- A duplicate-free list with the members of `pyramid2` has one coordinate of
zoom 0, four of zoom 1 and sixteen of zoom 2. -/
theorem pyramid2_counts (l : List Coord) (hnd : l.Nodup)
    (hmem : ∀ c, c ∈ l ↔ c.Valid ∧ c.z ≤ 2) :
    (l.filter fun c => decide (c.z = 0)).length = 1 ∧
    (l.filter fun c => decide (c.z = 1)).length = 4 ∧
    (l.filter fun c => decide (c.z = 2)).length = 16 := by
  have hperm : l.Perm pyramid2 :=
    (List.perm_ext_iff_of_nodup hnd pyramid2_nodup).2 fun c => by rw [hmem, mem_pyramid2]
  refine ⟨?_, ?_, ?_⟩
  · rw [(hperm.filter _).length_eq]; decide
  · rw [(hperm.filter _).length_eq]; decide
  · rw [(hperm.filter _).length_eq]; decide

theorem GeoJSONVT_not_thrown {D F O : Type} (C : Collab D F O) (opts : Options) (fuel : Nat)
    (data : D) (h1 : 0 ≤ opts.maxZoom ∧ opts.maxZoom ≤ 24)
    (h2 : ¬ (truthy opts.promoteId = true ∧ opts.generateId = true)) :
    (GeoJSONVT C opts fuel data).thrown = none := by
  unfold GeoJSONVT
  rw [if_neg (by omega), if_neg h2]
  simp only
  split <;> rfl

/-! ## Two index depths over the same data -/

theorem Coord.ancestor_add (c : Coord) (a b : Nat) :
    (c.ancestor a).ancestor b = c.ancestor (a + b) := by
  simp only [Coord.ancestor, Coord.mk.injEq]
  refine ⟨by push_cast; ring, ?_, ?_⟩ <;>
    rw [ediv_ediv_pos _ _ _ (by positivity) (by positivity), pow_add]

theorem rootFeatures_withDepth {D F O : Type} (C : Collab D F O) (h : IgnoresIndexDepth C)
    (o : Options) (d : Int) (data : D) :
    rootFeatures C (withDepth o d) data = rootFeatures C o data := by
  unfold rootFeatures
  rw [(h o d).1, (h o d).2.1]

theorem childEntries_withDepth {D F O : Type} (C : Collab D F O) (h : IgnoresIndexDepth C)
    (o : Options) (d : Int) (fs : List F) (z x y : Int) (t : Tile F) :
    childEntries C (withDepth o d) fs z x y t = childEntries C o fs z x y t := by
  have hc := (h o d).2.2.1
  simp only [childEntries, hc]
  rfl

theorem featsAt_withDepth {D F O : Type} (C : Collab D F O) (h : IgnoresIndexDepth C)
    (o : Options) (d : Int) (root : List F) (n : Nat) (x y : Int) :
    featsAt C (withDepth o d) root n x y = featsAt C o root n x y := by
  induction n generalizing x y with
  | zero => rfl
  | succ n ih =>
    simp only [featsAt, ih, childEntries_withDepth C h, (h o d).2.2.2]

theorem feats_withDepth {D F O : Type} (C : Collab D F O) (h : IgnoresIndexDepth C)
    (o : Options) (d : Int) (root : List F) (c : Coord) :
    feats C (withDepth o d) root c = feats C o root c :=
  featsAt_withDepth C h o d root _ _ _

theorem tileAt_withDepth {D F O : Type} (C : Collab D F O) (h : IgnoresIndexDepth C)
    (o : Options) (d : Int) (root : List F) (c : Coord) :
    tileAt C (withDepth o d) root c = tileAt C o root c := by
  unfold tileAt
  rw [feats_withDepth C h, (h o d).2.2.2]

theorem GeoJSONVT_thrown_none {D F O : Type} (C : Collab D F O) (opts : Options) (fuel : Nat)
    (data : D) (h : (GeoJSONVT C opts fuel data).thrown = none) :
    (0 ≤ opts.maxZoom ∧ opts.maxZoom ≤ 24) ∧
      ¬ (truthy opts.promoteId = true ∧ opts.generateId = true) := by
  unfold GeoJSONVT at h
  split at h
  · cases h
  · split at h
    · cases h
    · rename_i h1 h2
      exact ⟨by omega, h2⟩

theorem GeoJSONVT_thrown_withDepth {D F O : Type} (C : Collab D F O) (o : Options)
    (d d' : Int) (fuel fuel' : Nat) (data : D)
    (h : (GeoJSONVT C (withDepth o d) fuel data).thrown = none) :
    (GeoJSONVT C (withDepth o d') fuel' data).thrown = none := by
  obtain ⟨h1, h2⟩ := GeoJSONVT_thrown_none C _ fuel data h
  exact GeoJSONVT_not_thrown C _ fuel' data h1 h2

/-- In a finished root pass every ancestor of a logged coordinate is logged,
and every strict ancestor had features and more than `indexMaxPoints` points. -/
theorem RootPass.ancestors {D F O : Type} {C : Collab D F O} {opts : Options}
    {root : List F} {s : Index F} (hR : RootPass C opts root s []) (T : Coord)
    (hT : T ∈ s.tileCoords) (j : Nat) (hj : (j : Int) ≤ T.z) :
    T.ancestor j ∈ s.tileCoords ∧
      (1 ≤ j → feats C opts root (T.ancestor j) ≠ [] ∧
        opts.indexMaxPoints < (tileAt C opts root (T.ancestor j)).numPoints) := by
  induction j with
  | zero =>
    rw [Coord.ancestor_zero]
    exact ⟨hT, fun h => absurd h (by decide)⟩
  | succ n ih =>
    have hn := (ih (by push_cast at hj; omega)).1
    have hz : 1 ≤ (T.ancestor n).z := by
      simp only [Coord.ancestor]; push_cast at hj; omega
    obtain ⟨p1, p2, p3⟩ := hR.parent_subdivided _ hn hz
    rw [Coord.ancestor_succ] at p1 p2 p3
    exact ⟨p1, fun _ => ⟨p2, (stopHere_root_false p3).2⟩⟩

theorem exC_ignoresIndexDepth : IgnoresIndexDepth exC :=
  fun _ _ => ⟨fun _ => rfl, fun _ => rfl, fun _ _ _ _ _ _ _ => rfl, fun _ _ _ _ => rfl⟩

theorem exC_feats_pyramid2 :
    ∀ c ∈ pyramid2, feats exC exDeep (rootFeatures exC exDeep [7]) c ≠ [] ∧
      0 < (tileAt exC exDeep (rootFeatures exC exDeep [7]) c).numPoints := by
  decide

/-! ## The first element of the epilogue array -/

theorem orderedInsert_append_last (b a : Coord) (M : List Coord) (h : b.z ≤ a.z) :
    List.orderedInsert (fun a b : Coord => a.z ≤ b.z) b (M ++ [a]) =
      List.orderedInsert (fun a b : Coord => a.z ≤ b.z) b M ++ [a] := by
  induction M with
  | nil => simp [List.orderedInsert, h]
  | cons m M ih =>
    simp only [List.cons_append, List.orderedInsert]
    by_cases hm : b.z ≤ m.z
    · simp [hm]
    · simp [hm, ih]

/-- Sorting by zoom leaves a last element of maximal zoom in the last place. -/
theorem sortByZ_append_last (L : List Coord) (a : Coord) (h : ∀ b ∈ L, b.z ≤ a.z) :
    sortByZ (L ++ [a]) = sortByZ L ++ [a] := by
  induction L with
  | nil => simp [sortByZ]
  | cons b L ih =>
    have ih' := ih fun c hc => h c (List.mem_cons_of_mem _ hc)
    unfold sortByZ at ih' ⊢
    show List.orderedInsert _ b (List.insertionSort _ (L ++ [a])) = _
    rw [ih']
    exact orderedInsert_append_last b a _ (h b (List.mem_cons_self _ _))

/-- The first element of the array built by the epilogue when the log is
`pre ++ target :: post`, `target` is not in `pre` and nothing in `pre` is deeper
than the target: the cached tile of the target. -/
theorem tileArray_head {F : Type} (s : Index F) (z x y : Int) (pre post : List Coord)
    (hlog : s.tileCoords = pre ++ ⟨z, x, y⟩ :: post) (hpre : (⟨z, x, y⟩ : Coord) ∉ pre)
    (hdeep : ∀ c ∈ pre, c.z ≤ z) :
    (tileArray s z x y).headD none = getT s.tiles (toID z x y) := by
  have hidx : findIndex (fun k => decide (k.z = z) && decide (k.x = x) && decide (k.y = y))
      (pre ++ ⟨z, x, y⟩ :: post) = pre.length := by
    apply findIndex_append
    · intro b hb
      by_contra hc
      have hc' : b.z = z ∧ b.x = x ∧ b.y = y := by simpa [and_assoc] using hc
      apply hpre
      have : b = ⟨z, x, y⟩ := by
        cases b; simp only [Coord.mk.injEq]; exact hc'
      rw [← this]; exact hb
    · simp
  have htake : (pre ++ ⟨z, x, y⟩ :: post).take ((pre.length : Int) + 1).toNat
      = pre ++ [⟨z, x, y⟩] := by
    have : ((pre.length : Int) + 1).toNat = pre.length + 1 := by omega
    rw [this, List.take_append_eq_append_take]
    simp
  unfold tileArray
  simp only [hlog, hidx, htake]
  rw [sortByZ_append_last pre ⟨z, x, y⟩ hdeep]
  simp

/-- The first element of the array built by the epilogue, in general: the
cached tile of an entry of maximal zoom among `pre ++ [target]`. -/
theorem tileArray_head_max {F : Type} (s : Index F) (z x y : Int) (pre post : List Coord)
    (hlog : s.tileCoords = pre ++ ⟨z, x, y⟩ :: post) (hpre : (⟨z, x, y⟩ : Coord) ∉ pre) :
    ∃ k : Coord, k ∈ pre ++ [⟨z, x, y⟩] ∧ (∀ c ∈ pre ++ [⟨z, x, y⟩], c.z ≤ k.z) ∧
      (tileArray s z x y).headD none = getT s.tiles (toID k.z k.x k.y) := by
  obtain ⟨ks, h1, h2, h3⟩ := tileArray_spec s z x y pre post hlog hpre
  cases ks with
  | nil =>
    have := h2.length_eq
    simp at this
  | cons k ks =>
    refine ⟨k, h2.subset (List.mem_cons_self _ _), ?_, ?_⟩
    · intro c hc
      have hc' : c ∈ k :: ks := h2.symm.subset hc
      rcases List.mem_cons.1 hc' with rfl | hc''
      · exact le_refl _
      · exact (List.pairwise_cons.1 h3).1 c hc''
    · rw [h1]; simp

/-- What `tileArray[0]` is after a drill-down that reaches the target, so that
the coordinate log is `pre ++ target :: post` with `target` not in `pre`: the
cached tile of a log entry of maximal zoom among `pre ++ [target]`; it is the
tile stored under the id of the (wrapped) target when no entry logged before
the target has a zoom greater than `z`. -/
theorem getTile_single_is_deepest_logged {D F O : Type} (C : Collab D F O) (opts : Options)
    (s : Index F) (z x y : Int) (e : Entry F) (pre post : List Coord)
    (hd : drillStart s z x y = some e)
    (hlog : (drillState C opts s z x y e).tileCoords = pre ++ ⟨z, wrapX (shl1 z) x, y⟩ :: post)
    (hpre : (⟨z, wrapX (shl1 z) x, y⟩ : Coord) ∉ pre) :
    (∃ k : Coord, k ∈ pre ++ [⟨z, wrapX (shl1 z) x, y⟩] ∧
      (∀ c ∈ pre ++ [⟨z, wrapX (shl1 z) x, y⟩], c.z ≤ k.z) ∧
      (getTile C opts s z x y false false).1 =
        Result.single (getT (drillState C opts s z x y e).tiles (toID k.z k.x k.y))) ∧
    ((∀ c ∈ pre, c.z ≤ z) →
      (getTile C opts s z x y false false).1 =
        Result.single
          (getT (drillState C opts s z x y e).tiles (toID z (wrapX (shl1 z) x) y))) := by
  have hg := getTile_of_drillStart_some C opts s z x y false false e hd
  simp only [Bool.false_eq_true, if_false] at hg
  rw [hg]
  refine ⟨?_, ?_⟩
  · obtain ⟨k, h1, h2, h3⟩ :=
      tileArray_head_max (drillState C opts s z x y e) z _ y pre post hlog hpre
    exact ⟨k, h1, h2, congrArg Result.single h3⟩
  · intro hdeep
    exact congrArg Result.single
      (tileArray_head (drillState C opts s z x y e) z _ y pre post hlog hpre hdeep)

/-! ## Bounds on the number of visits -/

theorem treeSize_eq (k : Nat) : 3 * treeSize k + 1 = 4 ^ (k + 1) := by
  induction k with
  | zero => rfl
  | succ k ih =>
    simp only [treeSize]
    rw [pow_succ]
    omega

theorem treeSize_eq_div (k : Nat) : treeSize k = (4 ^ (k + 1) - 1) / 3 := by
  have := treeSize_eq k
  omega

/-- Drill-down pass, for any target zoom other than `0`: a work list whose
entries have zoom at most `cz` is emptied within the sum of the path weights of
its entries. -/
theorem splitLoop_path_terminates {D F O : Type} (C : Collab D F O) (opts : Options)
    (cz cx cy : Int) (hcz : cz ≠ 0)
    (fuel : Nat) (s : Index F) (st : List (Entry F))
    (hP : ∀ e ∈ st, e.z ≤ cz)
    (hw : (st.map (pathWeight cz cx cy)).sum ≤ fuel) :
    (splitLoop C opts (some (cz, cx, cy)) fuel s st).2 = [] := by
  apply splitLoop_terminates C opts (some (cz, cx, cy)) (pathWeight cz cx cy)
    (fun e => e.z ≤ cz) _ fuel s st hP hw
  intro s e he
  have hw1 : ∀ e' : Entry F, 1 ≤ pathWeight cz cx cy e' := by
    intro e'; unfold pathWeight; split <;> omega
  rcases visit_pushed_cases C opts (some (cz, cx, cy)) s e with h | ⟨hs, -, h⟩
  · rw [h]
    exact ⟨by simp, by simpa using hw1 e⟩
  · rw [h]
    obtain ⟨-, hne, hx, hy⟩ := stopHere_drill_false hcz hs
    have hlt : e.z < cz := lt_of_le_of_ne he hne
    constructor
    · intro e' he'
      simp only [childEntries, List.mem_cons, List.mem_singleton, List.not_mem_nil,
        or_false] at he'
      rcases he' with rfl | rfl | rfl | rfl <;>
        (show e.z + 1 ≤ cz; omega)
    · have hwe : pathWeight cz cx cy e = 1 + 4 * (cz - e.z).toNat := by
        unfold pathWeight
        rw [if_pos ⟨hlt, hx, hy⟩]
      rw [hwe]
      simp only [childEntries, pathWeight, List.map_cons, List.map_nil, List.sum_cons,
        List.sum_nil]
      generalize Int.fdiv cx (shl1 (cz - (e.z + 1))) = A
      generalize Int.fdiv cy (shl1 (cz - (e.z + 1))) = B
      split_ifs <;> omega

/-! ## What a drill-down adds to the cache -/

/-- What a run of the loop can add, whatever the cache: when every pending
entry satisfies `P` and visits push only entries satisfying `P`, every
coordinate logged by the run is that of an entry satisfying `P`, and every
tile left without a source either was so before or belongs to an entry
satisfying `P` at which the pass did not stop. -/
theorem splitLoop_added {D F O : Type} (C : Collab D F O) (opts : Options) (target : Target)
    (P : Entry F → Prop)
    (hstep : ∀ s e, P e → ∀ e' ∈ (visit C opts target s e).2, P e')
    (fuel : Nat) (s : Index F) (st : List (Entry F)) (hP : ∀ e ∈ st, P e) :
    (∀ c ∈ (splitLoop C opts target fuel s st).1.tileCoords,
      c ∈ s.tileCoords ∨ ∃ e, P e ∧ c = e.coord) ∧
    (∀ id t', getT (splitLoop C opts target fuel s st).1.tiles id = some t' → t'.source = none →
      (∃ t, getT s.tiles id = some t ∧ t.source = none) ∨
      ∃ e np, P e ∧ id = toID e.z e.x e.y ∧ stopHere opts target e.z e.x e.y np = false) := by
  induction fuel generalizing s st with
  | zero =>
    cases st with
    | nil => exact ⟨fun c hc => Or.inl hc, fun id t' h1 h2 => Or.inl ⟨t', h1, h2⟩⟩
    | cons e rest => exact ⟨fun c hc => Or.inl hc, fun id t' h1 h2 => Or.inl ⟨t', h1, h2⟩⟩
  | succ n ih =>
    cases st with
    | nil => exact ⟨fun c hc => Or.inl hc, fun id t' h1 h2 => Or.inl ⟨t', h1, h2⟩⟩
    | cons e rest =>
      have hPe : P e := hP e (List.mem_cons_self _ _)
      have hP' : ∀ e' ∈ (visit C opts target s e).2.reverse ++ rest, P e' := by
        intro e' he'
        rcases List.mem_append.1 he' with h | h
        · exact hstep s e hPe e' (List.mem_reverse.1 h)
        · exact hP e' (List.mem_cons_of_mem _ h)
      obtain ⟨ih1, ih2⟩ := ih (visit C opts target s e).1 _ hP'
      simp only [splitLoop]
      refine ⟨?_, ?_⟩
      · intro c hc
        rcases ih1 c hc with h | h
        · rcases (visit_mem_log C opts target s e c).1 h with h' | ⟨-, h'⟩
          · exact Or.inl h'
          · exact Or.inr ⟨e, hPe, h'⟩
        · exact Or.inr h
      · intro id t' h1 h2
        rcases ih2 id t' h1 h2 with ⟨t, ht, hts⟩ | h
        · rw [visit_get] at ht
          by_cases hid : id = toID e.z e.x e.y
          · rw [if_pos hid] at ht
            right
            refine ⟨e, (visitedTile C opts s e).numPoints, hPe, hid, ?_⟩
            have hsrc : visitedSource C opts target s e = none := by
              have := congrArg (fun o => o.map Tile.source) ht
              simp only [Option.map_some'] at this
              rw [hts] at this
              exact Option.some.inj this
            unfold visitedSource at hsrc
            cases hs : stopHere opts target e.z e.x e.y (visitedTile C opts s e).numPoints
            · rfl
            · rw [hs] at hsrc; simp at hsrc
          · rw [if_neg hid] at ht
            exact Or.inl ⟨t, ht, hts⟩
        · exact Or.inr h

/-- An entry at which a drill-down to the in-range target `T` does not stop is
a strict ancestor of `T` whose zoom is not `maxZoom`. -/
theorem unstopped_on_path (opts : Options) (T : Coord) (hT0 : 1 ≤ T.z) (hT1 : T.z ≤ 24)
    (a : Coord) (ha0 : 0 ≤ a.z) (ha1 : a.z ≤ T.z) (np : Int)
    (hs : stopHere opts (some (T.z, T.x, T.y)) a.z a.x a.y np = false) :
    a.z < T.z ∧ a.z ≠ opts.maxZoom ∧ a = T.ancestor (T.z - a.z).toNat := by
  obtain ⟨hmax, hne, hx, hy⟩ := stopHere_drill_false (by omega) hs
  have hlt : a.z < T.z := lt_of_le_of_ne ha1 hne
  have hsh : shl1 (T.z - a.z) = 2 ^ (T.z - a.z).toNat := shl1_eq_pow _ (by omega) (by omega)
  have hpos : (0 : Int) ≤ 2 ^ (T.z - a.z).toNat := by positivity
  rw [hsh, Int.fdiv_eq_ediv _ hpos] at hx hy
  refine ⟨hlt, hmax, ?_⟩
  cases a with
  | mk az ax ay =>
    simp only [Coord.ancestor, Coord.mk.injEq]
    simp only at hx hy hlt ha0
    exact ⟨by omega, hx, hy⟩

theorem visit_pushes_pathChild {D F O : Type} (C : Collab D F O) (opts : Options)
    (z0 : Int) (hz0 : 0 ≤ z0) (T : Coord) (hT0 : 1 ≤ T.z) (hT1 : T.z ≤ 24)
    (s : Index F) (a : Entry F) (h1 : z0 ≤ a.z) (h2 : a.z ≤ T.z)
    (h3 : z0 ≤ opts.maxZoom → a.z ≤ opts.maxZoom) :
    ∀ a' ∈ (visit C opts (some (T.z, T.x, T.y)) s a).2, PathChild opts z0 T a'.coord := by
  intro a' ha'
  rcases visit_pushed_cases C opts (some (T.z, T.x, T.y)) s a with h | ⟨hs, -, h⟩
  · rw [h] at ha'; cases ha'
  · rw [h] at ha'
    obtain ⟨hlt, hmax, hanc⟩ := unstopped_on_path opts T hT0 hT1 a.coord (by show 0 ≤ a.z; omega)
      h2 _ hs
    have hpar : a'.coord.parent = a.coord ∧ a'.z = a.z + 1 := by
      simp only [childEntries, List.mem_cons, List.mem_singleton, List.not_mem_nil,
        or_false] at ha'
      rcases ha' with rfl | rfl | rfl | rfl <;>
        (simp only [Entry.coord, Coord.parent, Coord.mk.injEq, and_true]
         refine ⟨by omega, by omega, by omega⟩)
    have hz' : a'.coord.z = a.z + 1 := hpar.2
    have haz : a.coord.z = a.z := rfl
    refine ⟨by omega, by omega, fun hm => by have := h3 hm; omega, (T.z - a.z).toNat, by omega,
      by omega, ?_, ?_⟩
    · rw [hpar.1]; rw [haz] at hanc; exact hanc
    · rw [haz] at hanc; rw [← hanc]; exact hmax

/-! ## One pull of the stream -/

/-- C1. `toID(z, x, y)` is `((2^z * y + x) * 32) + z` on the valid zooms, and it
is injective on valid tile coordinates: `z` in `[0, 24]`, `x` and `y` in
`[0, 2^z)`. -/
theorem toID_packing_injective (z1 x1 y1 z2 x2 y2 : Int)
    (hz1 : 0 ≤ z1 ∧ z1 ≤ 24) (hz2 : 0 ≤ z2 ∧ z2 ≤ 24)
    (hx1 : 0 ≤ x1 ∧ x1 < 2 ^ z1.toNat) (_hy1 : 0 ≤ y1 ∧ y1 < 2 ^ z1.toNat)
    (hx2 : 0 ≤ x2 ∧ x2 < 2 ^ z2.toNat) (_hy2 : 0 ≤ y2 ∧ y2 < 2 ^ z2.toNat) :
    toID z1 x1 y1 = ((2 ^ z1.toNat * y1 + x1) * 32) + z1 ∧
    (toID z1 x1 y1 = toID z2 x2 y2 → z1 = z2 ∧ x1 = x2 ∧ y1 = y2) :=
  ⟨toID_eq z1 x1 y1 hz1.1 (by omega),
   fun h => toID_inj hz1.1 (by omega) hz2.1 (by omega) hx1.1 hx1.2 hx2.1 hx2.2 h⟩

theorem toID_packing_injective_witness :
    toID 3 5 2 = ((2 ^ (3 : Int).toNat * 2 + 5) * 32) + 3 ∧
    (toID 3 5 2 = toID 3 5 2 → (3 : Int) = 3 ∧ (5 : Int) = 5 ∧ (2 : Int) = 2) :=
  toID_packing_injective 3 5 2 3 5 2 (by decide) (by decide) (by decide) (by decide)
    (by decide) (by decide)

/-- C3 (as stated) fails: on the index built eagerly from one feature, the call
`getTile(0, 0, 0, persist = false)` hits the cached root and returns without
wiping anything: the cache and the coordinate log are not empty afterwards. -/
theorem getTile_nopersist_keeps_cache_on_hit :
    (getTile exC exOpts exIndex 0 0 0 false false).2.tiles ≠ [] ∧
    (getTile exC exOpts exIndex 0 0 0 false false).2.tileCoords ≠ [] := by
  decide

/-- C3 (amended). After `getTile(z, x, y, persist = false, returnBranch)`: when
the call performs a drill-down the cache and the coordinate log are both empty;
when it returns early (zoom out of range, cache hit, no ancestor with a source)
the index is unchanged. -/
theorem getTile_nopersist_wipes_iff_drill {D F O : Type} (C : Collab D F O) (opts : Options)
    (s : Index F) (z x y : Int) (returnbranch : Bool) :
    if (drillStart s z x y).isSome then
      (getTile C opts s z x y false returnbranch).2.tiles = [] ∧
      (getTile C opts s z x y false returnbranch).2.tileCoords = []
    else (getTile C opts s z x y false returnbranch).2 = s := by
  cases h : drillStart s z x y with
  | none => simp [getTile_of_drillStart_none C opts s z x y false returnbranch h]
  | some e => simp [getTile_of_drillStart_some C opts s z x y false returnbranch e h]

/-- C5. Read-time wrap idempotence: `getTile(z, x + k * 2^z, y, ..)` returns the
same result and leaves the same index as `getTile(z, x, y, ..)`; for `z` in
`[0, 24]` the wrapped `x` is the Euclidean remainder of `x` modulo `2^z` and
lies in `[0, 2^z)`. -/
theorem getTile_wrap_idempotent {D F O : Type} (C : Collab D F O) (opts : Options)
    (s : Index F) (z x y k : Int) (persist returnbranch : Bool) :
    getTile C opts s z (x + k * 2 ^ z.toNat) y persist returnbranch =
      getTile C opts s z x y persist returnbranch ∧
    (if 0 ≤ z ∧ z ≤ 24 then
      wrapX (shl1 z) x = x % 2 ^ z.toNat ∧ 0 ≤ wrapX (shl1 z) x ∧
        wrapX (shl1 z) x < 2 ^ z.toNat
     else True) := by
  by_cases hz : 0 ≤ z ∧ z ≤ 24
  · have hP : (0 : Int) < 2 ^ z.toNat := by positivity
    refine ⟨?_, ?_⟩
    · unfold getTile
      rw [wrapX_add_mul z x k hz.1 hz.2]
    · rw [if_pos hz, wrapX_shl1 z x hz.1 hz.2]
      exact ⟨rfl, Int.emod_nonneg _ (ne_of_gt hP), Int.emod_lt_of_pos _ hP⟩
  · refine ⟨?_, by rw [if_neg hz]; trivial⟩
    have hz' : z < 0 ∨ z > 24 := by omega
    unfold getTile
    simp [hz']

/-- C6. `getTile` is total and returns a miss, leaving the index unchanged, when
`z` is out of `[0, 24]`, or when the wrapped target is not cached and either no
strict ancestor is cached or the nearest cached strict ancestor has no source;
with `persist = true`, after a drill-down, the result is a miss exactly when the
target id is absent from the cache. -/
theorem getTile_miss_cases {D F O : Type} (C : Collab D F O) (opts : Options)
    (s : Index F) (z x y : Int) (persist returnbranch : Bool) :
    ((z < 0 ∨ z > 24) →
      getTile C opts s z x y persist returnbranch = (Result.miss, s)) ∧
    ((0 ≤ z ∧ z ≤ 24) → getT s.tiles (toID z (wrapX (shl1 z) x) y) = none →
      (NoCachedAncestor s.tiles z (wrapX (shl1 z) x) y ∨
        ∃ k p, NearestCachedAncestor s.tiles z (wrapX (shl1 z) x) y k p ∧ p.source = none) →
      getTile C opts s z x y persist returnbranch = (Result.miss, s)) ∧
    ((drillStart s z x y).isSome →
      ((getTile C opts s z x y true returnbranch).1 = Result.miss ↔
        getT (getTile C opts s z x y true returnbranch).2.tiles
          (toID z (wrapX (shl1 z) x) y) = none)) := by
  refine ⟨?_, ?_, ?_⟩
  · intro hz
    unfold getTile
    simp [hz]
  · intro hz hg hanc
    have hzn : ((z.toNat : Nat) : Int) = z := Int.toNat_of_nonneg hz.1
    have hd : drillStart s z x y = none := by
      unfold drillStart
      rw [if_neg (by omega), hg]
      simp only
      rcases hanc with hno | ⟨k, p, hnear, hsrc⟩
      · have hno' : NoCachedAncestor s.tiles (z.toNat : Int) (wrapX (shl1 z) x) y := by
          rw [hzn]; exact hno
        rw [(walkUp_eq_none s.tiles z.toNat _ y).2 hno']
      · cases hw : walkUp s.tiles z.toNat (wrapX (shl1 z) x) y with
        | none => rfl
        | some q =>
          obtain ⟨p', z0, x0, y0⟩ := q
          simp only [Option.map_eq_none']
          obtain ⟨k', ⟨hk1, hk2, hk3, hk4⟩, -, -, -⟩ := walkUp_eq_some _ _ _ _ _ _ _ _ hw
          rw [hzn] at hk3 hk4
          obtain ⟨h1, h2, h3, h4⟩ := hnear
          have hkk : k' = k := by
            rcases Nat.lt_trichotomy k' k with hlt | heq | hgt
            · have := h4 k' hk1 hlt; rw [this] at hk3; cases hk3
            · exact heq
            · have := hk4 k h1 hgt; rw [this] at h3; cases h3
          subst hkk
          rw [h3] at hk3
          cases hk3
          exact hsrc
    rw [getTile_of_drillStart_none C opts s z x y persist returnbranch hd, if_neg (by omega), hg]
  · intro hd
    obtain ⟨e, he⟩ := Option.isSome_iff_exists.1 hd
    rw [getTile_of_drillStart_some C opts s z x y true returnbranch e he]
    simp only [if_true]
    cases getT (drillState C opts s z x y e).tiles (toID z (wrapX (shl1 z) x) y) <;> simp

theorem getTile_miss_cases_witness :
    getTile exC exOpts exIndex 25 0 0 true false = (Result.miss, exIndex) :=
  (getTile_miss_cases exC exOpts exIndex 25 0 0 true false).1 (by decide)

/-- C7. The constructor throws exactly when `maxZoom < 0`, `maxZoom > 24`, or
`promoteId` and `generateId` are both truthy; when it throws nothing has been
handed to `createTile` and the cache and the coordinate log have no entry. -/
theorem GeoJSONVT_throws_iff {D F O : Type} (C : Collab D F O) (opts : Options) (fuel : Nat)
    (data : D) :
    if opts.maxZoom < 0 ∨ opts.maxZoom > 24 ∨
        (truthy opts.promoteId = true ∧ opts.generateId = true) then
      (GeoJSONVT C opts fuel data).thrown ≠ none ∧
      (GeoJSONVT C opts fuel data).index.tiles = [] ∧
      (GeoJSONVT C opts fuel data).index.tileCoords = [] ∧
      (GeoJSONVT C opts fuel data).index.created = [] ∧
      (GeoJSONVT C opts fuel data).stack = []
    else (GeoJSONVT C opts fuel data).thrown = none := by
  unfold GeoJSONVT
  by_cases h1 : opts.maxZoom < 0 ∨ opts.maxZoom > 24
  · have : opts.maxZoom < 0 ∨ opts.maxZoom > 24 ∨
        (truthy opts.promoteId = true ∧ opts.generateId = true) := by tauto
    rw [if_pos this, if_pos h1]
    simp
  · by_cases h2 : truthy opts.promoteId = true ∧ opts.generateId = true
    · have : opts.maxZoom < 0 ∨ opts.maxZoom > 24 ∨
        (truthy opts.promoteId = true ∧ opts.generateId = true) := by tauto
      rw [if_pos this, if_neg h1, if_pos h2]
      simp
    · have : ¬ (opts.maxZoom < 0 ∨ opts.maxZoom > 24 ∨
        (truthy opts.promoteId = true ∧ opts.generateId = true)) := by tauto
      rw [if_neg this, if_neg h1, if_neg h2]
      simp only
      split <;> rfl

/-- C4 (as stated) fails: on the index built eagerly from one feature (root and
four children), `getTile(2, 0, 0, persist = false, returnBranch = true)` drills
down from `(1, 0, 0)` and returns nine tiles: the three siblings of the target
and the three siblings of its parent are in the array, and each of the zooms 2
and 1 occurs four times. -/
theorem getTile_branch_holds_non_ancestors :
    (match (getTile exC exOpts exIndex 2 0 0 false true).1 with
      | Result.branch ts => ts.map fun t => t.map fun u => (u.z, u.x, u.y)
      | _ => []) =
    [some (2, 0, 0), some (2, 0, 1), some (2, 1, 0), some (2, 1, 1),
     some (1, 0, 0), some (1, 0, 1), some (1, 1, 0), some (1, 1, 1), some (0, 0, 0)] := by
  decide

/-- C4 (amended). When `getTile(z, x, y, persist = false, returnBranch = true)`
performs a drill-down that reaches the target, so that after it the coordinate
log is `pre ++ target :: post` with `target` not in `pre`, the array returned
holds the cached tiles of exactly the log entries `pre ++ [target]` (every entry
logged up to and including the target, whether or not an ancestor of it), in
order of non-increasing zoom. -/
theorem getTile_branch_is_sorted_log_prefix {D F O : Type} (C : Collab D F O) (opts : Options)
    (s : Index F) (z x y : Int) (e : Entry F) (pre post : List Coord)
    (hd : drillStart s z x y = some e)
    (hlog : (drillState C opts s z x y e).tileCoords = pre ++ ⟨z, wrapX (shl1 z) x, y⟩ :: post)
    (hpre : (⟨z, wrapX (shl1 z) x, y⟩ : Coord) ∉ pre) :
    ∃ ks : List Coord,
      (getTile C opts s z x y false true).1 =
        Result.branch
          (ks.map fun k => getT (drillState C opts s z x y e).tiles (toID k.z k.x k.y)) ∧
      ks.Perm (pre ++ [⟨z, wrapX (shl1 z) x, y⟩]) ∧
      ks.Pairwise fun a b => b.z ≤ a.z := by
  obtain ⟨ks, h1, h2, h3⟩ := tileArray_spec (drillState C opts s z x y e) z _ y pre post hlog hpre
  refine ⟨ks, ?_, h2, h3⟩
  rw [getTile_of_drillStart_some C opts s z x y false true e hd]
  simp [h1]

theorem getTile_branch_is_sorted_log_prefix_witness :
    ∃ ks : List Coord,
      (getTile exC exOpts exIndex 2 0 0 false true).1 =
        Result.branch
          (ks.map fun k =>
            getT (drillState exC exOpts exIndex 2 0 0 ⟨[7], 1, 0, 0⟩).tiles (toID k.z k.x k.y)) ∧
      ks.Perm ([⟨0, 0, 0⟩, ⟨1, 1, 1⟩, ⟨1, 1, 0⟩, ⟨1, 0, 1⟩, ⟨1, 0, 0⟩, ⟨2, 1, 1⟩, ⟨2, 1, 0⟩,
        ⟨2, 0, 1⟩] ++ [⟨2, wrapX (shl1 2) 0, 0⟩]) ∧
      ks.Pairwise fun a b => b.z ≤ a.z :=
  getTile_branch_is_sorted_log_prefix exC exOpts exIndex 2 0 0 ⟨[7], 1, 0, 0⟩
    [⟨0, 0, 0⟩, ⟨1, 1, 1⟩, ⟨1, 1, 0⟩, ⟨1, 0, 1⟩, ⟨1, 0, 0⟩, ⟨2, 1, 1⟩, ⟨2, 1, 0⟩, ⟨2, 0, 1⟩] []
    (by decide) (by decide) (by decide)

/-- C10. Cache/log consistency: after construction (whatever the iteration
budget) and after any sequence of `getTile` calls with any flags, the
coordinate log has no duplicate entry, the keys of the cache are exactly the
packed ids of the log entries (so a logged coordinate has its id cached and
every cached id is the id of a logged coordinate), and no id was handed to
`createTile` twice. -/
theorem cache_log_consistent {D F O : Type} (C : Collab D F O) (opts : Options) (fuel : Nat)
    (data : D) (calls : List Call) :
    (runCalls C opts (GeoJSONVT C opts fuel data).index calls).tileCoords.Nodup ∧
    keys (runCalls C opts (GeoJSONVT C opts fuel data).index calls).tiles =
      (runCalls C opts (GeoJSONVT C opts fuel data).index calls).tileCoords.map Coord.id ∧
    ((runCalls C opts (GeoJSONVT C opts fuel data).index calls).tileCoords.map Coord.id).Nodup ∧
    (runCalls C opts (GeoJSONVT C opts fuel data).index calls).created.Nodup := by
  obtain ⟨⟨h1, h2⟩, h3, -⟩ :=
    runCalls_lifetime C opts _ calls (GeoJSONVT_synced C opts fuel data).lifetime
  rw [h1] at h2
  exact ⟨List.Nodup.of_map _ h2, h1, h2, h3⟩

/-- C8 (as stated) fails: in the index built by `exClipped` the tile `(1, 0, 0)`
received no feature and kept the empty array as source; `getTile(2, 0, 0)` with
`persist = true` drills down from it, clears its source and pushes no child:
afterwards the tile is cached with its source absent and none of its four
children is cached. -/
theorem source_cleared_without_children :
    (getT (getTile exClipped exOpts exClippedIndex 2 0 0 true false).2.tiles (toID 1 0 0)).map
      (fun t => t.source) = some none ∧
    getT (getTile exClipped exOpts exClippedIndex 2 0 0 true false).2.tiles (toID 2 0 0) = none ∧
    getT (getTile exClipped exOpts exClippedIndex 2 0 0 true false).2.tiles (toID 2 0 1) = none ∧
    getT (getTile exClipped exOpts exClippedIndex 2 0 0 true false).2.tiles (toID 2 1 0) = none ∧
    getT (getTile exClipped exOpts exClippedIndex 2 0 0 true false).2.tiles (toID 2 1 1) = none := by
  decide!

/-- C8 (amended). With `indexMaxZoom` in `[0, 24]`, after a completed
construction and any sequence of `getTile` calls with `persist = true`, for
every logged coordinate `c` and the tile `t` cached for it: if a child of `c`
is logged then `t.source` is absent; and if `t.source` is absent then either
the feature set of `c` is empty or the four children of `c` are logged. -/
theorem source_absent_vs_children {D F O : Type} (C : Collab D F O) (opts : Options)
    (fuel : Nat) (data : D) (calls : List Call)
    (hz : 0 ≤ opts.indexMaxZoom ∧ opts.indexMaxZoom ≤ 24)
    (hfuel : treeSize opts.indexMaxZoom.toNat ≤ fuel)
    (hp : ∀ c ∈ calls, c.persist = true) :
    ∀ c ∈ (runCalls C opts (GeoJSONVT C opts fuel data).index calls).tileCoords,
      ∀ t, getT (runCalls C opts (GeoJSONVT C opts fuel data).index calls).tiles c.id = some t →
        ((∃ k ∈ c.children,
            k ∈ (runCalls C opts (GeoJSONVT C opts fuel data).index calls).tileCoords) →
          t.source = none) ∧
        (t.source = none →
          feats C opts (rootFeatures C opts data) c = [] ∨
          ∀ k ∈ c.children,
            k ∈ (runCalls C opts (GeoJSONVT C opts fuel data).index calls).tileCoords) := by
  have hR := GeoJSONVT_rootPass C opts fuel data hz.1 hz.2
  rw [GeoJSONVT_terminates C opts fuel data hz.1 hfuel] at hR
  have hG := hR.good.reads calls hp
  intro c hc t ht
  constructor
  · rintro ⟨k, hk, hkl⟩
    obtain ⟨hpar, hkz⟩ := Coord.children_parent hk
    have hcz := (hG.logValid c hc).1
    have := (hG.parent k (Or.inl hkl) (by omega)).2.2.2
    rw [hpar] at this
    exact this t ht
  · intro hsrc
    have hs : ∀ t', getT (runCalls C opts (GeoJSONVT C opts fuel data).index calls).tiles c.id
        = some t' → t'.source = none := by
      intro t' ht'
      rw [ht] at ht'
      cases ht'
      exact hsrc
    rcases hG.kids c hc (by simp [coordsOf]) hs with h | h
    · exact Or.inl h
    · right
      intro k hk
      rcases h k hk with h' | h'
      · exact h'
      · simp [coordsOf] at h'

theorem source_absent_vs_children_witness :
    ((∃ k ∈ (⟨1, 0, 0⟩ : Coord).children,
        k ∈ (runCalls exC exOpts (GeoJSONVT exC exOpts 100 [7]).index
          [⟨2, 0, 0, true, false⟩]).tileCoords) →
      (⟨1, 0, 0, 1, 0, 1, 0, 0, 0, 0, [7], none⟩ : Tile Nat).source = none) ∧
    ((⟨1, 0, 0, 1, 0, 1, 0, 0, 0, 0, [7], none⟩ : Tile Nat).source = none →
      feats exC exOpts (rootFeatures exC exOpts [7]) ⟨1, 0, 0⟩ = [] ∨
      ∀ k ∈ (⟨1, 0, 0⟩ : Coord).children,
        k ∈ (runCalls exC exOpts (GeoJSONVT exC exOpts 100 [7]).index
          [⟨2, 0, 0, true, false⟩]).tileCoords) :=
  source_absent_vs_children exC exOpts 100 [7] [⟨2, 0, 0, true, false⟩]
    (by decide) (by decide) (by decide) ⟨1, 0, 0⟩ (by decide)
    ⟨1, 0, 0, 1, 0, 1, 0, 0, 0, 0, [7], none⟩ (by decide)

/-- C9. With `maxZoom = 4`, `indexMaxZoom = 2`, `indexMaxPoints = 0` and root
features for which every tile of zoom 0, 1 and 2 receives a non-empty feature
set with `numPoints > 0`, the eager build (21 iterations suffice) completes and
logs exactly the coordinates of the pyramid down to zoom 2: one at zoom 0, four
at zoom 1, sixteen at zoom 2; every zoom-2 tile retains its source; and for
`0 <= x, y < 8`, `getTile(3, x, y)` drills down from the zoom-2 ancestor
`(floor(x/2), floor(y/2))` with that ancestor's source and returns a tile. -/
theorem eager_depth2_then_drill {D F O : Type} (C : Collab D F O) (opts : Options)
    (fuel : Nat) (data : D)
    (hopts : opts.maxZoom = 4 ∧ opts.indexMaxZoom = 2 ∧ opts.indexMaxPoints = 0)
    (hids : ¬ (truthy opts.promoteId = true ∧ opts.generateId = true))
    (hfuel : 21 ≤ fuel)
    (hfeat : ∀ c : Coord, c.Valid → c.z ≤ 2 →
      feats C opts (rootFeatures C opts data) c ≠ [] ∧
      0 < (tileAt C opts (rootFeatures C opts data) c).numPoints) :
    (GeoJSONVT C opts fuel data).stack = [] ∧
    (∀ c, c ∈ (GeoJSONVT C opts fuel data).index.tileCoords ↔ c.Valid ∧ c.z ≤ 2) ∧
    ((GeoJSONVT C opts fuel data).index.tileCoords.filter fun c => decide (c.z = 0)).length = 1 ∧
    ((GeoJSONVT C opts fuel data).index.tileCoords.filter fun c => decide (c.z = 1)).length = 4 ∧
    ((GeoJSONVT C opts fuel data).index.tileCoords.filter fun c => decide (c.z = 2)).length = 16 ∧
    (∀ c ∈ (GeoJSONVT C opts fuel data).index.tileCoords, c.z = 2 →
      ∃ t, getT (GeoJSONVT C opts fuel data).index.tiles c.id = some t ∧
        t.source = some (feats C opts (rootFeatures C opts data) c)) ∧
    (∀ x y : Int, 0 ≤ x → x < 8 → 0 ≤ y → y < 8 →
      drillStart (GeoJSONVT C opts fuel data).index 3 x y =
        some ⟨feats C opts (rootFeatures C opts data) ⟨2, x / 2, y / 2⟩, 2, x / 2, y / 2⟩ ∧
      ∃ t, (getTile C opts (GeoJSONVT C opts fuel data).index 3 x y true false).1 =
        Result.tile (C.transform t opts.extent)) := by
  obtain ⟨hmz, himz, himp⟩ := hopts
  have h0 : 0 ≤ opts.indexMaxZoom := by omega
  have h24 : opts.indexMaxZoom ≤ 24 := by omega
  have hdone : (GeoJSONVT C opts fuel data).stack = [] := by
    apply GeoJSONVT_terminates C opts fuel data h0
    rw [himz]
    exact hfuel
  have hR := GeoJSONVT_rootPass C opts fuel data h0 h24
  rw [hdone] at hR
  have hok := GeoJSONVT_not_thrown C opts fuel data (by omega) hids
  have hrootne : rootFeatures C opts data ≠ [] := by
    have := (hfeat ⟨0, 0, 0⟩ (by decide) (by decide)).1
    simpa [feats, featsAt] using this
  have hroot := GeoJSONVT_root_logged C opts fuel data h0 h24 hok hrootne hdone
  have hmem : ∀ c, c ∈ (GeoJSONVT C opts fuel data).index.tileCoords ↔ c.Valid ∧ c.z ≤ 2 := by
    intro c
    constructor
    · intro hc
      exact ⟨hR.good.logValid c hc, by have := hR.cap c hc; omega⟩
    · rintro ⟨hv, hz⟩
      have hcz : c.z = (c.z.toNat : Int) := (Int.toNat_of_nonneg hv.1).symm
      apply hR.complete hroot c.z.toNat c hv hcz (by omega)
      intro j hj1 hj2
      have hva := Coord.ancestor_valid hv j hj2
      have hza : (c.ancestor j).z ≤ 2 := by simp only [Coord.ancestor]; omega
      obtain ⟨f1, f2⟩ := hfeat _ hva hza
      exact ⟨f1, by rw [himp]; exact f2⟩
  have hnd : (GeoJSONVT C opts fuel data).index.tileCoords.Nodup := by
    obtain ⟨e1, e2⟩ := hR.good.synced.1
    rw [e1] at e2
    exact List.Nodup.of_map _ e2
  obtain ⟨c0, c1, c2⟩ := pyramid2_counts _ hnd hmem
  refine ⟨hdone, hmem, c0, c1, c2, ?_, ?_⟩
  · intro c hc hz
    obtain ⟨t, ht, -, -⟩ := hR.good.tiles c hc
    refine ⟨t, ht, ?_⟩
    have := hR.src c hc (by simp [coordsOf]) t ht
    rw [rootStop_eq_true C opts _ c (by omega)] at this
    simpa using this
  · intro x y hx0 hx1 hy0 hy1
    have hT : (⟨3, x, y⟩ : Coord).Valid := by
      simp only [Coord.Valid]
      refine ⟨by omega, by omega, hx0, ?_, hy0, ?_⟩ <;> simpa using by assumption
    have hAv : ((⟨3, x, y⟩ : Coord).ancestor 1).Valid :=
      Coord.ancestor_valid hT 1 (by simp)
    have hA : (⟨3, x, y⟩ : Coord).ancestor 1 ∈ (GeoJSONVT C opts fuel data).index.tileCoords :=
      (hmem _).2 ⟨hAv, by simp [Coord.ancestor]⟩
    have hd := hR.drillStart_eq ⟨3, x, y⟩ hT 1 (le_refl 1)
      (by simp only [Nat.cast_one]; omega) hA
    have hd' : drillStart (GeoJSONVT C opts fuel data).index 3 x y =
        some ⟨feats C opts (rootFeatures C opts data) ⟨2, x / 2, y / 2⟩, 2, x / 2, y / 2⟩ := by
      rw [hd]
      simp [entryAt, Coord.ancestor]
    refine ⟨hd', ?_⟩
    obtain ⟨t, ht, -⟩ := hR.good.getTile_drill_hit ⟨3, x, y⟩ hT _ hd (by simp only; omega)
      (fun j hj1 hj2 => (hfeat _ (Coord.ancestor_valid hT j hj2)
        (by simp only [Coord.ancestor]; omega)).1) false
    exact ⟨t, ht⟩

theorem eager_depth2_then_drill_witness :
    (GeoJSONVT exC exDeep 21 [7]).stack = [] ∧
    (∀ c, c ∈ (GeoJSONVT exC exDeep 21 [7]).index.tileCoords ↔ c.Valid ∧ c.z ≤ 2) ∧
    ((GeoJSONVT exC exDeep 21 [7]).index.tileCoords.filter fun c => decide (c.z = 0)).length = 1 ∧
    ((GeoJSONVT exC exDeep 21 [7]).index.tileCoords.filter fun c => decide (c.z = 1)).length = 4 ∧
    ((GeoJSONVT exC exDeep 21 [7]).index.tileCoords.filter fun c => decide (c.z = 2)).length = 16 ∧
    (∀ c ∈ (GeoJSONVT exC exDeep 21 [7]).index.tileCoords, c.z = 2 →
      ∃ t, getT (GeoJSONVT exC exDeep 21 [7]).index.tiles c.id = some t ∧
        t.source = some (feats exC exDeep (rootFeatures exC exDeep [7]) c)) ∧
    (∀ x y : Int, 0 ≤ x → x < 8 → 0 ≤ y → y < 8 →
      drillStart (GeoJSONVT exC exDeep 21 [7]).index 3 x y =
        some ⟨feats exC exDeep (rootFeatures exC exDeep [7]) ⟨2, x / 2, y / 2⟩, 2, x / 2, y / 2⟩ ∧
      ∃ t, (getTile exC exDeep (GeoJSONVT exC exDeep 21 [7]).index 3 x y true false).1 =
        Result.tile (exC.transform t exDeep.extent)) :=
  eager_depth2_then_drill exC exDeep 21 [7] (by decide) (by decide) (by decide)
    fun c hv hz => exC_feats_pyramid2 c ((mem_pyramid2 c).2 ⟨hv, hz⟩)

/-- C2 (as stated) fails, in two ways.  With `maxZoom = 0` the deep index
(`indexMaxZoom = 1`) caches `(1, 0, 0)` and returns it, while the shallow index
(`indexMaxZoom = 0`) cannot drill below `maxZoom` and returns a miss.  With
`maxZoom = 4` the tile `(1, 0, 0)` is returned by both the deep index
(`indexMaxZoom = 2`) and the shallow one (`indexMaxZoom = 1`), but the two
results differ: the deep index has cleared the source of the tile. -/
theorem drill_down_equivalence_fails :
    ((⟨1, 0, 0⟩ : Coord) ∈ (GeoJSONVT exC (withDepth exFlat 1) 100 [7]).index.tileCoords ∧
      (getTile exC (withDepth exFlat 1) (GeoJSONVT exC (withDepth exFlat 1) 100 [7]).index
        1 0 0 true false).1 ≠ Result.miss ∧
      (getTile exC (withDepth exFlat 0) (GeoJSONVT exC (withDepth exFlat 0) 100 [7]).index
        1 0 0 true false).1 = Result.miss) ∧
    ((⟨1, 0, 0⟩ : Coord) ∈ (GeoJSONVT exC (withDepth exDeep 2) 100 [7]).index.tileCoords ∧
      (getTile exC (withDepth exDeep 2) (GeoJSONVT exC (withDepth exDeep 2) 100 [7]).index
        1 0 0 true false).1 ≠
      (getTile exC (withDepth exDeep 1) (GeoJSONVT exC (withDepth exDeep 1) 100 [7]).index
        1 0 0 true false).1) := by
  decide

/-- C2 (amended). Drill-down equivalence.  Let the collaborators not read
`indexMaxZoom`, let the two option sets differ only in `indexMaxZoom`, with
`0 <= d2 < d1 <= maxZoom <= 24`, and let both eager builds be complete.  For
every `(z, x, y)` logged by the deep build, `getTile(z, x, y)` with
`persist = true` returns a tile on the deep index (leaving it unchanged) and a
tile on the fresh shallow index, and the two tiles are equal up to the
`source` field. -/
theorem drill_down_equivalence {D F O : Type} (C : Collab D F O) (opts : Options)
    (d1 d2 : Int) (fuel1 fuel2 : Nat) (data : D) (z x y : Int) (returnbranch : Bool)
    (hind : IgnoresIndexDepth C)
    (hd : 0 ≤ d2 ∧ d2 < d1 ∧ d1 ≤ opts.maxZoom ∧ opts.maxZoom ≤ 24)
    (hf1 : treeSize d1.toNat ≤ fuel1) (hf2 : treeSize d2.toNat ≤ fuel2)
    (hlogged : (⟨z, x, y⟩ : Coord) ∈
      (GeoJSONVT C (withDepth opts d1) fuel1 data).index.tileCoords) :
    ∃ t1 t2 : Tile F,
      getTile C (withDepth opts d1) (GeoJSONVT C (withDepth opts d1) fuel1 data).index
          z x y true returnbranch =
        (Result.tile (C.transform t1 opts.extent),
          (GeoJSONVT C (withDepth opts d1) fuel1 data).index) ∧
      (getTile C (withDepth opts d2) (GeoJSONVT C (withDepth opts d2) fuel2 data).index
          z x y true returnbranch).1 = Result.tile (C.transform t2 opts.extent) ∧
      t1.erase = t2.erase := by
  obtain ⟨hd0, hd12, hd1m, hm24⟩ := hd
  -- the two finished root passes
  have hdone1 := GeoJSONVT_terminates C (withDepth opts d1) fuel1 data
    (by show 0 ≤ d1; omega) hf1
  have hdone2 := GeoJSONVT_terminates C (withDepth opts d2) fuel2 data
    (by show 0 ≤ d2; omega) hf2
  have hR1 := GeoJSONVT_rootPass C (withDepth opts d1) fuel1 data
    (by show 0 ≤ d1; omega) (by show d1 ≤ 24; omega)
  have hR2 := GeoJSONVT_rootPass C (withDepth opts d2) fuel2 data
    (by show 0 ≤ d2; omega) (by show d2 ≤ 24; omega)
  rw [hdone1] at hR1
  rw [hdone2] at hR2
  rw [rootFeatures_withDepth C hind] at hR1 hR2
  -- the target and its ancestors in the deep index
  have hT := hR1.good.logValid _ hlogged
  have hTz : z ≤ d1 := hR1.cap _ hlogged
  have hanc := hR1.ancestors _ hlogged
  have hfeat2 : ∀ j : Nat, 1 ≤ j → (j : Int) ≤ z →
      feats C (withDepth opts d2) (rootFeatures C opts data) ((⟨z, x, y⟩ : Coord).ancestor j) ≠ [] ∧
      (withDepth opts d2).indexMaxPoints <
        (tileAt C (withDepth opts d2) (rootFeatures C opts data)
          ((⟨z, x, y⟩ : Coord).ancestor j)).numPoints := by
    intro j hj1 hj2
    have := (hanc j hj2).2 hj1
    rw [feats_withDepth C hind, tileAt_withDepth C hind] at this ⊢
    exact this
  -- the result on the deep index
  obtain ⟨t1, hget1, -, he1⟩ := hR1.good.getTile_hit _ hT hlogged true returnbranch
  rw [tileAt_withDepth C hind] at he1
  -- the shallow index is not empty
  have hne1 : (GeoJSONVT C (withDepth opts d1) fuel1 data).index ≠ ⟨[], [], []⟩ := by
    intro h; rw [h] at hlogged; cases hlogged
  have hok1 : (GeoJSONVT C (withDepth opts d1) fuel1 data).thrown = none ∧
      rootFeatures C (withDepth opts d1) data ≠ [] := by
    rcases GeoJSONVT_cases C (withDepth opts d1) fuel1 data with ⟨h, -⟩ | ⟨h, h', -, -⟩
    · exact absurd h hne1
    · exact ⟨h, h'⟩
  have hok2 := GeoJSONVT_thrown_withDepth C opts d1 d2 fuel1 fuel2 data hok1.1
  have hroot2 := GeoJSONVT_root_logged C (withDepth opts d2) fuel2 data
    (by show 0 ≤ d2; omega) (by show d2 ≤ 24; omega) hok2
    (by rw [rootFeatures_withDepth C hind]; rw [rootFeatures_withDepth C hind] at hok1;
        exact hok1.2) hdone2
  by_cases hzd : z ≤ d2
  · -- the target is already cached by the shallow build
    have hcz : z = (z.toNat : Int) := (Int.toNat_of_nonneg hT.1).symm
    have hlog2 := hR2.complete hroot2 z.toNat ⟨z, x, y⟩ hT hcz hzd hfeat2
    obtain ⟨t2, hget2, -, he2⟩ := hR2.good.getTile_hit _ hT hlog2 true returnbranch
    rw [tileAt_withDepth C hind] at he2
    exact ⟨t1, t2, hget1, by rw [hget2]; rfl, by rw [he1, he2]⟩
  · -- the shallow index drills down from the ancestor at zoom `d2`
    have hKz : (((z - d2).toNat : Nat) : Int) = z - d2 := Int.toNat_of_nonneg (by omega)
    have hAv := Coord.ancestor_valid hT (z - d2).toNat (by show _ ≤ z; omega)
    have hAz : ((⟨z, x, y⟩ : Coord).ancestor (z - d2).toNat).z = d2 := by
      simp only [Coord.ancestor]; omega
    have hAlog : (⟨z, x, y⟩ : Coord).ancestor (z - d2).toNat ∈
        (GeoJSONVT C (withDepth opts d2) fuel2 data).index.tileCoords := by
      apply hR2.complete hroot2 d2.toNat _ hAv (by rw [hAz]; omega) (by rw [hAz]; rfl)
      intro j hj1 hj2
      rw [Coord.ancestor_add]
      apply hfeat2 _ (by omega)
      rw [hAz] at hj2
      push_cast
      omega
    have hstart := hR2.drillStart_eq ⟨z, x, y⟩ hT (z - d2).toNat (by omega)
      (by show z - _ = d2; omega) hAlog
    obtain ⟨t2, hget2, he2⟩ := hR2.good.getTile_drill_hit ⟨z, x, y⟩ hT _ hstart
      (by show z ≤ opts.maxZoom; omega) (fun j h1 h2 => (hfeat2 j h1 h2).1) returnbranch
    rw [tileAt_withDepth C hind] at he2
    exact ⟨t1, t2, hget1, hget2, by rw [he1, he2]⟩

theorem drill_down_equivalence_witness :
    ∃ t1 t2 : Tile Nat,
      getTile exC (withDepth exDeep 2) (GeoJSONVT exC (withDepth exDeep 2) 100 [7]).index
          2 1 3 true false =
        (Result.tile (exC.transform t1 exDeep.extent),
          (GeoJSONVT exC (withDepth exDeep 2) 100 [7]).index) ∧
      (getTile exC (withDepth exDeep 1) (GeoJSONVT exC (withDepth exDeep 1) 100 [7]).index
          2 1 3 true false).1 = Result.tile (exC.transform t2 exDeep.extent) ∧
      t1.erase = t2.erase :=
  drill_down_equivalence exC exDeep 2 1 100 100 [7] 2 1 3 false exC_ignoresIndexDepth
    (by decide) (by decide) (by decide) (by decide)

/-! ## C11: the number of tiles resident in the stream -/

/-- C13 (as stated) fails: with `maxZoom = 0` and `indexMaxZoom = 1` the eager
build caches the root and its four children; `getTile(2, 0, 0)` then drills
down from `(1, 0, 0)` and inserts the tile `(2, 0, 0)`, whose zoom 2 is greater
than `min(cz, maxZoom) = 0`. -/
theorem drill_inserts_beyond_maxZoom :
    drillStart (GeoJSONVT exC (withDepth exFlat 1) 5 [7]).index 2 0 0 = some ⟨[7], 1, 0, 0⟩ ∧
    (⟨2, 0, 0⟩ : Coord) ∉ (GeoJSONVT exC (withDepth exFlat 1) 5 [7]).index.tileCoords ∧
    (⟨2, 0, 0⟩ : Coord) ∈ (drillState exC (withDepth exFlat 1)
      (GeoJSONVT exC (withDepth exFlat 1) 5 [7]).index 2 0 0 ⟨[7], 1, 0, 0⟩).tileCoords ∧
    ¬ ((2 : Int) ≤ min 2 (withDepth exFlat 1).maxZoom) := by
  decide

/-- C13 (amended). In the drill-down that `getTile(z, x, y, ..)` starts at the
entry `e` towards the wrapped target `T = (z, x, y)`, whatever the cache: every
coordinate newly logged (and so every tile newly cached) has its zoom in
`(e.z, z]`, and at most `maxZoom` when `e.z <= maxZoom`, and its parent is a
strict ancestor of `T`, at most `z - e.z` levels up, whose zoom is not
`maxZoom`; and every cached tile left without a source either had none before
or is stored under the id of such a strict ancestor of `T`. -/
theorem drill_restricted_to_path {D F O : Type} (C : Collab D F O) (opts : Options)
    (s : Index F) (z x y : Int) (e : Entry F) (hd : drillStart s z x y = some e) :
    (∀ c ∈ (drillState C opts s z x y e).tileCoords, c ∉ s.tileCoords →
      e.z < c.z ∧ c.z ≤ z ∧ (e.z ≤ opts.maxZoom → c.z ≤ opts.maxZoom) ∧
      ∃ j : Nat, 1 ≤ j ∧ (j : Int) ≤ z - e.z ∧
        c.parent = (⟨z, wrapX (shl1 z) x, y⟩ : Coord).ancestor j ∧
        c.parent.z ≠ opts.maxZoom) ∧
    (∀ id t', getT (drillState C opts s z x y e).tiles id = some t' → t'.source = none →
      (∃ t, getT s.tiles id = some t ∧ t.source = none) ∨
      ∃ j : Nat, 1 ≤ j ∧ (j : Int) ≤ z - e.z ∧
        id = ((⟨z, wrapX (shl1 z) x, y⟩ : Coord).ancestor j).id ∧
        ((⟨z, wrapX (shl1 z) x, y⟩ : Coord).ancestor j).z ≠ opts.maxZoom) := by
  obtain ⟨hz0, hz1, -, k, p, ⟨hk1, hk2, hkp, -⟩, -, ez, ex, ey⟩ := drillStart_spec s z x y e hd
  have hcached : getT s.tiles (toID e.z e.x e.y) = some p := by
    rw [ez, ex, ey]; exact hkp
  have hfuel : drillFuel z e.z = 4 * (z - e.z).toNat + 1 := rfl
  have hrun : drillState C opts s z x y e =
      (splitLoop C opts (some (z, wrapX (shl1 z) x, y)) (4 * (z - e.z).toNat)
        (visit C opts (some (z, wrapX (shl1 z) x, y)) s e).1
        ((visit C opts (some (z, wrapX (shl1 z) x, y)) s e).2.reverse ++ [])).1 := by
    unfold drillState splitTile
    rw [hfuel]
    cases e
    rfl
  have hpush := fun (s' : Index F) (a : Entry F) (h1 : e.z ≤ a.z) (h2 : a.z ≤ z)
      (h3 : e.z ≤ opts.maxZoom → a.z ≤ opts.maxZoom) =>
    visit_pushes_pathChild C opts e.z (by omega) ⟨z, wrapX (shl1 z) x, y⟩ (by show 1 ≤ z; omega)
      hz1 s' a h1 h2 h3
  obtain ⟨hA, hB⟩ := splitLoop_added C opts (some (z, wrapX (shl1 z) x, y))
    (fun a => PathChild opts e.z ⟨z, wrapX (shl1 z) x, y⟩ a.coord)
    (fun s' a ha => hpush s' a (le_of_lt ha.1) ha.2.1 ha.2.2.1)
    (4 * (z - e.z).toNat) (visit C opts (some (z, wrapX (shl1 z) x, y)) s e).1
    ((visit C opts (some (z, wrapX (shl1 z) x, y)) s e).2.reverse ++ [])
    (by
      intro a ha
      rw [List.append_nil] at ha
      exact hpush s e (le_refl _) (by omega) (fun h => h) a (List.mem_reverse.1 ha))
  rw [hrun]
  refine ⟨?_, ?_⟩
  · intro c hc hnew
    rcases hA c hc with h | ⟨a, ⟨h1, h2, h3, j, hj1, hj2, hj3, hj4⟩, rfl⟩
    · rcases (visit_mem_log C opts _ s e c).1 h with h' | ⟨h', -⟩
      · exact absurd h' hnew
      · rw [hcached] at h'; cases h'
    · exact ⟨h1, h2, h3, j, hj1, hj2, hj3, by rw [hj3]; exact hj4⟩
  · intro id t' h1 h2
    rcases hB id t' h1 h2 with ⟨t, ht, hts⟩ | ⟨a, np, ha, hid, hs⟩
    · rw [visit_get] at ht
      by_cases hid : id = toID e.z e.x e.y
      · rw [if_pos hid] at ht
        right
        have hsrc : visitedSource C opts (some (z, wrapX (shl1 z) x, y)) s e = none := by
          have := congrArg (fun o => o.map Tile.source) ht
          simp only [Option.map_some'] at this
          rw [hts] at this
          exact Option.some.inj this
        unfold visitedSource at hsrc
        cases hs : stopHere opts (some (z, wrapX (shl1 z) x, y)) e.z e.x e.y
            (visitedTile C opts s e).numPoints
        · obtain ⟨hlt, hmax, hanc⟩ := unstopped_on_path opts ⟨z, wrapX (shl1 z) x, y⟩
            (by show 1 ≤ z; omega) hz1 e.coord (by show 0 ≤ e.z; omega) (by show e.z ≤ z; omega)
            _ hs
          have hez : e.coord.z = e.z := rfl
          rw [hez] at hanc
          refine ⟨(z - e.z).toNat, by omega, by omega, ?_, ?_⟩
          · show id = (Coord.ancestor ⟨z, wrapX (shl1 z) x, y⟩ (z - e.z).toNat).id
            rw [← hanc, hid]; rfl
          · show (Coord.ancestor ⟨z, wrapX (shl1 z) x, y⟩ (z - e.z).toNat).z ≠ opts.maxZoom
            rw [← hanc]; exact hmax
        · rw [hs] at hsrc; simp at hsrc
      · rw [if_neg hid] at ht
        exact Or.inl ⟨t, ht, hts⟩
    · right
      obtain ⟨c1, c2, c3, -⟩ := ha
      obtain ⟨hlt, hmax, hanc⟩ := unstopped_on_path opts ⟨z, wrapX (shl1 z) x, y⟩
        (by show 1 ≤ z; omega) hz1 a.coord (by show 0 ≤ a.z; have : a.coord.z = a.z := rfl; omega)
        c2 _ hs
      have haz : a.coord.z = a.z := rfl
      rw [haz] at hanc
      have c1' : e.z < a.z := c1
      refine ⟨(z - a.z).toNat, by show 1 ≤ (z - a.z).toNat; have : a.z < z := hlt; omega,
        by show (((z - a.z).toNat : Nat) : Int) ≤ z - e.z; have : a.z < z := hlt; omega, ?_, ?_⟩
      · show id = (Coord.ancestor ⟨z, wrapX (shl1 z) x, y⟩ (z - a.z).toNat).id
        rw [← hanc, hid]; rfl
      · show (Coord.ancestor ⟨z, wrapX (shl1 z) x, y⟩ (z - a.z).toNat).z ≠ opts.maxZoom
        rw [← hanc]; exact hmax

theorem drill_restricted_to_path_witness :
    drillStart exIndex 2 0 0 = some ⟨[7], 1, 0, 0⟩ ∧
    ((⟨[7], 1, 0, 0⟩ : Entry Nat).z < (⟨2, 0, 0⟩ : Coord).z ∧ (⟨2, 0, 0⟩ : Coord).z ≤ 2 ∧
      ((⟨[7], 1, 0, 0⟩ : Entry Nat).z ≤ exOpts.maxZoom →
        (⟨2, 0, 0⟩ : Coord).z ≤ exOpts.maxZoom) ∧
      ∃ j : Nat, 1 ≤ j ∧ (j : Int) ≤ 2 - (⟨[7], 1, 0, 0⟩ : Entry Nat).z ∧
        (⟨2, 0, 0⟩ : Coord).parent = (⟨2, wrapX (shl1 2) 0, 0⟩ : Coord).ancestor j ∧
        (⟨2, 0, 0⟩ : Coord).parent.z ≠ exOpts.maxZoom) :=
  ⟨by decide,
    (drill_restricted_to_path exC exOpts exIndex 2 0 0 ⟨[7], 1, 0, 0⟩ (by decide)).1 ⟨2, 0, 0⟩
      (by decide) (by decide)⟩

/-! ## C14: the upward walk of `getTile` -/

/-- C14. The upward walk of `getTile`, for `z` in `[0, 24]` and any cache: it
is a recursion on `z0`, so it ends within `z` steps; it returns nothing exactly
when no strict ancestor of the target is cached; when it returns a parent, that
parent is the nearest cached strict ancestor, `k` levels up with
`1 <= k <= z`, at the coordinates `(z - k, floor(x / 2^k), floor(y / 2^k))`, and
no ancestor strictly between it and the target is cached; and a drill-down is
only started with target zoom at least 1, from a strict ancestor of the
(wrapped) target. -/
theorem walkUp_selects_nearest {F : Type} (s : Index F) (z x y : Int)
    (hz : 0 ≤ z ∧ z ≤ 24) :
    (walkUp s.tiles z.toNat x y = none ↔ NoCachedAncestor s.tiles z x y) ∧
    (∀ p z0 x0 y0, walkUp s.tiles z.toNat x y = some (p, z0, x0, y0) →
      ∃ k : Nat, NearestCachedAncestor s.tiles z x y k p ∧ 1 ≤ k ∧ (k : Int) ≤ z ∧
        z0 = z - k ∧ x0 = x / 2 ^ k ∧ y0 = y / 2 ^ k ∧
        getT s.tiles (toID z0 x0 y0) = some p) ∧
    (∀ e, drillStart s z x y = some e →
      1 ≤ z ∧ 0 ≤ e.z ∧ e.z < z ∧
      ∃ k : Nat, 1 ≤ k ∧ e.z = z - k ∧ e.x = wrapX (shl1 z) x / 2 ^ k ∧ e.y = y / 2 ^ k) := by
  have hzn : ((z.toNat : Nat) : Int) = z := Int.toNat_of_nonneg hz.1
  refine ⟨?_, ?_, ?_⟩
  · have := walkUp_eq_none s.tiles z.toNat x y
    rw [hzn] at this
    exact this
  · intro p z0 x0 y0 h
    obtain ⟨k, hk, e1, e2, e3⟩ := walkUp_eq_some _ _ _ _ _ _ _ _ h
    rw [hzn] at hk e1
    refine ⟨k, hk, hk.1, hk.2.1, e1, e2, e3, ?_⟩
    have := hk.2.2.1
    simp only [ancestorID] at this
    rw [e1, e2, e3]
    exact this
  · intro e he
    obtain ⟨-, -, -, k, p, ⟨hk1, hk2, -, -⟩, -, ez, ex, ey⟩ := drillStart_spec s z x y e he
    exact ⟨by omega, by omega, by omega, k, hk1, ez, ex, ey⟩

theorem walkUp_selects_nearest_witness :
    (0 ≤ (3 : Int) ∧ (3 : Int) ≤ 24) ∧
    (walkUp exIndex.tiles (3 : Int).toNat 0 0 = none ↔ NoCachedAncestor exIndex.tiles 3 0 0) :=
  ⟨by decide, (walkUp_selects_nearest exIndex 3 0 0 (by decide)).1⟩

/-! ## C15: the clip stripes of the four children -/

/-- C15. With `extent > 0` and exact rational arithmetic: the stripes handed to
`clip` are `[x - k1, x + 0.5 + k1]` and `[x + 0.5 - k1, x + 1 + k1]` with
`k1 = buffer / (2 * extent)`; divided by `2^z` they are the buffer-extended
bounds `[(2x + i - buffer/extent) / 2^(z+1), (2x + i + 1 + buffer/extent) / 2^(z+1)]`
of child column `2x + i`; the two stripes overlap by exactly `buffer / extent`;
the four pushed children are `(2x + i, 2y + j)` at zoom `z + 1`, each with the
features clipped to stripe `i` in `x` and then stripe `j` in `y`; and the scale
handed to `clip` is `2^z` for `z` in `[0, 30]`. -/
theorem childEntries_stripes {D F O : Type} (C : Collab D F O) (opts : Options)
    (features : List F) (z x y : Int) (tile : Tile F) (_he : 0 < opts.extent) :
    childEntries C opts features z x y tile =
      [⟨stripeClip C opts features z x y tile 0 0, z + 1, 2 * x + 0, 2 * y + 0⟩,
       ⟨stripeClip C opts features z x y tile 0 1, z + 1, 2 * x + 0, 2 * y + 1⟩,
       ⟨stripeClip C opts features z x y tile 1 0, z + 1, 2 * x + 1, 2 * y + 0⟩,
       ⟨stripeClip C opts features z x y tile 1 1, z + 1, 2 * x + 1, 2 * y + 1⟩] ∧
    (∀ (c : Int) (i : Nat), i ≤ 1 →
      (stripe opts c i).1 / (2 : Rat) ^ z =
        (2 * (c : Rat) + i - (opts.buffer : Rat) / opts.extent) / (2 : Rat) ^ (z + 1) ∧
      (stripe opts c i).2 / (2 : Rat) ^ z =
        (2 * (c : Rat) + i + 1 + (opts.buffer : Rat) / opts.extent) / (2 : Rat) ^ (z + 1)) ∧
    (∀ c : Int, (stripe opts c 0).2 - (stripe opts c 1).1 = (opts.buffer : Rat) / opts.extent) ∧
    (0 ≤ z → z ≤ 30 → ((shl1 z : Int) : Rat) = (2 : Rat) ^ z) := by
  have hk : (0.5 : Rat) * (opts.buffer : Rat) / (opts.extent : Rat) = bufferFraction opts := by
    unfold bufferFraction
    rw [mul_div_assoc, div_mul_eq_div_div_swap]
    norm_num
    ring
  refine ⟨?_, ?_, ?_, ?_⟩
  · simp only [childEntries, stripeClip, stripe, hk]
    norm_num
    refine ⟨⟨?_, ?_, ?_⟩, ⟨?_, ?_, ?_⟩, ⟨?_, ?_, ?_⟩, ⟨?_, ?_, ?_⟩⟩ <;> ring_nf
  · intro c i hi
    have h2 : (2 : Rat) ^ (z + 1) = 2 ^ z * 2 := zpow_add_one₀ (by norm_num) z
    have hz : (2 : Rat) ^ z ≠ 0 := zpow_ne_zero z (by norm_num)
    have hb : (opts.buffer : Rat) / opts.extent = 2 * bufferFraction opts := by
      unfold bufferFraction
      rw [div_mul_eq_div_div_swap]
      ring
    rw [h2, hb]
    interval_cases i
    · simp only [stripe, if_true]
      constructor <;> (field_simp; ring)
    · simp only [stripe, one_ne_zero, if_false]
      constructor <;> (field_simp; ring)
  · intro c
    have hb : (opts.buffer : Rat) / opts.extent = 2 * bufferFraction opts := by
      unfold bufferFraction
      rw [div_mul_eq_div_div_swap]
      ring
    rw [hb]
    simp only [stripe, if_true, one_ne_zero, if_false]
    ring
  · intro h0 h30
    rw [shl1_eq_pow z h0 (by omega)]
    push_cast
    rw [← zpow_natCast, Int.toNat_of_nonneg h0]

theorem childEntries_stripes_witness :
    0 < exOpts.extent ∧
    childEntries exC exOpts [7] 1 0 0 (exC.createTile [7] 1 0 0 exOpts) =
      [⟨stripeClip exC exOpts [7] 1 0 0 (exC.createTile [7] 1 0 0 exOpts) 0 0, 1 + 1,
          2 * 0 + 0, 2 * 0 + 0⟩,
       ⟨stripeClip exC exOpts [7] 1 0 0 (exC.createTile [7] 1 0 0 exOpts) 0 1, 1 + 1,
          2 * 0 + 0, 2 * 0 + 1⟩,
       ⟨stripeClip exC exOpts [7] 1 0 0 (exC.createTile [7] 1 0 0 exOpts) 1 0, 1 + 1,
          2 * 0 + 1, 2 * 0 + 0⟩,
       ⟨stripeClip exC exOpts [7] 1 0 0 (exC.createTile [7] 1 0 0 exOpts) 1 1, 1 + 1,
          2 * 0 + 1, 2 * 0 + 1⟩] :=
  ⟨by decide,
    (childEntries_stripes exC exOpts [7] 1 0 0 (exC.createTile [7] 1 0 0 exOpts)
      (by decide)).1⟩

/-! ## C16: the stream against the eager loop -/

/-- C18, the code at a failing input: on the index built eagerly from one
feature, after `getTile(3, 0, 0)` with `persist = true` has cached tiles down to
zoom 3 below `(1, 0, 0)`, the call
`getTile(2, 3, 3, persist = false, returnBranch = false)` drills down from
`(1, 1, 1)`, reaches and caches the target `(2, 3, 3)`, and returns the tile
`(3, 0, 0)`; in the same state the call with `persist = true` returns the tile
`(2, 3, 3)` stored under the target's id. -/
theorem getTile_single_returns_deeper_tile :
    drillStart (getTile exC exOpts exIndex 3 0 0 true false).2 2 3 3 = some ⟨[7], 1, 1, 1⟩ ∧
    (⟨2, 3, 3⟩ : Coord) ∈ (drillState exC exOpts (getTile exC exOpts exIndex 3 0 0 true false).2
      2 3 3 ⟨[7], 1, 1, 1⟩).tileCoords ∧
    (getT (drillState exC exOpts (getTile exC exOpts exIndex 3 0 0 true false).2
      2 3 3 ⟨[7], 1, 1, 1⟩).tiles (toID 2 3 3)).map (fun t => (t.z, t.x, t.y)) = some (2, 3, 3) ∧
    (match (getTile exC exOpts (getTile exC exOpts exIndex 3 0 0 true false).2
        2 3 3 false false).1 with
      | Result.single (some t) => some (t.z, t.x, t.y)
      | _ => none) = some (3, 0, 0) ∧
    (match (getTile exC exOpts (getTile exC exOpts exIndex 3 0 0 true false).2
        2 3 3 true false).1 with
      | Result.tile t => some (t.z, t.x, t.y)
      | _ => none) = some (2, 3, 3) := by
  decide

/-! ## C19: termination of the work-list loop -/

/-- C19. For every collaborator behaviour, feature set and cache state, the
work-list loop of `splitTile` ends with an empty work list: in the root pass
started at `(0, 0, 0)`, for every integer `indexMaxZoom >= 0`, within
`(4^(indexMaxZoom+1) - 1) / 3` visits; and in a drill-down pass to
`(cz, cx, cy)` started at any entry `(z0, x0, y0)` with `0 <= z0 < cz`, within
`1 + 4 * (cz - z0)` visits. -/
theorem splitTile_terminates {D F O : Type} (C : Collab D F O) (opts : Options)
    (s : Index F) (features : List F) :
    (0 ≤ opts.indexMaxZoom →
      (splitTile C opts ((4 ^ (opts.indexMaxZoom.toNat + 1) - 1) / 3) s features 0 0 0 none).2
        = []) ∧
    (∀ z0 x0 y0 cz cx cy : Int, 0 ≤ z0 → z0 < cz →
      (splitTile C opts (1 + 4 * (cz - z0).toNat) s features z0 x0 y0 (some (cz, cx, cy))).2
        = []) := by
  refine ⟨?_, ?_⟩
  · intro h0
    unfold splitTile
    apply splitLoop_root_terminates
    · intro e he
      rw [List.mem_singleton] at he
      subst he
      exact h0
    · rw [← treeSize_eq_div]
      simp [rootWeight]
  · intro z0 x0 y0 cz cx cy h0 hlt
    unfold splitTile
    apply splitLoop_path_terminates C opts cz cx cy (by omega)
    · intro e he
      rw [List.mem_singleton] at he
      subst he
      exact le_of_lt hlt
    · simp only [List.map_cons, List.map_nil, List.sum_cons, List.sum_nil, pathWeight]
      split <;> omega

theorem splitTile_terminates_witness :
    (0 ≤ exOpts.indexMaxZoom ∧
      (splitTile exC exOpts ((4 ^ (exOpts.indexMaxZoom.toNat + 1) - 1) / 3) ⟨[], [], []⟩
        [7] 0 0 0 none).2 = []) ∧
    ((0 : Int) ≤ 1 ∧ (1 : Int) < 3 ∧
      (splitTile exC exOpts (1 + 4 * ((3 : Int) - 1).toNat) exIndex [7] 1 0 0
        (some (3, 0, 0))).2 = []) :=
  ⟨⟨by decide, (splitTile_terminates exC exOpts ⟨[], [], []⟩ [7]).1 (by decide)⟩,
   ⟨by decide, by decide,
     (splitTile_terminates exC exOpts exIndex [7]).2 1 0 0 3 0 0 (by decide) (by decide)⟩⟩

/-! ## C20: after a wipe every call misses -/

/-- C20. Once a `getTile` call with `persist = false` has performed a
drill-down, every later `getTile` call on the index, after any further calls,
returns a miss and leaves the cache and the coordinate log empty. -/
theorem getTile_after_wipe_misses {D F O : Type} (C : Collab D F O) (opts : Options)
    (s : Index F) (z x y : Int) (returnbranch : Bool) (calls : List Call) (c : Call)
    (hd : (drillStart s z x y).isSome = true) :
    (getTile C opts (runCalls C opts (getTile C opts s z x y false returnbranch).2 calls)
        c.z c.x c.y c.persist c.returnbranch).1 = Result.miss ∧
    (getTile C opts (runCalls C opts (getTile C opts s z x y false returnbranch).2 calls)
        c.z c.x c.y c.persist c.returnbranch).2.tiles = [] ∧
    (getTile C opts (runCalls C opts (getTile C opts s z x y false returnbranch).2 calls)
        c.z c.x c.y c.persist c.returnbranch).2.tileCoords = [] := by
  obtain ⟨e, he⟩ := Option.isSome_iff_exists.1 hd
  have hw : (getTile C opts s z x y false returnbranch).2.tiles = [] ∧
      (getTile C opts s z x y false returnbranch).2.tileCoords = [] := by
    rw [getTile_of_drillStart_some C opts s z x y false returnbranch e he]
    simp
  have hstep : ∀ (s' : Index F) (c' : Call), s'.tiles = [] ∧ s'.tileCoords = [] →
      getTile C opts s' c'.z c'.x c'.y c'.persist c'.returnbranch = (Result.miss, s') := by
    intro s' c' hs'
    have hnone : drillStart s' c'.z c'.x c'.y = none := by
      cases h : drillStart s' c'.z c'.x c'.y with
      | none => rfl
      | some e' => exact absurd hs'.1 (drillStart_tiles_ne_nil s' _ _ _ e' h)
    rw [getTile_of_drillStart_none C opts s' _ _ _ _ _ hnone, hs'.1]
    simp [getT]
  have hrun : ∀ (cs : List Call) (s' : Index F), s'.tiles = [] ∧ s'.tileCoords = [] →
      (runCalls C opts s' cs).tiles = [] ∧ (runCalls C opts s' cs).tileCoords = [] := by
    intro cs
    induction cs with
    | nil => intro s' hs'; exact hs'
    | cons c' cs ih =>
      intro s' hs'
      simp only [runCalls]
      rw [hstep s' c' hs']
      exact ih s' hs'
  have hfin := hrun calls _ hw
  rw [hstep _ c hfin]
  exact ⟨rfl, hfin.1, hfin.2⟩

theorem getTile_after_wipe_misses_witness :
    (getTile exC exOpts (runCalls exC exOpts (getTile exC exOpts exIndex 2 0 0 false false).2
        [⟨1, 0, 0, true, false⟩]) 0 0 0 true false).1 = Result.miss ∧
    (getTile exC exOpts (runCalls exC exOpts (getTile exC exOpts exIndex 2 0 0 false false).2
        [⟨1, 0, 0, true, false⟩]) 0 0 0 true false).2.tiles = [] ∧
    (getTile exC exOpts (runCalls exC exOpts (getTile exC exOpts exIndex 2 0 0 false false).2
        [⟨1, 0, 0, true, false⟩]) 0 0 0 true false).2.tileCoords = [] :=
  getTile_after_wipe_misses exC exOpts exIndex 2 0 0 false [⟨1, 0, 0, true, false⟩]
    ⟨0, 0, 0, true, false⟩ (by decide)

end VT
